import Mathlib

/-!
Verification development for the `space-efficient-quantile` repository: a
modified Greenwald–Khanna quantile summary.  The data model and operations
below are shallow embeddings of the Rust sources:

* `Sample`, `SamplesNode`, `SamplesTree` embed
  `src/modified_gk/samples_tree/{sample,node,tree}.rs` (the complete B-tree
  implementation used by `src/algorithm/summary.rs`): node capacity 15,
  micro-compression at the leaves, split-on-overflow, max-insertion path.
* `SamplesCompressor` embeds `src/algorithm/samples_compressor.rs`.
* `IncomingMergeState` embeds `src/modified_gk/incoming_merge_state.rs`.
* `Summary` and the quantile helpers embed `src/algorithm/summary.rs`
  and `src/lib.rs`.
* `Checkpoint` / `insertCheckpoint` embed
  `src/algorithm/samples_tree/{checkpoint,checkpoints}.rs` (node capacity 16).

Rust `f64` values (the error tolerance ε and quantiles) are modelled as
rationals; machine integers (`u64`/`usize`) as `ℕ` (no arithmetic here ever
nears overflow); panics (assertion failures) as `none`/`Option` results.
Mutation is modelled by state passing: a Rust method that mutates `self` and
possibly a borrowed neighbour returns the new values of both.
-/

set_option linter.unusedVariables false
set_option linter.unusedSectionVars false

section DataModel

variable {T : Type} [LinearOrder T]

/-- Embeds `Sample` from `src/modified_gk/samples_tree/sample.rs` (identical
to the one in `src/algorithm/samples_tree/sample.rs`). -/
structure Sample (T : Type) where
  value : T
  g : ℕ
  delta : ℕ
  deriving DecidableEq, Repr

/-- `Sample::exact` -/
def Sample.exact (value : T) : Sample T :=
  { value := value, g := 1, delta := 0 }

/-- Embeds `SamplesNode`: `samples` plus `children : Option<Vec<Box<Node>>>`;
the `leaf` constructor is the `None` case. -/
inductive SamplesNode (T : Type) : Type where
  | leaf (samples : List (Sample T))
  | internal (samples : List (Sample T)) (children : List (SamplesNode T))
  deriving Repr

/-- `InsertResult` from `src/modified_gk/samples_tree/node.rs`. -/
inductive InsertResult (T : Type) : Type where
  | inserted
  | pendingSplit (median : Sample T) (right : SamplesNode T)
  deriving Repr

/-- `PushResult` from `src/modified_gk/samples_tree/node.rs`. -/
inductive PushResult (T : Type) : Type where
  | updatedInPlace
  | insertedR (result : InsertResult T)
  deriving Repr

/-- `NodeCapacity = typenum::U15` from `src/modified_gk/samples_tree/mod.rs`. -/
def nodeCapacity : ℕ := 15

/-- In-order sample sequence of a node: the semantics of the in-order
iterators of `src/modified_gk/samples_tree` (`iter`/`into_iter` both yield
the samples in order, interleaving each child before its separating
sample). -/
def SamplesNode.flatten : SamplesNode T → List (Sample T)
  | .leaf s => s
  | .internal s c => flattenAux c s
where
  /-- interleave the flattened children with the node's own samples -/
  flattenAux : List (SamplesNode T) → List (Sample T) → List (Sample T)
    | [], ys => ys
    | x :: _, [] => x.flatten
    | x :: xs, y :: ys => x.flatten ++ y :: flattenAux xs ys

/-- The position scan at the start of `SamplesNode::push_value`: index of the
first sample whose value is strictly greater than the incoming one, or the
length when there is none (`position(..).unwrap_or(len)`). -/
def findPos (samples : List (Sample T)) (value : T) : ℕ :=
  samples.findIdx (fun element => decide (value < element.value))

/-- The body of `SamplesNode::push_value_leaf`: decides between
micro-compression (returning `none` plus the mutated `samples` /
`parentRight`) and insertion (returning `some sample` to insert at `pos`,
with `samples` and `parentRight` unchanged). -/
def pushDecision (samples : List (Sample T)) (value : T) (pos : ℕ) (cap : ℕ)
    (hasParentLeft : Bool) (parentRight : Option (Sample T)) :
    Option (Sample T) × List (Sample T) × Option (Sample T) :=
  if pos = 0 ∧ samples.length = 0 then
    -- tree is empty
    (some (Sample.exact value), samples, parentRight)
  else if pos = 0 ∧ hasParentLeft = false then
    -- minimum all the way: try to merge the previous min into `after_min`
    match samples with
    | mn :: afterMin :: rest =>
      if afterMin.delta + afterMin.g + 1 ≤ cap then
        (none, { mn with value := value } :: { afterMin with g := afterMin.g + 1 } :: rest,
          parentRight)
      else
        (some (Sample.exact value), samples, parentRight)
    | _ =>
      (some (Sample.exact value), samples, parentRight)
  else if pos = samples.length ∧ parentRight = none then
    -- maximum all the way: try to merge the previous max into the new one
    match samples.getLast? with
    | some mx =>
      if mx.g + 1 ≤ cap then
        (none, samples.dropLast ++ [{ mx with value := value, g := mx.g + 1 }], parentRight)
      else
        (some (Sample.exact value), samples, parentRight)
    | none => (some (Sample.exact value), samples, parentRight)
  else
    -- generic case: `right` is samples[pos] or the parent-provided follower
    match samples.get? pos with
    | some r =>
      if r.delta + r.g + 1 ≤ cap then
        (none, samples.set pos { r with g := r.g + 1 }, parentRight)
      else
        (some { value := value, g := 1, delta := r.g + r.delta - 1 }, samples, parentRight)
    | none =>
      match parentRight with
      | some r =>
        if r.delta + r.g + 1 ≤ cap then
          (none, samples, some { r with g := r.g + 1 })
        else
          (some { value := value, g := 1, delta := r.g + r.delta - 1 }, samples, parentRight)
      | none =>
        -- unreachable: the source unwraps here
        (some (Sample.exact value), samples, parentRight)

/-- `SamplesNode::insert_sample_non_full`. -/
def SamplesNode.insertSampleNonFull (n : SamplesNode T) (sample : Sample T)
    (rightChild : Option (SamplesNode T)) (pos : ℕ) : SamplesNode T :=
  match n, rightChild with
  | .leaf s, _ => .leaf (s.insertIdx pos sample)
  | .internal s c, some rc => .internal (s.insertIdx pos sample) (c.insertIdx (pos + 1) rc)
  | .internal s c, none =>
    -- unreachable: the source unwraps the right child when children exist
    .internal (s.insertIdx pos sample) c

/-- `SamplesNode::insert_sample`: insert, splitting a full node into
(left, median, right); `self` becomes left, the other two are returned. -/
def SamplesNode.insertSample (n : SamplesNode T) (sample : Sample T)
    (rightChild : Option (SamplesNode T)) (pos : ℕ) : SamplesNode T × InsertResult T :=
  let s := match n with | .leaf s => s | .internal s _ => s
  if s.length < nodeCapacity then
    (n.insertSampleNonFull sample rightChild pos, .inserted)
  else
    let medPos := s.length / 2
    match (s.drop medPos).head? with
    | none =>
      -- unreachable: a full node is non-empty
      (n, .inserted)
    | some medElement =>
      let leftSamples := s.take medPos
      let rightSamples := s.drop (medPos + 1)
      let (leftNode, rightNode) : SamplesNode T × SamplesNode T :=
        match n with
        | .leaf _ => (.leaf leftSamples, .leaf rightSamples)
        | .internal _ c =>
          (.internal leftSamples (c.take (medPos + 1)),
           .internal rightSamples (c.drop (medPos + 1)))
      if pos ≤ medPos then
        (leftNode.insertSampleNonFull sample rightChild pos,
         .pendingSplit medElement rightNode)
      else
        (leftNode,
         .pendingSplit medElement (rightNode.insertSampleNonFull sample rightChild (pos - medPos - 1)))

mutual

/-- `SamplesNode::push_value`.  The mutable borrow `parent_right:
Option<&mut Sample<T>>` is modelled by threading the sample by value: the
middle component of the result is its (possibly updated) final state, which
the caller writes back. -/
def SamplesNode.pushValue (n : SamplesNode T) (value : T) (cap : ℕ)
    (hasParentLeft : Bool) (parentRight : Option (Sample T)) :
    SamplesNode T × Option (Sample T) × PushResult T :=
  match n with
  | .leaf s =>
    let pos := findPos s value
    match pushDecision s value pos cap hasParentLeft parentRight with
    | (none, s', pr') => (.leaf s', pr', .updatedInPlace)
    | (some sample, s', pr') =>
      let (n', r) := (SamplesNode.leaf s').insertSample sample none pos
      (n', pr', .insertedR r)
  | .internal s c =>
    let pos := findPos s value
    let hasParentLeft' := hasParentLeft || decide (0 < pos)
    match s.get? pos with
    | some sAtPos =>
      -- `children[pos]` is mutated through `pushValueChildren`; the child
      -- receives `&mut samples[pos]` as its following sample
      let (c', pr', res) := SamplesNode.pushValueChildren c pos value cap hasParentLeft'
        (some sAtPos)
      let s' := match pr' with
        | some q => s.set pos q
        | none => s
      match res with
      | .updatedInPlace => (.internal s' c', parentRight, .updatedInPlace)
      | .insertedR .inserted => (.internal s' c', parentRight, .insertedR .inserted)
      | .insertedR (.pendingSplit med right) =>
        let (n'', r) := (SamplesNode.internal s' c').insertSample med (some right) pos
        (n'', parentRight, .insertedR r)
    | none =>
      -- the child receives the ancestor-provided following sample
      let (c', pr', res) := SamplesNode.pushValueChildren c pos value cap hasParentLeft'
        parentRight
      match res with
      | .updatedInPlace => (.internal s c', pr', .updatedInPlace)
      | .insertedR .inserted => (.internal s c', pr', .insertedR .inserted)
      | .insertedR (.pendingSplit med right) =>
        let (n'', r) := (SamplesNode.internal s c').insertSample med (some right) pos
        (n'', pr', .insertedR r)

/-- Navigation into `children[pos]` for `push_value`, replacing that child by
its updated state (the position is in range whenever the caller is a
well-formed node; the source would panic on an out-of-range index). -/
def SamplesNode.pushValueChildren (children : List (SamplesNode T)) (pos : ℕ) (value : T)
    (cap : ℕ) (hasParentLeft : Bool) (parentRight : Option (Sample T)) :
    List (SamplesNode T) × Option (Sample T) × PushResult T :=
  match children, pos with
  | [], _ => ([], parentRight, .insertedR .inserted)
  | child :: rest, 0 =>
    let (child', pr', res) := child.pushValue value cap hasParentLeft parentRight
    (child' :: rest, pr', res)
  | child :: rest, pos + 1 =>
    let (rest', pr', res) := SamplesNode.pushValueChildren rest pos value cap hasParentLeft
      parentRight
    (child :: rest', pr', res)

end

mutual

/-- `SamplesNode::insert_max_sample`. -/
def SamplesNode.insertMaxSample (n : SamplesNode T) (sample : Sample T) :
    SamplesNode T × InsertResult T :=
  match n with
  | .leaf s => (SamplesNode.leaf s).insertSample sample none s.length
  | .internal s c =>
    -- recursively insert into the last child; on a pending split place the
    -- new median and right node at the end of this node
    let (c', r) := SamplesNode.insertMaxChildren c sample
    match r with
    | .inserted => (.internal s c', .inserted)
    | .pendingSplit med right => (SamplesNode.internal s c').insertSample med (some right) s.length

/-- Navigation to the last child for `insert_max_sample` (the source unwraps
`children.last_mut()`; an empty children list is unreachable). -/
def SamplesNode.insertMaxChildren (children : List (SamplesNode T)) (sample : Sample T) :
    List (SamplesNode T) × InsertResult T :=
  match children with
  | [] => ([], .inserted)
  | [child] =>
    let (child', r) := child.insertMaxSample sample
    ([child'], r)
  | child :: rest =>
    let (rest', r) := SamplesNode.insertMaxChildren rest sample
    (child :: rest', r)

end

/-- Embeds `SamplesTree` from `src/modified_gk/samples_tree/tree.rs`. -/
structure SamplesTree (T : Type) where
  root : SamplesNode T
  len : ℕ
  depth : ℕ

/-- `SamplesTree::new` -/
def SamplesTree.new : SamplesTree T :=
  { root := .leaf [], len := 0, depth := 0 }

/-- `SamplesTree::handle_insert_result` -/
def SamplesTree.handleInsertResult (t : SamplesTree T) (r : InsertResult T) : SamplesTree T :=
  match r with
  | .inserted => { t with len := t.len + 1 }
  | .pendingSplit med right =>
    { root := .internal [med] [t.root, right], len := t.len + 1, depth := t.depth + 1 }

/-- `SamplesTree::push_value` -/
def SamplesTree.pushValue (t : SamplesTree T) (value : T) (cap : ℕ) : SamplesTree T :=
  match t.root.pushValue value cap false none with
  | (root', _, .updatedInPlace) => { t with root := root' }
  | (root', _, .insertedR r) => SamplesTree.handleInsertResult { t with root := root' } r

/-- `SamplesTree::insert_max_sample` -/
def SamplesTree.insertMaxSample (t : SamplesTree T) (sample : Sample T) : SamplesTree T :=
  let (root', r) := t.root.insertMaxSample sample
  SamplesTree.handleInsertResult { t with root := root' } r

/-- In-order sample sequence of the whole tree. -/
def SamplesTree.samples (t : SamplesTree T) : List (Sample T) :=
  t.root.flatten

end DataModel

section CompressorAndSummary

variable {T : Type} [LinearOrder T]

/-- Embeds `SamplesCompressor` from `src/algorithm/samples_compressor.rs`. -/
structure SamplesCompressor (T : Type) where
  maxGDelta : ℕ
  compressedSamples : SamplesTree T
  blockTail : Option (Sample T)

/-- `SamplesCompressor::new` -/
def SamplesCompressor.new (maxGDelta : ℕ) : SamplesCompressor T :=
  { maxGDelta := maxGDelta, compressedSamples := SamplesTree.new, blockTail := none }

/-- `SamplesCompressor::push` -/
def SamplesCompressor.push (c : SamplesCompressor T) (sample : Sample T) : SamplesCompressor T :=
  match c.blockTail with
  | some tailSample =>
    if tailSample.g + sample.g + sample.delta ≤ c.maxGDelta then
      { c with blockTail := some { sample with g := sample.g + tailSample.g } }
    else
      { c with compressedSamples := c.compressedSamples.insertMaxSample tailSample,
               blockTail := some sample }
  | none =>
    if c.compressedSamples.len = 0 then
      { c with compressedSamples := c.compressedSamples.insertMaxSample sample }
    else
      { c with blockTail := some sample }

/-- `SamplesCompressor::into_samples_tree` -/
def SamplesCompressor.intoSamplesTree (c : SamplesCompressor T) : SamplesTree T :=
  match c.blockTail with
  | some tailSample => c.compressedSamples.insertMaxSample tailSample
  | none => c.compressedSamples

/-- Embeds `IncomingMergeState` from `src/modified_gk/incoming_merge_state.rs`;
the wrapped iterator is modelled by the list of its remaining items. -/
structure IncomingMergeState (T : Type) where
  iterator : List (Sample T)
  nextSample : Option (Sample T)
  hasStarted : Bool

/-- `IncomingMergeState::new` -/
def IncomingMergeState.new (iter : List (Sample T)) : IncomingMergeState T :=
  { iterator := iter.tail, nextSample := iter.head?, hasStarted := false }

/-- `IncomingMergeState::peek` -/
def IncomingMergeState.peek (m : IncomingMergeState T) : Option (Sample T) :=
  m.nextSample

/-- `IncomingMergeState::pop_front`; the source unwraps, so the popped sample
is returned as an `Option` and the caller matches on it. -/
def IncomingMergeState.popFront (m : IncomingMergeState T) :
    Option (Sample T) × IncomingMergeState T :=
  (m.nextSample,
   { iterator := m.iterator.tail, nextSample := m.iterator.head?, hasStarted := true })

/-- `IncomingMergeState::aditional_delta` (sic) -/
def IncomingMergeState.aditionalDelta (m : IncomingMergeState T) : ℕ :=
  match m.nextSample with
  | some realSample => if m.hasStarted then realSample.g + realSample.delta - 1 else 0
  | none => 0

/-- `IncomingMergeState::push_remaining_to` -/
def IncomingMergeState.pushRemainingTo (m : IncomingMergeState T) (c : SamplesCompressor T) :
    SamplesCompressor T :=
  match m.nextSample with
  | some sample => m.iterator.foldl SamplesCompressor.push (c.push sample)
  | none => c

/-- Size measure for the merge loop termination. -/
def IncomingMergeState.size (m : IncomingMergeState T) : ℕ :=
  m.iterator.length + (match m.nextSample with | some _ => 1 | none => 0)

/-- The merge loop of `Summary::merge_sorted_samples`.  `pop_front` returns
exactly the sample that `peek` just exposed, so the popped sample is written
as the peeked one and the advanced cursor as `popFront.2`. -/
def mergeCore (comp : SamplesCompressor T) (selfIn otherIn : IncomingMergeState T) :
    SamplesTree T :=
  match hs : selfIn.peek, ho : otherIn.peek with
  | none, _ => (otherIn.pushRemainingTo comp).intoSamplesTree
  | some _, none => (selfIn.pushRemainingTo comp).intoSamplesTree
  | some selfPeeked, some otherPeeked =>
    if selfPeeked.value < otherPeeked.value then
      mergeCore
        (comp.push { selfPeeked with delta := selfPeeked.delta + otherIn.aditionalDelta })
        selfIn.popFront.2 otherIn
    else
      mergeCore
        (comp.push { otherPeeked with delta := otherPeeked.delta + selfIn.aditionalDelta })
        selfIn otherIn.popFront.2
  termination_by selfIn.size + otherIn.size
  decreasing_by
  · simp only [IncomingMergeState.size, IncomingMergeState.popFront,
      IncomingMergeState.peek] at hs ⊢
    cases hit : selfIn.iterator <;> simp [hit, hs]
  · simp only [IncomingMergeState.size, IncomingMergeState.popFront,
      IncomingMergeState.peek] at ho ⊢
    cases hit : otherIn.iterator <;> simp [hit, ho]

/-- Embeds `Summary` from `src/algorithm/summary.rs`. -/
structure Summary (T : Type) where
  samplesTree : SamplesTree T
  maxSamples : ℕ
  maxExpectedError : ℚ
  len : ℕ

/-- `Summary::new`.  `(1./ε).ceil() as u64` is the ceiling of the exact
rational `1/ε = ε.den / ε.num`, computed here on the numerator and
denominator (`⌈a/b⌉ = -((-a).fdiv b)`; see the sanity lemma
`Summary.new_maxSamples_spec` equating this to `⌈1/ε⌉`).  The saturating
`as u64` cast is `Int.toNat`. -/
def Summary.new (maxExpectedError : ℚ) : Summary T :=
  let expectedLeastCompressedSamples : ℕ :=
    Int.toNat
      (if 0 < maxExpectedError.num then
        -(-(maxExpectedError.den : ℤ) / maxExpectedError.num)
      else 0)
  { samplesTree := SamplesTree.new,
    maxSamples := 5 * expectedLeastCompressedSamples,
    maxExpectedError := maxExpectedError,
    len := 0 }

/-- `Summary::max_g_delta`: `(2. * ε * len).floor() as u64`, the floor of
the exact rational `2·ε·len = (2·ε.num·len) / ε.den` computed on the
numerator and denominator (see the sanity lemma `Summary.maxGDelta_spec`
equating this to `⌊2·ε·len⌋`). -/
def Summary.maxGDelta (s : Summary T) : ℕ :=
  Int.toNat (2 * s.maxExpectedError.num * (s.len : ℤ) / (s.maxExpectedError.den : ℤ))

/-- `Summary::compress` -/
def Summary.compress (s : Summary T) : Summary T :=
  let compressor :=
    s.samplesTree.samples.foldl SamplesCompressor.push (SamplesCompressor.new s.maxGDelta)
  { s with samplesTree := compressor.intoSamplesTree }

/-- `Summary::insert_one` -/
def Summary.insertOne (s : Summary T) (value : T) : Summary T :=
  let s1 : Summary T := { s with len := s.len + 1 }
  let cap := s1.maxGDelta
  let s2 : Summary T := { s1 with samplesTree := s1.samplesTree.pushValue value cap }
  if s2.maxSamples < s2.samplesTree.len then s2.compress else s2

/-- `Summary::merge_sorted_samples` -/
def Summary.mergeSortedSamples (s : Summary T) (otherSamples : List (Sample T))
    (otherLen : ℕ) : Summary T :=
  let s1 : Summary T := { s with len := s.len + otherLen }
  let comp : SamplesCompressor T := SamplesCompressor.new s1.maxGDelta
  { s1 with
    samplesTree :=
      mergeCore comp (IncomingMergeState.new s.samplesTree.samples)
        (IncomingMergeState.new otherSamples) }

/-- `Summary::merge`; the assertion on the error tolerances is modelled as
`none` (panic). -/
def Summary.merge (s other : Summary T) : Option (Summary T) :=
  if other.maxExpectedError ≤ s.maxExpectedError then
    some (s.mergeSortedSamples other.samplesTree.samples other.len)
  else
    none

/-- `quantile_to_rank` from `src/lib.rs`; the assertion on the quantile range
is modelled as `none` (panic).  `(q·num).ceil() as u64 max 1` is computed on
the numerator and denominator of the exact rational `q·num` (see the sanity
lemma `quantileToRank_spec` equating this to `max ⌈q·num⌉ 1`). -/
def quantileToRank (quantile : ℚ) (num : ℕ) : Option ℕ :=
  if 0 ≤ quantile ∧ quantile ≤ 1 then
    some (max (Int.toNat (-(-(quantile.num * (num : ℤ)) / (quantile.den : ℤ)))) 1)
  else
    none

/-- `rank_to_quantile` from `src/lib.rs`; the assertion on the rank range is
modelled as `none` (panic).  `rank as f64 / num as f64` is the exact rational
`Rat.divInt rank num = rank / num` (sanity lemma `rankToQuantile_spec`). -/
def rankToQuantile (rank : ℕ) (num : ℕ) : Option ℚ :=
  if 0 < rank ∧ rank ≤ num then
    some (if rank = 1 then 0 else Rat.divInt (rank : ℤ) (num : ℤ))
  else
    none

/-- The per-sample maximum rank error computed inside
`Summary::query_with_error`, walking the samples in order with the running
`min_rank`. -/
def rankErrors (targetRank : ℕ) : ℕ → List (Sample T) → List (Sample T × ℕ)
  | _, [] => []
  | minRank, sample :: rest =>
    let minRank' := minRank + sample.g
    let maxRank := minRank' + sample.delta
    let midRank := (minRank' + maxRank) / 2
    let maxRankError := if midRank < targetRank then targetRank - minRank' else maxRank - targetRank
    (sample, maxRankError) :: rankErrors targetRank minRank' rest

/-- `Iterator::min_by_key`: the first element with the minimal key. -/
def minByKeyFirst {α : Type} : List (α × ℕ) → Option (α × ℕ)
  | [] => none
  | x :: rest =>
    match minByKeyFirst rest with
    | none => some x
    | some y => if x.2 ≤ y.2 then some x else some y

/-- `Summary::query_with_error`.  The outer `Option` is the panic of
`quantile_to_rank` on an out-of-range quantile; the inner `Option` is the
source's return value (`None` iff the summary holds no samples). -/
def Summary.queryWithError (s : Summary T) (quantile : ℚ) : Option (Option (T × ℚ)) :=
  match quantileToRank quantile s.len with
  | none => none
  | some targetRank =>
    -- `rank_error as f64 / len as f64` is the exact rational
    -- `Rat.divInt rank_error len` (sanity lemma `queryWithError_spec`)
    some ((minByKeyFirst (rankErrors targetRank 0 s.samplesTree.samples)).map
      (fun p => (p.1.value, Rat.divInt (p.2 : ℤ) (s.len : ℤ))))

/-- `Summary::query` -/
def Summary.query (s : Summary T) (quantile : ℚ) : Option (Option T) :=
  (s.queryWithError quantile).map (fun o => o.map Prod.fst)

/-- The `samples_spec` test helper of `src/algorithm/summary.rs`: the stored
(value, g, delta) triples in order. -/
def Summary.samplesSpec (s : Summary T) : List (T × ℕ × ℕ) :=
  s.samplesTree.samples.map (fun sample => (sample.value, sample.g, sample.delta))

end CompressorAndSummary

section Checkpoints

variable {S : Type} [LinearOrder S]

/-- Embeds `Checkpoint` from `src/algorithm/samples_tree/checkpoint.rs`. -/
structure Checkpoint (S : Type) where
  sample : S
  minGap : ℕ
  maxGap : ℕ
  deriving DecidableEq, Repr

/-- `NODE_CAPACITY = 16` from `src/algorithm/samples_tree/mod.rs`. -/
def checkpointsNodeCapacity : ℕ := 16

/-- Result of `Checkpoints::insert_checkpoint`: the new contents of `self`
plus, on a split, the median and right halves (`InsertResult::Pending`). -/
inductive CheckpointsInsertResult (S : Type) : Type where
  | done (self : List (Checkpoint S))
  | pending (self : List (Checkpoint S)) (median : Checkpoint S) (right : List (Checkpoint S))
  deriving DecidableEq, Repr

/-- `Checkpoints::insert_checkpoint` from
`src/algorithm/samples_tree/checkpoints.rs`. -/
def insertCheckpoint (cps : List (Checkpoint S)) (checkpoint : Checkpoint S) (pos : ℕ) :
    CheckpointsInsertResult S :=
  if cps.length < checkpointsNodeCapacity then
    .done (cps.insertIdx pos checkpoint)
  else
    let medPos := cps.length / 2
    if pos < medPos then
      let rightCheckpoints := cps.drop medPos
      let left := cps.take medPos
      match left.getLast? with
      | some medCheckpoint =>
        .pending (left.dropLast.insertIdx pos checkpoint) medCheckpoint rightCheckpoints
      | none => .done cps
    else if pos = medPos then
      .pending (cps.take medPos) checkpoint (cps.drop medPos)
    else
      let rightCheckpoints := cps.drop (medPos + 1)
      let left := cps.take (medPos + 1)
      match left.getLast? with
      | some medCheckpoint =>
        .pending left.dropLast medCheckpoint
          (rightCheckpoints.insertIdx (pos - medPos - 1) checkpoint)
      | none => .done cps

end Checkpoints

section ProofLayer

/-!
Definitions used to state and prove properties of the embedding: the exact
rational bounds of the specification, stream rank counts, the flattened
(in-order) semantics of the tree operations, well-formedness of trees, the
quantile-summary invariant, and the reachable states of a `Summary`.
-/

variable {T : Type} [LinearOrder T]

/-- `⌊2·ε·len⌋ as u64`, the g+delta budget, in its transparent form (the
sanity lemma `Summary.maxGDelta_spec` equates `Summary.maxGDelta` with it). -/
def capOf (ε : ℚ) (len : ℕ) : ℕ :=
  Int.toNat ⌊2 * ε * (len : ℚ)⌋

/-- Number of stream values `≤ v`: the spec's `rank(v)` ("number of stream
values ≤ v, starting from 1"). -/
def countLE (stream : List T) (v : T) : ℕ :=
  (stream.filter (fun x => decide (x ≤ v))).length

/-- Number of stream values strictly below `v`. -/
def countLT (stream : List T) (v : T) : ℕ :=
  (stream.filter (fun x => decide (x < v))).length

/-- Total weight of a sample list: the sum of the `g` fields. -/
def sumG (xs : List (Sample T)) : ℕ :=
  (xs.map Sample.g).sum

/-- Value ordering of samples (the `Ord` instance of `Sample` delegates to
the value field). -/
def sampleLE (a b : Sample T) : Prop :=
  a.value ≤ b.value

/-- The in-order (flattened) semantics of `push_value` on the whole sample
sequence: the leaf decision `pushDecision` applied to the full sequence.
The simulation lemmas show that `SamplesNode.pushValue` implements exactly
this on the flattened tree. -/
def flatPush (xs : List (Sample T)) (value : T) (cap : ℕ) (hasParentLeft : Bool)
    (parentRight : Option (Sample T)) :
    List (Sample T) × Option (Sample T) × Bool :=
  let pos := findPos xs value
  match pushDecision xs value pos cap hasParentLeft parentRight with
  | (none, xs', pr') => (xs', pr', false)
  | (some sample, xs', pr') => (xs'.insertIdx pos sample, pr', true)

/-- Flattened semantics of `SamplesTree::push_value` (root context: no left
neighbour, no following sample). -/
def listPush (xs : List (Sample T)) (value : T) (cap : ℕ) : List (Sample T) :=
  (flatPush xs value cap false none).1

/-- Flattened semantics of the merge loop: the sequence of samples pushed
into the compressor, with the delta inflation of `aditional_delta`.  The two
`Bool`s are the `has_started` flags of the cursors. -/
def mergedSamples : List (Sample T) → Bool → List (Sample T) → Bool → List (Sample T)
  | [], _, bs, _ => bs
  | as, _, [], _ => as
  | a :: as, sa, b :: bs, sb =>
    if a.value < b.value then
      { a with delta := a.delta + (if sb then b.g + b.delta - 1 else 0) } ::
        mergedSamples as true (b :: bs) sb
    else
      { b with delta := b.delta + (if sa then a.g + a.delta - 1 else 0) } ::
        mergedSamples (a :: as) sa bs true
  termination_by as _ bs _ => as.length + bs.length

/-- Flattened state transition of `SamplesCompressor::push`: the committed
samples (in order) and the current block tail. -/
def compressPushFlat (budget : ℕ) (state : List (Sample T) × Option (Sample T))
    (s : Sample T) : List (Sample T) × Option (Sample T) :=
  match state.2 with
  | some t =>
    if t.g + s.g + s.delta ≤ budget then (state.1, some { s with g := s.g + t.g })
    else (state.1 ++ [t], some s)
  | none =>
    if state.1.length = 0 then (state.1 ++ [s], none)
    else (state.1, some s)

/-- Flattened semantics of feeding a sample sequence through a fresh
`SamplesCompressor` and collecting `into_samples_tree`. -/
def compressFlat (budget : ℕ) (inputs : List (Sample T)) : List (Sample T) :=
  let st := inputs.foldl (compressPushFlat budget) ([], none)
  st.1 ++ st.2.toList

mutual

/-- Every leaf in this subtree stores at least `k` samples. -/
def leavesAtLeast (k : ℕ) : SamplesNode T → Prop
  | .leaf s => k ≤ s.length
  | .internal _ c => leavesAtLeastL k c

/-- `leavesAtLeast` over a list of subtrees. -/
def leavesAtLeastL (k : ℕ) : List (SamplesNode T) → Prop
  | [] => True
  | x :: xs => leavesAtLeast k x ∧ leavesAtLeastL k xs

end

mutual

/-- Structural well-formedness of a node: an internal node has one more
child than samples, a non-empty sample array, and every leaf strictly below
it holds at least two samples (leaves are created by splitting full nodes,
which leaves at least ⌊15/2⌋ = 7 samples on each side). -/
def structOK : SamplesNode T → Prop
  | .leaf _ => True
  | .internal s c => c.length = s.length + 1 ∧ s ≠ [] ∧ structOKL c ∧ leavesAtLeastL 2 c

/-- `structOK` over a list of subtrees. -/
def structOKL : List (SamplesNode T) → Prop
  | [] => True
  | x :: xs => structOK x ∧ structOKL xs

end

/-- Well-formedness of a tree node: structure plus sortedness of the
in-order sample sequence. -/
def WF (n : SamplesNode T) : Prop :=
  structOK n ∧ List.Sorted sampleLE n.flatten

/-- Per-sample invariant of a sample list against the stream `S`, walking
the list with the running minimum rank `r0` (the prefix sum of `g`).  For a
sample with rank interval `[r0+g, r0+g+delta]`:
* `g ≥ 1`;
* `g + delta` respects the budget (`max 1 cap`: the very first insertions
  happen with a zero budget and store exact samples with `g = 1`);
* the value occurs in the stream;
* the minimum rank does not exceed `countLE S value` and the maximum rank
  strictly exceeds `countLT S value`, so the interval meets the set of true
  ranks of the value. -/
def SamplesOk (S : List T) (cap : ℕ) : ℕ → List (Sample T) → Prop
  | _, [] => True
  | r0, smp :: rest =>
    1 ≤ smp.g ∧
    smp.g + smp.delta ≤ max 1 cap ∧
    smp.value ∈ S ∧
    r0 + smp.g ≤ countLE S smp.value ∧
    countLT S smp.value < r0 + smp.g + smp.delta ∧
    SamplesOk S cap (r0 + smp.g) rest

/-- The first retained sample is an exact minimum. -/
def headOk (xs : List (Sample T)) (S : List T) : Prop :=
  match xs with
  | [] => True
  | h :: _ => h.g = 1 ∧ h.delta = 0 ∧ ∀ x ∈ S, h.value ≤ x

/-- The last retained sample is the maximum, with `delta = 0`. -/
def lastOk (xs : List (Sample T)) (S : List T) : Prop :=
  match xs.getLast? with
  | none => True
  | some l => l.delta = 0 ∧ ∀ x ∈ S, x ≤ l.value

/-- The full quantile-summary invariant of a sample sequence `xs`
representing the stream `S` under the tolerance `ε`. -/
def StateOk (ε : ℚ) (S : List T) (xs : List (Sample T)) : Prop :=
  (xs = [] ↔ S = []) ∧
  List.Sorted sampleLE xs ∧
  sumG xs = S.length ∧
  SamplesOk S (capOf ε S.length) 0 xs ∧
  headOk xs S ∧
  lastOk xs S

/-- The summaries reachable by the public API, together with the multiset
(list) of stream values they represent: construction with ε ∈ (0, 0.5),
single-value insertion, bulk compression, and successful merge. -/
inductive Reach : ℚ → Summary T → List T → Prop where
  | new (ε : ℚ) (h0 : 0 < ε) (h1 : ε < 1 / 2) : Reach ε (Summary.new ε) []
  | insertOne {ε : ℚ} {s : Summary T} {S : List T} (v : T) :
      Reach ε s S → Reach ε (s.insertOne v) (v :: S)
  | compress {ε : ℚ} {s : Summary T} {S : List T} :
      Reach ε s S → Reach ε s.compress S
  | merge {ε ε' : ℚ} {s s' m : Summary T} {S S' : List T} :
      Reach ε s S → Reach ε' s' S' → s.merge s' = some m → Reach ε m (S' ++ S)

/-- Building a summary by inserting a stream of values one by one. -/
def summaryOfList (ε : ℚ) (values : List T) : Summary T :=
  values.foldl Summary.insertOne (Summary.new ε)

/-- Invariant of the flattened compressor state after feeding the prefix
`done` of a sample sequence: the committed samples plus the pending block
tail carry the same total weight, stay sorted and rank-correct, keep the
original first sample, and the pending tail (when present) retains the
value and delta of the last fed sample. -/
def CompressStateInv (S : List T) (cap : ℕ) (done : List (Sample T))
    (st : List (Sample T) × Option (Sample T)) : Prop :=
  sumG (st.1 ++ st.2.toList) = sumG done ∧
  List.Sorted sampleLE (st.1 ++ st.2.toList) ∧
  SamplesOk S cap 0 (st.1 ++ st.2.toList) ∧
  (st.1 ++ st.2.toList).head? = done.head? ∧
  (st.2 = none → st.1 = done) ∧
  (∀ t, st.2 = some t → ∃ l, done.getLast? = some l ∧ t.value = l.value ∧ t.delta = l.delta) ∧
  (∀ t, st.2 = some t → st.1 ≠ []) ∧
  (∀ y ∈ st.1 ++ st.2.toList, ∃ x ∈ done, y.value = x.value)

/-- The median component of a checkpoint-array insertion result. -/
def CheckpointsInsertResult.medianOf {S : Type} :
    CheckpointsInsertResult S → Option (Checkpoint S)
  | .done _ => none
  | .pending _ med _ => some med

/-- The updated `self` (left) component of a checkpoint-array insertion
result. -/
def CheckpointsInsertResult.selfOf {S : Type} :
    CheckpointsInsertResult S → List (Checkpoint S)
  | .done self => self
  | .pending self _ _ => self

/-- The returned right half of a checkpoint-array insertion result. -/
def CheckpointsInsertResult.rightOf {S : Type} :
    CheckpointsInsertResult S → Option (List (Checkpoint S))
  | .done _ => none
  | .pending _ _ right => some right

/-- The sample array of a node. -/
def SamplesNode.samplesOf : SamplesNode T → List (Sample T)
  | .leaf s => s
  | .internal s _ => s

/-- The children of a node (empty for a leaf). -/
def SamplesNode.childrenOf : SamplesNode T → List (SamplesNode T)
  | .leaf _ => []
  | .internal _ c => c

/-- The complete in-order sample sequence carried by a node together with a
pending insertion result: on a split the node is the left half and the
median and right half follow it. -/
def flattenIR (n : SamplesNode T) (r : InsertResult T) : List (Sample T) :=
  match r with
  | .inserted => n.flatten
  | .pendingSplit med right => n.flatten ++ med :: right.flatten

/-- The complete in-order sample sequence carried by a node together with a
`push_value` result. -/
def flattenPR (n : SamplesNode T) (r : PushResult T) : List (Sample T) :=
  match r with
  | .updatedInPlace => n.flatten
  | .insertedR r' => flattenIR n r'

/-- A full checkpoint array (16 pairwise distinct checkpoints) used to probe
`insert_checkpoint`. -/
def cps16 : List (Checkpoint ℤ) :=
  (List.range 16).map (fun i => ⟨(10 * i : ℤ), 1, 1⟩)

/-- The concrete insertion scenario of the specification's first end-to-end
test: the stream `[8, 6, 0, 4, 3, 9, 2, 5, 1, 7]` with ε = 0.2. -/
def c8Summary : Summary ℤ :=
  summaryOfList (Rat.divInt 1 5) [8, 6, 0, 4, 3, 9, 2, 5, 1, 7]

/-- State correspondence between a `SamplesCompressor` and its flattened
state (committed sample sequence, current block tail). -/
def CompInv (budget : ℕ) (st : List (Sample T) × Option (Sample T))
    (comp : SamplesCompressor T) : Prop :=
  comp.maxGDelta = budget ∧
  comp.compressedSamples.samples = st.1 ∧
  comp.blockTail = st.2 ∧
  structOK comp.compressedSamples.root ∧
  comp.compressedSamples.len = st.1.length

/-- The samples still to be produced by a merge cursor. -/
def IncomingMergeState.mergedOf (m : IncomingMergeState T) : List (Sample T) :=
  m.nextSample.toList ++ m.iterator

/-- `⌊ε·n⌋ as u64`: the error radius of the specification. -/
def epsFloor (ε : ℚ) (n : ℕ) : ℕ :=
  Int.toNat ⌊ε * (n : ℚ)⌋

/-- The rank error assigned by `query_with_error` to a sample with minimum
rank `minr` and gap `delta`. -/
def errAt (target minr delta : ℕ) : ℕ :=
  if (minr + (minr + delta)) / 2 < target then target - minr else (minr + delta) - target

end ProofLayer

/-!
## Sanity lemmas

The embeddings compute floors and ceilings of exact rationals on numerators
and denominators (so that concrete runs reduce); these lemmas equate each
with the transparent `⌊·⌋`/`⌈·⌉` expression of the specification.
-/

section Sanity

variable {T : Type} [LinearOrder T]

theorem Summary.maxGDelta_spec (s : Summary T) :
    s.maxGDelta = capOf s.maxExpectedError s.len := by
  unfold Summary.maxGDelta capOf
  congr 1
  have h : (2 * s.maxExpectedError * (s.len : ℚ)) =
      ((2 * s.maxExpectedError.num * (s.len : ℤ) : ℤ) : ℚ) /
        ((s.maxExpectedError.den : ℕ) : ℚ) := by
    conv_lhs => rw [← Rat.num_div_den s.maxExpectedError]
    have hden : ((s.maxExpectedError.den : ℚ)) ≠ 0 := by
      exact_mod_cast s.maxExpectedError.den_ne_zero
    push_cast
    field_simp
  rw [h, Rat.floor_intCast_div_natCast]

theorem Summary.new_maxSamples_spec (ε : ℚ) :
    (Summary.new (T := T) ε).maxSamples = 5 * Int.toNat ⌈1 / ε⌉ := by
  unfold Summary.new
  congr 2
  rcases lt_trichotomy 0 ε.num with hpos | hzero | hneg
  · simp only [if_pos hpos]
    have hm : ((ε.num.toNat : ℤ)) = ε.num := Int.toNat_of_nonneg hpos.le
    have hm' : ((ε.num.toNat : ℕ) : ℚ) = ((ε.num : ℤ) : ℚ) := by
      exact_mod_cast congrArg (fun z => ((z : ℤ) : ℚ)) hm
    have h1 : (1 : ℚ) / ε = ((ε.den : ℤ) : ℚ) / ((ε.num.toNat : ℕ) : ℚ) := by
      conv_lhs => rw [← Rat.num_div_den ε]
      rw [one_div, inv_div, hm']
      norm_cast
    have hceil : ⌈(1 : ℚ) / ε⌉ = -⌊-((1 : ℚ) / ε)⌋ := by
      rw [Int.floor_neg]
      ring
    rw [hceil, h1]
    have h2 : -(((ε.den : ℤ) : ℚ) / ((ε.num.toNat : ℕ) : ℚ)) =
        ((-(ε.den : ℤ) : ℤ) : ℚ) / ((ε.num.toNat : ℕ) : ℚ) := by
      push_cast
      ring
    rw [h2, Rat.floor_intCast_div_natCast, hm]
  · have hz : ε = 0 := by
      have := Rat.num_eq_zero.mp hzero.symm
      exact this
    simp [hz]
  · simp only [if_neg (by omega : ¬ 0 < ε.num)]
    have hε : ε < 0 := Rat.num_neg.mp hneg
    have h1 : (1 : ℚ) / ε ≤ 0 := by
      apply div_nonpos_of_nonneg_of_nonpos <;> [norm_num; exact hε.le]
    have h2 : ⌈(1 : ℚ) / ε⌉ ≤ 0 := by
      rw [Int.ceil_le]
      exact_mod_cast h1
    omega

theorem quantileToRank_spec (quantile : ℚ) (num : ℕ) :
    quantileToRank quantile num =
      if 0 ≤ quantile ∧ quantile ≤ 1 then
        some (max (Int.toNat ⌈quantile * (num : ℚ)⌉) 1)
      else none := by
  unfold quantileToRank
  split
  · congr 3
    have h : quantile * (num : ℚ) =
        ((quantile.num * (num : ℤ) : ℤ) : ℚ) / ((quantile.den : ℕ) : ℚ) := by
      conv_lhs => rw [← Rat.num_div_den quantile]
      have hden : ((quantile.den : ℚ)) ≠ 0 := by
        exact_mod_cast quantile.den_ne_zero
      push_cast
      field_simp
    have hceil : ⌈quantile * (num : ℚ)⌉ = -⌊-(quantile * (num : ℚ))⌋ := by
      rw [Int.floor_neg]
      ring
    rw [hceil, h]
    have h2 : -(((quantile.num * (num : ℤ) : ℤ) : ℚ) / ((quantile.den : ℕ) : ℚ)) =
        ((-(quantile.num * (num : ℤ)) : ℤ) : ℚ) / ((quantile.den : ℕ) : ℚ) := by
      push_cast
      ring
    rw [h2, Rat.floor_intCast_div_natCast]
  · rfl

theorem rankToQuantile_spec (rank : ℕ) (num : ℕ) :
    rankToQuantile rank num =
      if 0 < rank ∧ rank ≤ num then
        some (if rank = 1 then 0 else (rank : ℚ) / (num : ℚ))
      else none := by
  unfold rankToQuantile
  split
  · congr 1
    split
    · rfl
    · rw [Rat.divInt_eq_div]
      push_cast
      rfl
  · rfl

end Sanity

/-!
## Claim theorems: construction, merge, tuning constant, node split, queries
-/

section EasyClaims

variable {T : Type} [LinearOrder T]

/-- Claim C3, counterexample: `Summary::new` performs no validation at all.
At ε = 1 — outside the interval (0, 0.5), where the claim demands a panic or
an `InvalidEpsilon` error — construction succeeds and returns an ordinary
empty summary (the embedded `new` is a total function, like the source,
which contains no assertion or error path). -/
theorem C3_new_counterexample :
    Summary.new (T := ℤ) 1 =
      { samplesTree := SamplesTree.new, maxSamples := 5, maxExpectedError := 1, len := 0 } := by
  rfl

/-- Claim C3, amended: `new(ε)` does not validate ε.  For every ε — inside
or outside (0, 0.5) — it returns an empty summary with `len = 0`, no stored
samples, the given tolerance, and `max_samples = 5·⌈1/ε⌉` (saturated at 0
for ε ≤ 0). -/
theorem C3_new_amended (ε : ℚ) :
    (Summary.new (T := ℤ) ε).len = 0 ∧
    (Summary.new (T := ℤ) ε).samplesTree.samples = [] ∧
    (Summary.new (T := ℤ) ε).maxExpectedError = ε ∧
    (Summary.new (T := ℤ) ε).maxSamples = 5 * Int.toNat ⌈1 / ε⌉ := by
  refine ⟨rfl, rfl, rfl, ?_⟩
  exact Summary.new_maxSamples_spec ε

/-- Claim C4: `A.merge(B)` succeeds exactly when
`B.max_expected_error ≤ A.max_expected_error`; in the other case the source
asserts (modelled as `none`). -/
theorem C4_merge_succeeds_iff (a b : Summary T) :
    (a.merge b).isSome ↔ b.maxExpectedError ≤ a.maxExpectedError := by
  unfold Summary.merge
  split <;> simp_all

/-- Claim C5, counterexample: at ε = 2/5 the source computes
`max_samples = 5·⌈1/ε⌉ = 15`, while the claimed formula `⌈5/ε⌉` gives 13. -/
theorem C5_maxSamples_counterexample :
    (Summary.new (T := ℤ) (Rat.divInt 2 5)).maxSamples = 15 ∧
    Int.toNat ⌈(5 : ℚ) / (Rat.divInt 2 5)⌉ = 13 ∧ (15 : ℕ) ≠ 13 := by
  refine ⟨by decide, ?_, by decide⟩
  rw [Rat.divInt_eq_div]
  have h1 : (5 : ℚ) / ((2 : ℚ) / (5 : ℚ)) = 25 / 2 := by norm_num
  have h2 : ⌈(25 : ℚ) / 2⌉ = 13 := by
    rw [Int.ceil_eq_iff] <;> norm_num
  rw [show ((2 : ℤ) : ℚ) / ((5 : ℤ) : ℚ) = (2 : ℚ) / (5 : ℚ) by norm_num, h1, h2]
  rfl

/-- Claim C5, amended: for every ε in (0, 0.5), the soft ceiling is
`max_samples = 5·⌈1/ε⌉` (not `⌈5/ε⌉`). -/
theorem C5_maxSamples_amended (ε : ℚ) (h0 : 0 < ε) (h1 : ε < 1 / 2) :
    (Summary.new (T := ℤ) ε).maxSamples = 5 * Int.toNat ⌈1 / ε⌉ :=
  Summary.new_maxSamples_spec ε

/-- Witness for the amended C5 at ε = 1/5: `max_samples = 25`. -/
theorem C5_maxSamples_amended_witness :
    ((0 : ℚ) < Rat.divInt 1 5 ∧ (Rat.divInt 1 5 : ℚ) < 1 / 2) ∧
    (Summary.new (T := ℤ) (Rat.divInt 1 5)).maxSamples = 5 * Int.toNat ⌈1 / (Rat.divInt 1 5 : ℚ)⌉ :=
  ⟨⟨by rw [Rat.divInt_eq_div]; norm_num, by rw [Rat.divInt_eq_div]; norm_num⟩,
   C5_maxSamples_amended (Rat.divInt 1 5) (by rw [Rat.divInt_eq_div]; norm_num)
     (by rw [Rat.divInt_eq_div]; norm_num)⟩

/-- Claim C7, counterexample: on the empty summary, `query_with_error(2)`
does not "return nothing" — it panics (`quantile_to_rank` asserts
`0 ≤ q ≤ 1`), modelled as the outer `none`, which differs from the
"no result" return value `some none`. -/
theorem C7_query_counterexample :
    (Summary.new (T := ℤ) (Rat.divInt 1 10)).queryWithError 2 = none ∧
    (Summary.new (T := ℤ) (Rat.divInt 1 10)).query 2 = none ∧
    (none : Option (Option (ℤ × ℚ))) ≠ some none := by
  refine ⟨?_, ?_, by simp⟩ <;> decide

/-- Claim C8: the concrete end-to-end scenario.  Inserting
`[8, 6, 0, 4, 3, 9, 2, 5, 1, 7]` one by one with ε = 1/5 retains exactly the
(value, g, delta) sequence `{(0,1,0),(2,2,1),(4,2,0),(6,2,0),(9,3,0)}`; bulk
compression then yields `{(0,1,0),(4,4,0),(6,2,0),(9,3,0)}`; and
`query_with_error` at the quantiles of ranks 1..10 returns the values
`[0,0,0,4,4,4,6,6,9,9]` with rank errors `[0,1,2,1,0,1,0,1,1,0]` (reported
as the relative errors `rank_error / 10`). -/
theorem C8_concrete_scenario :
    c8Summary.samplesSpec = [(0, 1, 0), (2, 2, 1), (4, 2, 0), (6, 2, 0), (9, 3, 0)] ∧
    c8Summary.compress.samplesSpec = [(0, 1, 0), (4, 4, 0), (6, 2, 0), (9, 3, 0)] ∧
    (List.range 10).map
        (fun i => (rankToQuantile (i + 1) 10).bind
          (fun q => c8Summary.compress.queryWithError q)) =
      ([0, 0, 0, 4, 4, 4, 6, 6, 9, 9].zip [0, 1, 2, 1, 0, 1, 0, 1, 1, 0]).map
        (fun p => some (some ((p.1 : ℤ), Rat.divInt (p.2 : ℤ) 10))) := by
  refine ⟨by decide, by decide, by decide⟩

end EasyClaims

section CheckpointSplit

/-- `List.insertIdx` in take/drop form (in range). -/
theorem insertIdx_take_drop {α : Type} :
    ∀ (n : ℕ) (l : List α) (x : α), n ≤ l.length →
      l.insertIdx n x = l.take n ++ x :: l.drop n
  | 0, l, x, _ => by simp
  | n + 1, [], x, h => by simp at h
  | n + 1, a :: l, x, h => by
    simp only [List.insertIdx_succ_cons, List.take_succ_cons, List.drop_succ_cons,
      List.cons_append, List.cons.injEq, true_and]
    exact insertIdx_take_drop n l x (by simpa using h)

/-- Claim C6, counterexample: inserting into a full 16-checkpoint array at
position 0 produces the median `cps16[7]` — the pre-split item at index
`mid − 1 = 7`, which is neither the pre-split item at `mid = 8` nor the
incoming checkpoint, refuting the claimed median selection. -/
theorem C6_split_counterexample :
    (insertCheckpoint cps16 ⟨-5, 1, 1⟩ 0).medianOf = some ⟨70, 1, 1⟩ ∧
    cps16.get? (16 / 2) = some ⟨80, 1, 1⟩ ∧
    ((⟨70, 1, 1⟩ : Checkpoint ℤ) ≠ ⟨80, 1, 1⟩) ∧
    ((⟨70, 1, 1⟩ : Checkpoint ℤ) ≠ ⟨-5, 1, 1⟩) := by
  refine ⟨by decide, by decide, by decide, by decide⟩

/-- Claim C6, amended: inserting a checkpoint at position `pos ≤ 16` into a
full array of K = 16 checkpoints splits it into `(left, median, right)` with
exactly K/2 = 8 items on each side, `self` becoming `left` and
`Pending(median, right)` returned; together `left ++ median :: right` is the
16-element array with the checkpoint inserted at `pos`.  The median is keyed
on `pos` against `mid = 8`: for `pos < mid` it is the pre-split item at
`mid − 1 = 7` (not at `mid` as claimed), for `pos = mid` the incoming
checkpoint, and for `pos > mid` the pre-split item at `mid = 8`. -/
theorem C6_split_amended {S : Type} (cps : List (Checkpoint S)) (cp : Checkpoint S)
    (pos : ℕ) (hlen : cps.length = 16) (hpos : pos ≤ 16) :
    ∃ left med right,
      insertCheckpoint cps cp pos = .pending left med right ∧
      left.length = 8 ∧ right.length = 8 ∧
      left ++ med :: right = cps.insertIdx pos cp ∧
      (pos < 8 → cps.get? 7 = some med) ∧
      (pos = 8 → med = cp) ∧
      (8 < pos → cps.get? 8 = some med) := by
  have hnotfull : ¬ (cps.length < checkpointsNodeCapacity) := by
    simp [checkpointsNodeCapacity, hlen]
  have hmed : cps.length / 2 = 8 := by simp [hlen]
  rcases lt_trichotomy pos 8 with hc | hc | hc
  · -- pos < medPos: median is the last element of the left half, cps[7]
    obtain ⟨m7, hm7⟩ : ∃ m, cps.get? 7 = some m := by
      rw [List.get?_eq_get (by omega)]
      exact ⟨_, rfl⟩
    have htake : cps.take 8 = cps.take 7 ++ [m7] := by
      rw [List.take_succ, ← List.get?_eq_getElem?, hm7]
      rfl
    have hres : insertCheckpoint cps cp pos =
        .pending ((cps.take 7).insertIdx pos cp) m7 (cps.drop 8) := by
      unfold insertCheckpoint
      rw [if_neg hnotfull]
      simp only [hmed, if_pos hc, htake, List.getLast?_concat, List.dropLast_concat]
    have hlen7 : (cps.take 7).length = 7 := by simp [hlen]
    have h7lt : 7 < cps.length := by omega
    have hdrop7 : cps.drop 7 = m7 :: cps.drop 8 := by
      have hg : cps[7]? = some m7 := by
        rw [← List.get?_eq_getElem?]
        exact hm7
      have hget : cps[7] = m7 := by
        rw [List.getElem?_eq_getElem h7lt] at hg
        exact Option.some.inj hg
      rw [List.drop_eq_getElem_cons h7lt, hget]
    refine ⟨_, m7, _, hres, ?_, ?_, ?_, fun _ => hm7,
      fun h8 => absurd h8 (by omega), fun h8 => absurd h8 (by omega)⟩
    · rw [List.length_insertIdx pos _ (by omega)]
      omega
    · simp [hlen]
    · rw [insertIdx_take_drop pos _ cp (by omega),
        insertIdx_take_drop pos cps cp (by omega)]
      rw [List.take_take, min_eq_left (by omega : pos ≤ 7), List.drop_take]
      rw [List.append_assoc]
      congr 1
      congr 1
      rw [← hdrop7]
      have h77 : List.drop 7 cps = List.drop (7 - pos) (List.drop pos cps) := by
        rw [List.drop_drop]
        congr 1
        omega
      rw [h77, List.cons_append, List.take_append_drop]
  · -- pos = medPos: the incoming checkpoint is the median
    subst hc
    have hres : insertCheckpoint cps cp 8 = .pending (cps.take 8) cp (cps.drop 8) := by
      unfold insertCheckpoint
      rw [if_neg hnotfull]
      simp only [hmed, if_neg (by omega : ¬ (8 : ℕ) < 8), if_pos rfl, if_true]
    refine ⟨_, cp, _, hres, by simp [hlen], by simp [hlen], ?_,
      fun h8 => absurd h8 (by omega), fun _ => rfl, fun h8 => absurd h8 (by omega)⟩
    rw [insertIdx_take_drop 8 cps cp (by omega)]
  · -- medPos < pos: median is cps[8]
    obtain ⟨m8, hm8⟩ : ∃ m, cps.get? 8 = some m := by
      rw [List.get?_eq_get (by omega)]
      exact ⟨_, rfl⟩
    have htake : cps.take 9 = cps.take 8 ++ [m8] := by
      rw [List.take_succ, ← List.get?_eq_getElem?, hm8]
      rfl
    have hres : insertCheckpoint cps cp pos =
        .pending (cps.take 8) m8 ((cps.drop 9).insertIdx (pos - 8 - 1) cp) := by
      unfold insertCheckpoint
      rw [if_neg hnotfull]
      simp only [hmed, if_neg (by omega : ¬ pos < 8), if_neg (by omega : ¬ pos = 8), htake,
        List.getLast?_concat, List.dropLast_concat]
    have hlen9 : (cps.drop 9).length = 7 := by simp [hlen]
    refine ⟨_, m8, _, hres, by simp [hlen], ?_, ?_,
      fun h8 => absurd h8 (by omega), fun h8 => absurd h8 (by omega), fun _ => hm8⟩
    · rw [List.length_insertIdx _ _ (by omega)]
      omega
    · rw [insertIdx_take_drop _ _ cp (by omega),
        insertIdx_take_drop pos cps cp (by omega)]
      have htk : cps.take pos = cps.take 9 ++ (cps.drop 9).take (pos - 9) := by
        conv_lhs => rw [show pos = 9 + (pos - 9) by omega]
        rw [List.take_add]
      have hdr : (cps.drop 9).drop (pos - 8 - 1) = cps.drop pos := by
        rw [List.drop_drop]
        congr 1
        omega
      rw [hdr, htk, htake]
      have hpt : (cps.drop 9).take (pos - 8 - 1) = (cps.drop 9).take (pos - 9) := by
        rw [Nat.sub_sub]
      rw [hpt]
      simp

/-- Witness for the amended C6 at the concrete full array `cps16`, pos 0. -/
theorem C6_split_amended_witness :
    (cps16.length = 16 ∧ (0 : ℕ) ≤ 16) ∧
    (∃ left med right,
      insertCheckpoint cps16 ⟨-5, 1, 1⟩ 0 = .pending left med right ∧
      left.length = 8 ∧ right.length = 8 ∧
      left ++ med :: right = cps16.insertIdx 0 ⟨-5, 1, 1⟩ ∧
      ((0 : ℕ) < 8 → cps16.get? 7 = some med) ∧
      ((0 : ℕ) = 8 → med = ⟨-5, 1, 1⟩) ∧
      ((8 : ℕ) < 0 → cps16.get? 8 = some med)) :=
  ⟨⟨by decide, by decide⟩, C6_split_amended cps16 ⟨-5, 1, 1⟩ 0 (by decide) (by decide)⟩

end CheckpointSplit

section Counterexamples

/-- Claim C2, counterexample: after a single `insert_one` at ε = 1/5, the
sole emitted sample is `(0, g = 1, delta = 0)` while
`⌊2·ε·len⌋ = ⌊0.4⌋ = 0`, so `g + delta ≤ ⌊2·ε·len⌋` fails (the invariant
that actually holds is `g + delta ≤ max 1 ⌊2·ε·len⌋`). -/
theorem C2_invariant_counterexample :
    ((Summary.new (T := ℤ) (Rat.divInt 1 5)).insertOne 0).samplesTree.samples = [⟨0, 1, 0⟩] ∧
    ((Summary.new (T := ℤ) (Rat.divInt 1 5)).insertOne 0).len = 1 ∧
    capOf (Rat.divInt 1 5) 1 = 0 ∧
    ¬ ((⟨0, 1, 0⟩ : Sample ℤ).g + (⟨0, 1, 0⟩ : Sample ℤ).delta ≤ capOf (Rat.divInt 1 5) 1) := by
  have hcap : capOf (Rat.divInt 1 5) 1 = 0 :=
    ((Summary.maxGDelta_spec ((Summary.new (T := ℤ) (Rat.divInt 1 5)).insertOne 0)).symm).trans
      (by decide)
  refine ⟨by decide, by decide, hcap, ?_⟩
  rw [hcap]
  decide

/-- Claim C1, counterexample: for the stream `[5, 5, 5]` with ε = 1/5 and
q = 0, the query returns the value 5, whose rank under the spec's own
definition (`rank(v)` = number of stream values ≤ v) is 3, while the target
rank is 1 and `⌊ε·N⌋ = 0`: the difference 2 exceeds the claimed bound.  (For
streams with repeated values the bound only holds for some occurrence rank
of the returned value; see the amended claim.) -/
theorem C1_error_bound_counterexample :
    (summaryOfList (Rat.divInt 1 5) ([5, 5, 5] : List ℤ)).queryWithError 0 =
      some (some (5, 0)) ∧
    quantileToRank 0 3 = some 1 ∧
    countLE ([5, 5, 5] : List ℤ) 5 = 3 ∧
    Int.toNat ⌊(Rat.divInt 1 5 : ℚ) * 3⌋ = 0 ∧
    ¬ (|(3 : ℤ) - 1| ≤ (0 : ℤ)) := by
  refine ⟨by decide, by decide, by decide, ?_, by decide⟩
  rw [Rat.divInt_eq_div]
  norm_num

end Counterexamples

/-!
## Flatten algebra

`SamplesNode.flatten` interleaves children and samples.  These lemmas
decompose the flattened sequence around a child position, and show that
`insert_sample` (with its split-on-full) carries the same total in-order
sequence as a plain insertion.
-/

section FlattenAlgebra

variable {T : Type} [LinearOrder T]

theorem flatten_leaf (s : List (Sample T)) : (SamplesNode.leaf s).flatten = s := rfl

theorem flatten_internal (s : List (Sample T)) (c : List (SamplesNode T)) :
    (SamplesNode.internal s c).flatten = SamplesNode.flatten.flattenAux c s := rfl

theorem flattenAux_cons_cons (x : SamplesNode T) (xs : List (SamplesNode T))
    (y : Sample T) (ys : List (Sample T)) :
    SamplesNode.flatten.flattenAux (x :: xs) (y :: ys) =
      x.flatten ++ y :: SamplesNode.flatten.flattenAux xs ys := rfl

theorem flattenAux_cons_nil (x : SamplesNode T) (xs : List (SamplesNode T)) :
    SamplesNode.flatten.flattenAux (x :: xs) [] = x.flatten := rfl

theorem flattenAux_nil (ys : List (Sample T)) :
    SamplesNode.flatten.flattenAux ([] : List (SamplesNode T)) ys = ys := rfl

/-- Decomposition of the interleaved sequence around the child at `pos`. -/
theorem flattenAux_decomp :
    ∀ (pos : ℕ) (c : List (SamplesNode T)) (s : List (Sample T)) (ch : SamplesNode T),
      c.get? pos = some ch → pos ≤ s.length →
      SamplesNode.flatten.flattenAux c s =
        SamplesNode.flatten.flattenAux (c.take pos) (s.take pos) ++ ch.flatten ++
          (match s.get? pos with
           | some sp =>
             sp :: SamplesNode.flatten.flattenAux (c.drop (pos + 1)) (s.drop (pos + 1))
           | none => [])
  | 0, c, s, ch, hch, hpos => by
    cases c with
    | nil => simp at hch
    | cons c0 crest =>
      obtain rfl : c0 = ch := by simpa using hch
      cases s with
      | nil => simp [flattenAux_cons_nil, flattenAux_nil]
      | cons s0 srest => simp [flattenAux_cons_cons, flattenAux_nil]
  | pos + 1, c, s, ch, hch, hpos => by
    cases c with
    | nil => simp at hch
    | cons c0 crest =>
      cases s with
      | nil => simp at hpos
      | cons s0 srest =>
        have ih := flattenAux_decomp pos crest srest ch (by simpa using hch)
          (by simpa using hpos)
        simp only [flattenAux_cons_cons, List.take_succ_cons, List.drop_succ_cons,
          List.get?_cons_succ, ih, List.append_assoc, List.cons_append]

/-- Appending one more child at the end of a balanced prefix. -/
theorem flattenAux_concat :
    ∀ (c : List (SamplesNode T)) (s : List (Sample T)) (x : SamplesNode T),
      c.length = s.length →
      SamplesNode.flatten.flattenAux (c ++ [x]) s =
        SamplesNode.flatten.flattenAux c s ++ x.flatten
  | [], [], x, _ => by simp [flattenAux_cons_nil, flattenAux_nil]
  | c0 :: crest, s0 :: srest, x, h => by
    have ih := flattenAux_concat crest srest x (by simpa using h)
    simp [flattenAux_cons_cons, ih]
  | [], _ :: _, _, h => by simp at h
  | _ :: _, [], _, h => by simp at h

theorem take_insertIdx_le {α : Type} :
    ∀ (k pos : ℕ) (l : List α) (x : α), k ≤ pos →
      (l.insertIdx pos x).take k = l.take k
  | 0, _, _, _, _ => by simp
  | k + 1, 0, l, x, h => by omega
  | k + 1, pos + 1, [], x, h => by simp
  | k + 1, pos + 1, a :: l, x, h => by
    simp only [List.insertIdx_succ_cons, List.take_succ_cons, List.cons.injEq, true_and]
    exact take_insertIdx_le k pos l x (by omega)

theorem get?_insertIdx_self {α : Type} :
    ∀ (pos : ℕ) (l : List α) (x : α), pos ≤ l.length →
      (l.insertIdx pos x).get? pos = some x
  | 0, l, x, _ => by simp
  | pos + 1, [], x, h => by simp at h
  | pos + 1, a :: l, x, h => by
    simpa using get?_insertIdx_self pos l x (by simpa using h)

theorem get?_insertIdx_lt {α : Type} :
    ∀ (k pos : ℕ) (l : List α) (x : α), k < pos →
      (l.insertIdx pos x).get? k = l.get? k
  | _, 0, _, _, h => by omega
  | 0, pos + 1, [], x, h => by simp
  | 0, pos + 1, a :: l, x, h => by simp
  | k + 1, pos + 1, [], x, h => by simp
  | k + 1, pos + 1, a :: l, x, h => by
    simpa using get?_insertIdx_lt k pos l x (by omega)

theorem drop_insertIdx_succ {α : Type} (pos : ℕ) (l : List α) (x : α)
    (h : pos ≤ l.length) :
    (l.insertIdx pos x).drop (pos + 1) = l.drop pos := by
  rw [insertIdx_take_drop pos l x h]
  have hlt : (l.take pos).length = pos := by
    rw [List.length_take]
    omega
  rw [show pos + 1 = (l.take pos).length + 1 by omega]
  rw [List.drop_append]
  simp

end FlattenAlgebra

section SplitTransparency

variable {T : Type} [LinearOrder T]

theorem take_insertIdx_comm {α : Type} :
    ∀ (pos k : ℕ) (l : List α) (x : α), pos ≤ k →
      (l.insertIdx pos x).take (k + 1) = (l.take k).insertIdx pos x
  | 0, k, l, x, _ => by simp
  | pos + 1, 0, l, x, h => by omega
  | pos + 1, k + 1, [], x, h => by simp
  | pos + 1, k + 1, a :: l, x, h => by
    simp only [List.insertIdx_succ_cons, List.take_succ_cons, List.cons.injEq, true_and]
    exact take_insertIdx_comm pos k l x (by omega)

theorem drop_insertIdx_le {α : Type} :
    ∀ (pos k : ℕ) (l : List α) (x : α), pos ≤ k →
      (l.insertIdx pos x).drop (k + 1) = l.drop k
  | 0, k, l, x, _ => by simp
  | pos + 1, 0, l, x, h => by omega
  | pos + 1, k + 1, [], x, h => by simp
  | pos + 1, k + 1, a :: l, x, h => by
    simpa using drop_insertIdx_le pos k l x (by omega)

theorem drop_insertIdx_ge {α : Type} :
    ∀ (pos k : ℕ) (l : List α) (x : α), k ≤ pos → pos ≤ l.length →
      (l.insertIdx pos x).drop k = (l.drop k).insertIdx (pos - k) x
  | pos, 0, l, x, _, _ => by simp
  | pos + 1, k + 1, [], x, h, h2 => by simp at h2
  | pos + 1, k + 1, a :: l, x, h, h2 => by
    simpa using drop_insertIdx_ge pos k l x (by omega) (by simpa using h2)
  | 0, k + 1, l, x, h, _ => by omega

theorem get?_insertIdx_ge {α : Type} :
    ∀ (pos k : ℕ) (l : List α) (x : α), pos ≤ k →
      (l.insertIdx pos x).get? (k + 1) = l.get? k
  | 0, k, l, x, _ => by simp
  | pos + 1, 0, l, x, h => by omega
  | pos + 1, k + 1, [], x, h => by simp
  | pos + 1, k + 1, a :: l, x, h => by
    simpa using get?_insertIdx_ge pos k l x (by omega)

theorem head?_drop_eq_get? {α : Type} :
    ∀ (k : ℕ) (l : List α), (l.drop k).head? = l.get? k
  | 0, l => by cases l <;> rfl
  | k + 1, [] => rfl
  | k + 1, a :: l => by simpa using head?_drop_eq_get? k l

/-- Recombining a list split at the median. -/
theorem split_recomb {α : Type} (s : List α) (k : ℕ) (med : α)
    (hmed : s.get? k = some med) :
    s.take k ++ med :: s.drop (k + 1) = s := by
  obtain ⟨hk, hget⟩ := List.get?_eq_some.mp hmed
  have hg2 : s[k] = med := by
    rw [List.get_eq_getElem] at hget
    exact hget
  conv_rhs => rw [← List.take_append_drop k s, List.drop_eq_getElem_cons hk]
  rw [hg2]

/-- Recombining an interleaved node split at the median. -/
theorem split_recomb_internal (c : List (SamplesNode T)) (s : List (Sample T))
    (k : ℕ) (med : Sample T) (hmed : s.get? k = some med)
    (hlen : c.length = s.length + 1) :
    SamplesNode.flatten.flattenAux (c.take (k + 1)) (s.take k) ++ med ::
        SamplesNode.flatten.flattenAux (c.drop (k + 1)) (s.drop (k + 1)) =
      SamplesNode.flatten.flattenAux c s := by
  obtain ⟨hk, hget⟩ := List.get?_eq_some.mp hmed
  obtain ⟨ch, hch⟩ : ∃ ch, c.get? k = some ch := by
    rw [List.get?_eq_get (by omega)]
    exact ⟨_, rfl⟩
  have hdec := flattenAux_decomp k c s ch hch (by omega)
  rw [hdec]
  simp only [hmed]
  have htk : c.take (k + 1) = c.take k ++ [ch] := by
    rw [List.take_succ, ← List.get?_eq_getElem?, hch]
    rfl
  rw [htk, flattenAux_concat _ _ _ (by simp only [List.length_take]; omega)]

/-- Split transparency at a leaf: splitting on overflow carries the same
total in-order sequence as a plain insertion. -/
theorem insertSample_flatten_leaf (s : List (Sample T)) (smp : Sample T) (pos : ℕ)
    (hpos : pos ≤ s.length) :
    flattenIR ((SamplesNode.leaf s).insertSample smp none pos).1
        ((SamplesNode.leaf s).insertSample smp none pos).2 =
      s.insertIdx pos smp := by
  by_cases hfull : s.length < nodeCapacity
  · simp [SamplesNode.insertSample, hfull, flattenIR, SamplesNode.insertSampleNonFull,
      flatten_leaf]
  · have hlen : nodeCapacity ≤ s.length := by omega
    have hmplt : s.length / 2 < s.length := by
      have : 0 < s.length := by simp [nodeCapacity] at hlen; omega
      omega
    obtain ⟨med, hmed⟩ : ∃ m, s.get? (s.length / 2) = some m := by
      rw [List.get?_eq_get (by omega)]
      exact ⟨_, rfl⟩
    have hhead : (s.drop (s.length / 2)).head? = some med := by
      rw [head?_drop_eq_get?]
      exact hmed
    by_cases hside : pos ≤ s.length / 2
    · have key := split_recomb (s.insertIdx pos smp) (s.length / 2 + 1) med ?_
      · simp only [SamplesNode.insertSample, if_neg hfull, hhead,
          SamplesNode.insertSampleNonFull, if_pos hside, flattenIR, flatten_leaf]
        rw [take_insertIdx_comm pos _ s smp hside,
          drop_insertIdx_le pos (s.length / 2 + 1) s smp (by omega)] at key
        exact key
      · rw [get?_insertIdx_ge pos _ s smp hside]
        exact hmed
    · have key := split_recomb (s.insertIdx pos smp) (s.length / 2) med ?_
      · simp only [SamplesNode.insertSample, if_neg hfull, hhead,
          SamplesNode.insertSampleNonFull, if_neg hside, flattenIR, flatten_leaf]
        rw [take_insertIdx_le _ pos s smp (by omega),
          drop_insertIdx_ge pos _ s smp (by omega) hpos] at key
        rw [Nat.sub_sub]
        exact key
      · rw [get?_insertIdx_lt _ pos s smp (by omega)]
        exact hmed

/-- Split transparency at an internal node. -/
theorem insertSample_flatten_internal (s : List (Sample T)) (c : List (SamplesNode T))
    (smp : Sample T) (rc : SamplesNode T) (pos : ℕ)
    (hpos : pos ≤ s.length) (hlen : c.length = s.length + 1) :
    flattenIR ((SamplesNode.internal s c).insertSample smp (some rc) pos).1
        ((SamplesNode.internal s c).insertSample smp (some rc) pos).2 =
      SamplesNode.flatten.flattenAux (c.insertIdx (pos + 1) rc) (s.insertIdx pos smp) := by
  by_cases hfull : s.length < nodeCapacity
  · simp [SamplesNode.insertSample, hfull, flattenIR, SamplesNode.insertSampleNonFull,
      flatten_internal]
  · have hlen15 : nodeCapacity ≤ s.length := by omega
    have h0 : 0 < s.length := by
      simp [nodeCapacity] at hlen15
      omega
    have hmplt : s.length / 2 < s.length := by omega
    obtain ⟨med, hmed⟩ : ∃ m, s.get? (s.length / 2) = some m := by
      rw [List.get?_eq_get (by omega)]
      exact ⟨_, rfl⟩
    have hhead : (s.drop (s.length / 2)).head? = some med := by
      rw [head?_drop_eq_get?]
      exact hmed
    have hlen' : (c.insertIdx (pos + 1) rc).length = (s.insertIdx pos smp).length + 1 := by
      rw [List.length_insertIdx _ _ (by omega), List.length_insertIdx _ _ (by omega)]
      omega
    by_cases hside : pos ≤ s.length / 2
    · simp only [SamplesNode.insertSample, if_neg hfull, hhead,
        SamplesNode.insertSampleNonFull, if_pos hside, flattenIR, flatten_internal]
      rw [← take_insertIdx_comm pos (s.length / 2) s smp hside,
        ← take_insertIdx_comm (pos + 1) (s.length / 2 + 1) c rc (by omega),
        ← drop_insertIdx_le pos (s.length / 2 + 1) s smp (by omega),
        ← drop_insertIdx_le (pos + 1) (s.length / 2 + 1) c rc (by omega)]
      exact split_recomb_internal _ _ (s.length / 2 + 1) med
        (by rw [get?_insertIdx_ge pos _ s smp hside]; exact hmed) hlen'
    · simp only [SamplesNode.insertSample, if_neg hfull, hhead,
        SamplesNode.insertSampleNonFull, if_neg hside, flattenIR, flatten_internal]
      rw [← take_insertIdx_le (s.length / 2) pos s smp (by omega),
        ← take_insertIdx_le (s.length / 2 + 1) (pos + 1) c rc (by omega),
        Nat.sub_sub,
        show (s.length / 2 + 1) = (s.length / 2) + 1 from rfl,
        ← drop_insertIdx_ge pos (s.length / 2 + 1) s smp (by omega) hpos,
        show pos - (s.length / 2 + 1) + 1 = pos + 1 - (s.length / 2 + 1) by omega,
        ← drop_insertIdx_ge (pos + 1) (s.length / 2 + 1) c rc (by omega) (by omega)]
      exact split_recomb_internal _ _ (s.length / 2) med
        (by rw [get?_insertIdx_lt _ pos s smp (by omega)]; exact hmed) hlen'

end SplitTransparency

section ListFacts

/-!
General list and order facts used by the simulation lemmas.
-/

variable {T : Type} [LinearOrder T]

/-- Setting an index to the value it already holds is the identity. -/
theorem set_get?_eq {α : Type} :
    ∀ (l : List α) (n : ℕ) (a : α), l.get? n = some a → l.set n a = l
  | [], n, a, h => by simp at h
  | x :: xs, 0, a, h => by
    simp only [List.get?_cons_zero, Option.some.injEq] at h
    simp [h]
  | x :: xs, n + 1, a, h => by
    simp only [List.get?_cons_succ] at h
    simp [List.set, set_get?_eq xs n a h]

/-- Setting at or past `n` does not affect the first `n` elements. -/
theorem take_set_self {α : Type} :
    ∀ (l : List α) (n : ℕ) (a : α), (l.set n a).take n = l.take n
  | [], _, _ => rfl
  | _ :: _, 0, _ => rfl
  | x :: xs, n + 1, a => by
    simp [List.set, List.take_succ_cons, take_set_self xs n a]

/-- Reading back the element just written. -/
theorem get?_set_self {α : Type} (l : List α) (n : ℕ) (a : α) (h : n < l.length) :
    (l.set n a).get? n = some a := by
  rw [List.get?_eq_getElem?]
  exact List.getElem?_set_self h

/-- `findIdx` over an append whose first part has no hit. -/
theorem findIdx_append_of_none {α : Type} (p : α → Bool) (l1 l2 : List α)
    (h : ∀ x ∈ l1, p x = false) :
    (l1 ++ l2).findIdx p = l1.length + l2.findIdx p := by
  rw [List.findIdx_append]
  have he : l1.findIdx p = l1.length := List.findIdx_eq_length.mpr h
  rw [he]
  simp [Nat.add_comm]

/-- A middle factor of a sorted list is sorted. -/
theorem sorted_middle (pre C post : List (Sample T))
    (h : List.Sorted sampleLE (pre ++ C ++ post)) : List.Sorted sampleLE C :=
  List.Pairwise.sublist
    ((List.sublist_append_right pre C).trans (List.sublist_append_left (pre ++ C) post)) h

/-- In a sorted list every element is bounded by the last one. -/
theorem sorted_last_max (l : List (Sample T)) (a : Sample T)
    (hs : List.Sorted sampleLE l) (hl : l.getLast? = some a) :
    ∀ x ∈ l, x.value ≤ a.value := by
  obtain ⟨ys, rfl⟩ := List.getLast?_eq_some_iff.mp hl
  intro x hx
  rcases List.mem_append.mp hx with hx | hx
  · exact (List.pairwise_append.mp hs).2.2 x hx a (by simp)
  · simp only [List.mem_singleton] at hx
    exact le_of_eq (congrArg Sample.value hx)

/-- In a sorted list every element is bounded below by the head. -/
theorem sorted_head_min (l : List (Sample T)) (a : Sample T)
    (hs : List.Sorted sampleLE l) (hl : l.head? = some a) :
    ∀ x ∈ l, a.value ≤ x.value := by
  cases l with
  | nil => simp at hl
  | cons y ys =>
    simp only [List.head?_cons, Option.some.injEq] at hl
    subst hl
    intro x hx
    rcases List.mem_cons.mp hx with rfl | hx
    · exact le_refl _
    · exact (List.sorted_cons.mp hs).1 x hx

/-- `findPos` of a decomposed sorted sequence: all of `pre` at or below the
probe, the first element of `post` above it. -/
theorem findPos_decomp (pre C post : List (Sample T)) (value : T)
    (hpre : ∀ x ∈ pre, x.value ≤ value)
    (hpost : ∀ x, post.head? = some x → value < x.value) :
    findPos (pre ++ C ++ post) value = pre.length + findPos C value := by
  unfold findPos
  rw [List.append_assoc,
    findIdx_append_of_none _ pre _ (by
      intro x hx
      simpa using not_lt.mpr (hpre x hx))]
  congr 1
  by_cases hC : C.findIdx (fun element => decide (value < element.value)) < C.length
  · rw [List.findIdx_append, if_pos hC]
  · have he : C.findIdx (fun element => decide (value < element.value)) = C.length :=
      le_antisymm (List.findIdx_le_length _) (not_lt.mp hC)
    rw [List.findIdx_append, if_neg hC, he]
    cases post with
    | nil => simp
    | cons x xs =>
      have hx : value < x.value := hpost x rfl
      rw [List.findIdx_cons]
      simp [hx]

/-- The last sample of an interleaved flatten is the last separator sample. -/
theorem flattenAux_getLast :
    ∀ (c : List (SamplesNode T)) (s : List (Sample T)), c.length = s.length → s ≠ [] →
      (SamplesNode.flatten.flattenAux c s).getLast? = s.getLast?
  | [], s, h, hs => by
    cases s with
    | nil => exact absurd rfl hs
    | cons y ys => simp at h
  | x :: xs, [], h, hs => absurd rfl hs
  | x :: xs, y :: ys, h, hs => by
    rw [flattenAux_cons_cons, List.getLast?_append]
    by_cases hys : ys = []
    · subst hys
      have hxs : xs = [] := List.length_eq_zero.mp (by simpa using h)
      subst hxs
      simp [flattenAux_nil]
    · have h2 := flattenAux_getLast xs ys (by simpa using h) hys
      obtain ⟨a, ha⟩ : ∃ a, ys.getLast? = some a := by
        cases hysl : ys.getLast? with
        | none => exact absurd (List.getLast?_eq_none_iff.mp hysl) hys
        | some a => exact ⟨a, rfl⟩
      cases hL : SamplesNode.flatten.flattenAux xs ys with
      | nil =>
        rw [hL] at h2
        rw [ha] at h2
        simp at h2
      | cons z zs =>
        rw [hL] at h2
        have : (y :: z :: zs).getLast? = some a := by
          rw [List.getLast?_cons_cons, h2, ha]
        rw [this]
        cases ys with
        | nil => exact absurd rfl hys
        | cons w ws =>
          rw [List.getLast?_cons_cons, ha]
          rfl

end ListFacts

section TreeStructFacts

variable {T : Type} [LinearOrder T]

/-- `structOKL` is membership-wise `structOK`. -/
theorem structOKL_iff :
    ∀ (c : List (SamplesNode T)), structOKL c ↔ ∀ x ∈ c, structOK x
  | [] => by simp [structOKL]
  | x :: xs => by
    simp [structOKL, structOKL_iff xs]

/-- `leavesAtLeastL` is membership-wise `leavesAtLeast`. -/
theorem leavesAtLeastL_iff :
    ∀ (k : ℕ) (c : List (SamplesNode T)), leavesAtLeastL k c ↔ ∀ x ∈ c, leavesAtLeast k x
  | _, [] => by simp [leavesAtLeastL]
  | k, x :: xs => by
    simp [leavesAtLeastL, leavesAtLeastL_iff k xs]

/-- A well-formed subtree whose leaves hold at least two samples flattens to
at least two samples. -/
theorem two_le_flatten_length :
    ∀ (fuel : ℕ) (n : SamplesNode T), sizeOf n ≤ fuel → structOK n → leavesAtLeast 2 n →
      2 ≤ n.flatten.length := by
  intro fuel
  induction fuel with
  | zero =>
    intro n hn _ _
    exfalso
    cases n <;> simp at hn <;> try omega
  | succ f ih =>
    intro n hn hstruct hleaves
    cases n with
    | leaf s =>
      simpa [flatten_leaf] using hleaves
    | internal s c =>
      obtain ⟨hlen, hsne, hokl, hlvl⟩ := hstruct
      cases c with
      | nil => simp at hlen
      | cons ch rest =>
        cases s with
        | nil => exact absurd rfl hsne
        | cons y ys =>
          have hch : 2 ≤ ch.flatten.length := by
            apply ih ch ?_ ((structOKL_iff _).mp hokl ch (by simp))
              ((leavesAtLeastL_iff _ _).mp hlvl ch (by simp))
            have h1 : sizeOf ch < sizeOf (ch :: rest) :=
              List.sizeOf_lt_of_mem (by simp)
            simp at hn
            omega
          rw [flatten_internal, flattenAux_cons_cons]
          simp only [List.length_append, List.length_cons]
          omega

/-- Structural conclusions of `insertSample` on a leaf. -/
theorem insertSample_leaf_struct (s : List (Sample T)) (smp : Sample T) (pos : ℕ)
    (hpos : pos ≤ s.length) :
    structOK (((SamplesNode.leaf s).insertSample smp none pos).1) ∧
    (2 ≤ s.length → leavesAtLeast 2 (((SamplesNode.leaf s).insertSample smp none pos).1)) ∧
    (∀ med right, ((SamplesNode.leaf s).insertSample smp none pos).2 = .pendingSplit med right →
      structOK right ∧ leavesAtLeast 2 right ∧
        leavesAtLeast 2 (((SamplesNode.leaf s).insertSample smp none pos).1)) := by
  by_cases hfull : s.length < nodeCapacity
  · simp only [SamplesNode.insertSample, if_pos hfull, SamplesNode.insertSampleNonFull]
    refine ⟨trivial, ?_, ?_⟩
    · intro h2
      show 2 ≤ (s.insertIdx pos smp).length
      rw [List.length_insertIdx _ _ hpos]
      omega
    · intro med right h
      exact nomatch h
  · have hlen : nodeCapacity ≤ s.length := not_lt.mp hfull
    simp only [nodeCapacity] at hlen
    have h0 : 0 < s.length := by omega
    have hmplt : s.length / 2 < s.length := by omega
    obtain ⟨med, hmed⟩ : ∃ m, s.get? (s.length / 2) = some m := by
      rw [List.get?_eq_get (by omega)]
      exact ⟨_, rfl⟩
    have hhead : (s.drop (s.length / 2)).head? = some med := by
      rw [head?_drop_eq_get?]
      exact hmed
    by_cases hside : pos ≤ s.length / 2
    · simp only [SamplesNode.insertSample, if_neg hfull, hhead,
        SamplesNode.insertSampleNonFull, if_pos hside]
      refine ⟨trivial, fun _ => ?_, fun med' right h => ?_⟩
      · show 2 ≤ ((s.take (s.length / 2)).insertIdx pos smp).length
        rw [List.length_insertIdx _ _ (by simp [List.length_take]; omega)]
        simp [List.length_take]
        omega
      · injection h with h1 h2
        subst h2
        refine ⟨trivial, ?_, ?_⟩
        · show 2 ≤ (s.drop (s.length / 2 + 1)).length
          simp [List.length_drop]
          omega
        · show 2 ≤ ((s.take (s.length / 2)).insertIdx pos smp).length
          rw [List.length_insertIdx _ _ (by simp [List.length_take]; omega)]
          simp [List.length_take]
          omega
    · simp only [SamplesNode.insertSample, if_neg hfull, hhead,
        SamplesNode.insertSampleNonFull, if_neg hside]
      refine ⟨trivial, fun _ => ?_, fun med' right h => ?_⟩
      · show 2 ≤ (s.take (s.length / 2)).length
        simp [List.length_take]
        omega
      · injection h with h1 h2
        subst h2
        refine ⟨trivial, ?_, ?_⟩
        · show 2 ≤ ((s.drop (s.length / 2 + 1)).insertIdx (pos - s.length / 2 - 1) smp).length
          rw [List.length_insertIdx _ _ (by simp [List.length_drop]; omega)]
          simp [List.length_drop]
          omega
        · show 2 ≤ (s.take (s.length / 2)).length
          simp [List.length_take]
          omega

/-- Structural conclusions of `insertSample` on an internal node with a
supplied right child. -/
theorem insertSample_internal_struct (s : List (Sample T)) (c : List (SamplesNode T))
    (smp : Sample T) (rc : SamplesNode T) (pos : ℕ)
    (hstruct : structOK (SamplesNode.internal s c))
    (hrc : structOK rc) (hrcl : leavesAtLeast 2 rc) (hpos : pos ≤ s.length) :
    structOK (((SamplesNode.internal s c).insertSample smp (some rc) pos).1) ∧
    leavesAtLeast 2 (((SamplesNode.internal s c).insertSample smp (some rc) pos).1) ∧
    (∀ med right, ((SamplesNode.internal s c).insertSample smp (some rc) pos).2 =
        .pendingSplit med right →
      structOK right ∧ leavesAtLeast 2 right) := by
  obtain ⟨hlen, hsne, hokl, hlvl⟩ := hstruct
  have hposc : pos + 1 ≤ c.length := by omega
  by_cases hfull : s.length < nodeCapacity
  · simp only [SamplesNode.insertSample, if_pos hfull, SamplesNode.insertSampleNonFull]
    refine ⟨⟨?_, ?_, ?_, ?_⟩, ?_, fun med right h => nomatch h⟩
    · rw [List.length_insertIdx _ _ hpos, List.length_insertIdx _ _ hposc]
      omega
    · have : 0 < (s.insertIdx pos smp).length := by
        rw [List.length_insertIdx _ _ hpos]
        omega
      exact List.length_pos.mp this
    · rw [structOKL_iff]
      intro x hx
      rcases (List.mem_insertIdx hposc).mp hx with rfl | hx
      · exact hrc
      · exact (structOKL_iff _).mp hokl x hx
    · rw [leavesAtLeastL_iff]
      intro x hx
      rcases (List.mem_insertIdx hposc).mp hx with rfl | hx
      · exact hrcl
      · exact (leavesAtLeastL_iff _ _).mp hlvl x hx
    · show leavesAtLeastL 2 (c.insertIdx (pos + 1) rc)
      rw [leavesAtLeastL_iff]
      intro x hx
      rcases (List.mem_insertIdx hposc).mp hx with rfl | hx
      · exact hrcl
      · exact (leavesAtLeastL_iff _ _).mp hlvl x hx
  · have hlen15 : nodeCapacity ≤ s.length := not_lt.mp hfull
    simp only [nodeCapacity] at hlen15
    have h0 : 0 < s.length := by omega
    have hmplt : s.length / 2 < s.length := by omega
    obtain ⟨med, hmed⟩ : ∃ m, s.get? (s.length / 2) = some m := by
      rw [List.get?_eq_get (by omega)]
      exact ⟨_, rfl⟩
    have hhead : (s.drop (s.length / 2)).head? = some med := by
      rw [head?_drop_eq_get?]
      exact hmed
    have hmemtakeS : ∀ x ∈ c.take (s.length / 2 + 1), structOK x :=
      fun x hx => (structOKL_iff _).mp hokl x (List.mem_of_mem_take hx)
    have hmemtakeL : ∀ x ∈ c.take (s.length / 2 + 1), leavesAtLeast 2 x :=
      fun x hx => (leavesAtLeastL_iff _ _).mp hlvl x (List.mem_of_mem_take hx)
    have hmemdropS : ∀ x ∈ c.drop (s.length / 2 + 1), structOK x :=
      fun x hx => (structOKL_iff _).mp hokl x (List.mem_of_mem_drop hx)
    have hmemdropL : ∀ x ∈ c.drop (s.length / 2 + 1), leavesAtLeast 2 x :=
      fun x hx => (leavesAtLeastL_iff _ _).mp hlvl x (List.mem_of_mem_drop hx)
    have hlentakeC : (c.take (s.length / 2 + 1)).length = s.length / 2 + 1 := by
      simp [List.length_take]
      omega
    have hlentakeS : (s.take (s.length / 2)).length = s.length / 2 := by
      simp [List.length_take]
      omega
    have hlendropC : (c.drop (s.length / 2 + 1)).length = s.length - s.length / 2 := by
      simp [List.length_drop]
      omega
    have hlendropS : (s.drop (s.length / 2 + 1)).length = s.length - s.length / 2 - 1 := by
      simp [List.length_drop]
      omega
    by_cases hside : pos ≤ s.length / 2
    · simp only [SamplesNode.insertSample, if_neg hfull, hhead,
        SamplesNode.insertSampleNonFull, if_pos hside]
      have hposT : pos ≤ (s.take (s.length / 2)).length := by omega
      have hposTC : pos + 1 ≤ (c.take (s.length / 2 + 1)).length := by omega
      refine ⟨⟨?_, ?_, ?_, ?_⟩, ?_, fun med' right h => ?_⟩
      · rw [List.length_insertIdx _ _ hposT, List.length_insertIdx _ _ hposTC,
          hlentakeC, hlentakeS]
      · have : 0 < ((s.take (s.length / 2)).insertIdx pos smp).length := by
          rw [List.length_insertIdx _ _ hposT]
          omega
        exact List.length_pos.mp this
      · rw [structOKL_iff]
        intro x hx
        rcases (List.mem_insertIdx hposTC).mp hx with rfl | hx
        · exact hrc
        · exact hmemtakeS x hx
      · rw [leavesAtLeastL_iff]
        intro x hx
        rcases (List.mem_insertIdx hposTC).mp hx with rfl | hx
        · exact hrcl
        · exact hmemtakeL x hx
      · show leavesAtLeastL 2 ((c.take (s.length / 2 + 1)).insertIdx (pos + 1) rc)
        rw [leavesAtLeastL_iff]
        intro x hx
        rcases (List.mem_insertIdx hposTC).mp hx with rfl | hx
        · exact hrcl
        · exact hmemtakeL x hx
      · injection h with h1 h2
        subst h2
        refine ⟨⟨?_, ?_, ?_, ?_⟩, ?_⟩
        · rw [hlendropC, hlendropS]
          omega
        · have : 0 < (s.drop (s.length / 2 + 1)).length := by
            rw [hlendropS]
            omega
          exact List.length_pos.mp this
        · rw [structOKL_iff]
          exact hmemdropS
        · rw [leavesAtLeastL_iff]
          exact hmemdropL
        · show leavesAtLeastL 2 (c.drop (s.length / 2 + 1))
          rw [leavesAtLeastL_iff]
          exact hmemdropL
    · simp only [SamplesNode.insertSample, if_neg hfull, hhead,
        SamplesNode.insertSampleNonFull, if_neg hside]
      have hposD : pos - s.length / 2 - 1 ≤ (s.drop (s.length / 2 + 1)).length := by
        rw [hlendropS]
        omega
      have hposDC : pos - s.length / 2 - 1 + 1 ≤ (c.drop (s.length / 2 + 1)).length := by
        rw [hlendropC]
        omega
      refine ⟨⟨?_, ?_, ?_, ?_⟩, ?_, fun med' right h => ?_⟩
      · rw [hlentakeC, hlentakeS]
      · have : 0 < (s.take (s.length / 2)).length := by
          rw [hlentakeS]
          omega
        exact List.length_pos.mp this
      · rw [structOKL_iff]
        exact hmemtakeS
      · rw [leavesAtLeastL_iff]
        exact hmemtakeL
      · show leavesAtLeastL 2 (c.take (s.length / 2 + 1))
        rw [leavesAtLeastL_iff]
        exact hmemtakeL
      · injection h with h1 h2
        subst h2
        refine ⟨⟨?_, ?_, ?_, ?_⟩, ?_⟩
        · rw [List.length_insertIdx _ _ hposD, List.length_insertIdx _ _ hposDC,
            hlendropC, hlendropS]
          omega
        · have : 0 < ((s.drop (s.length / 2 + 1)).insertIdx (pos - s.length / 2 - 1) smp).length := by
            rw [List.length_insertIdx _ _ hposD]
            omega
          exact List.length_pos.mp this
        · rw [structOKL_iff]
          intro x hx
          rcases (List.mem_insertIdx hposDC).mp hx with rfl | hx
          · exact hrc
          · exact hmemdropS x hx
        · rw [leavesAtLeastL_iff]
          intro x hx
          rcases (List.mem_insertIdx hposDC).mp hx with rfl | hx
          · exact hrcl
          · exact hmemdropL x hx
        · show leavesAtLeastL 2 ((c.drop (s.length / 2 + 1)).insertIdx (pos - s.length / 2 - 1 + 1) rc)
          rw [leavesAtLeastL_iff]
          intro x hx
          rcases (List.mem_insertIdx hposDC).mp hx with rfl | hx
          · exact hrcl
          · exact hmemdropL x hx

end TreeStructFacts

section FlatPushBranches

/-!
Branch characterizations of `flatPush`: one lemma per branch of
`push_value_leaf`, with the branch conditions as hypotheses, plus
`insertIdx` append decompositions.
-/

variable {T : Type} [LinearOrder T]

/-- Inserting into an append, position inside the left part. -/
theorem insertIdx_append_left {α : Type} :
    ∀ (l1 : List α) (l2 : List α) (k : ℕ) (x : α), k ≤ l1.length →
      (l1 ++ l2).insertIdx k x = l1.insertIdx k x ++ l2
  | l1, l2, 0, x, h => by simp
  | [], l2, k + 1, x, h => by simp at h
  | a :: l1, l2, k + 1, x, h => by
    simp only [List.cons_append, List.insertIdx_succ_cons]
    rw [insertIdx_append_left l1 l2 k x (by simpa using h)]

/-- Inserting into an append, position inside the right part. -/
theorem insertIdx_append_right {α : Type} :
    ∀ (l1 : List α) (l2 : List α) (k : ℕ) (x : α),
      (l1 ++ l2).insertIdx (l1.length + k) x = l1 ++ l2.insertIdx k x
  | [], l2, k, x => by simp
  | a :: l1, l2, k, x => by
    simp only [List.cons_append, List.length_cons]
    have hi : a :: l1 ++ l2 = a :: (l1 ++ l2) := rfl
    have hn : l1.length + 1 + k = (l1.length + k) + 1 := by omega
    rw [hn, List.insertIdx_succ_cons, insertIdx_append_right l1 l2 k x]

/-- Setting an element located in the right part of an append. -/
theorem set_append_middle {α : Type} (pre rest : List α) (k : ℕ) (x : α) :
    (pre ++ rest).set (pre.length + k) x = pre ++ rest.set k x := by
  rw [List.set_append, if_neg (by omega)]
  congr 2
  omega

/-- Reading an element located in the right part of an append. -/
theorem get?_append_middle {α : Type} (pre rest : List α) (k : ℕ) :
    (pre ++ rest).get? (pre.length + k) = rest.get? k := by
  rw [List.get?_eq_getElem?, List.get?_eq_getElem?,
    List.getElem?_append_right (by omega : pre.length ≤ pre.length + k)]
  congr 1
  omega

/-- `flatPush` on the empty sequence inserts an exact sample. -/
theorem flatPush_empty (value : T) (cap : ℕ) (hl : Bool) (pr : Option (Sample T)) :
    flatPush ([] : List (Sample T)) value cap hl pr = ([Sample.exact value], pr, true) := rfl

/-- `flatPush`, new-minimum branch, merge fits. -/
theorem flatPush_min_fits (mn am : Sample T) (rest : List (Sample T)) (value : T)
    (cap : ℕ) (pr : Option (Sample T))
    (hcpos : findPos (mn :: am :: rest) value = 0)
    (hfit : am.delta + am.g + 1 ≤ cap) :
    flatPush (mn :: am :: rest) value cap false pr =
      ({ mn with value := value } :: { am with g := am.g + 1 } :: rest, pr, false) := by
  simp only [flatPush, pushDecision, hcpos]
  rw [if_neg (by simp), if_pos (by simp)]
  simp only [if_pos hfit]

/-- `flatPush`, new-minimum branch, merge does not fit: a fresh exact sample
is prepended. -/
theorem flatPush_min_nofit (mn am : Sample T) (rest : List (Sample T)) (value : T)
    (cap : ℕ) (pr : Option (Sample T))
    (hcpos : findPos (mn :: am :: rest) value = 0)
    (hfit : ¬ am.delta + am.g + 1 ≤ cap) :
    flatPush (mn :: am :: rest) value cap false pr =
      (Sample.exact value :: mn :: am :: rest, pr, true) := by
  simp only [flatPush, pushDecision, hcpos]
  rw [if_neg (by simp), if_pos (by simp)]
  simp only [if_neg hfit]
  simp [List.insertIdx]

/-- `flatPush`, new-maximum branch, merge fits. -/
theorem flatPush_max_fits (xs : List (Sample T)) (mx : Sample T) (value : T)
    (cap : ℕ) (hl : Bool)
    (hne : xs ≠ [])
    (hcpos : findPos xs value = xs.length)
    (hmx : xs.getLast? = some mx)
    (hfit : mx.g + 1 ≤ cap) :
    flatPush xs value cap hl none =
      (xs.dropLast ++ [{ mx with value := value, g := mx.g + 1 }], none, false) := by
  have hlen : 0 < xs.length := List.length_pos.mpr hne
  simp only [flatPush, pushDecision, hcpos]
  rw [if_neg (by omega), if_neg (by
    rintro ⟨h1, h2⟩
    omega), if_pos (by simp)]
  rw [hmx]
  simp only [if_pos hfit]

/-- `flatPush`, new-maximum branch, merge does not fit: a fresh exact sample
is appended. -/
theorem flatPush_max_nofit (xs : List (Sample T)) (mx : Sample T) (value : T)
    (cap : ℕ) (hl : Bool)
    (hne : xs ≠ [])
    (hcpos : findPos xs value = xs.length)
    (hmx : xs.getLast? = some mx)
    (hfit : ¬ mx.g + 1 ≤ cap) :
    flatPush xs value cap hl none = (xs ++ [Sample.exact value], none, true) := by
  have hlen : 0 < xs.length := List.length_pos.mpr hne
  simp only [flatPush, pushDecision, hcpos]
  rw [if_neg (by omega), if_neg (by
    rintro ⟨h1, h2⟩
    omega), if_pos (by simp)]
  rw [hmx]
  simp only [if_neg hfit]
  rw [List.insertIdx_length_self]

/-- `flatPush`, generic branch with the follower inside the sequence, merge
fits: the follower absorbs the new value. -/
theorem flatPush_interior_fits (xs : List (Sample T)) (r : Sample T) (value : T)
    (cap : ℕ) (hl : Bool) (pr : Option (Sample T))
    (hno2 : ¬ (findPos xs value = 0 ∧ hl = false))
    (hget : xs.get? (findPos xs value) = some r)
    (hfit : r.delta + r.g + 1 ≤ cap) :
    flatPush xs value cap hl pr = (xs.set (findPos xs value) { r with g := r.g + 1 }, pr, false) := by
  have hlt : findPos xs value < xs.length := by
    rcases List.get?_eq_some.mp hget with ⟨h, _⟩
    exact h
  simp only [flatPush, pushDecision]
  rw [if_neg (by
    rintro ⟨h1, h2⟩
    omega), if_neg hno2, if_neg (by
    rintro ⟨h1, h2⟩
    omega)]
  rw [hget]
  simp only [if_pos hfit]

/-- `flatPush`, generic branch with the follower inside the sequence, merge
does not fit: a new sample is inserted before the follower. -/
theorem flatPush_interior_nofit (xs : List (Sample T)) (r : Sample T) (value : T)
    (cap : ℕ) (hl : Bool) (pr : Option (Sample T))
    (hno2 : ¬ (findPos xs value = 0 ∧ hl = false))
    (hget : xs.get? (findPos xs value) = some r)
    (hfit : ¬ r.delta + r.g + 1 ≤ cap) :
    flatPush xs value cap hl pr =
      (xs.insertIdx (findPos xs value) { value := value, g := 1, delta := r.g + r.delta - 1 },
        pr, true) := by
  have hlt : findPos xs value < xs.length := by
    rcases List.get?_eq_some.mp hget with ⟨h, _⟩
    exact h
  simp only [flatPush, pushDecision]
  rw [if_neg (by
    rintro ⟨h1, h2⟩
    omega), if_neg hno2, if_neg (by
    rintro ⟨h1, h2⟩
    omega)]
  rw [hget]
  simp only [if_neg hfit]

/-- `flatPush`, generic branch with the follower provided by an ancestor,
merge fits: the ancestor-held follower absorbs the new value. -/
theorem flatPush_atpr_fits (xs : List (Sample T)) (r : Sample T) (value : T)
    (cap : ℕ) (hl : Bool)
    (hne : xs ≠ [])
    (hcpos : findPos xs value = xs.length)
    (hfit : r.delta + r.g + 1 ≤ cap) :
    flatPush xs value cap hl (some r) = (xs, some { r with g := r.g + 1 }, false) := by
  have hlen : 0 < xs.length := List.length_pos.mpr hne
  simp only [flatPush, pushDecision, hcpos]
  rw [if_neg (by omega), if_neg (by
    rintro ⟨h1, h2⟩
    omega), if_neg (by
    rintro ⟨h1, h2⟩
    exact nomatch h2)]
  rw [List.get?_eq_getElem?, List.getElem?_eq_none (by omega)]
  simp only [if_pos hfit]

/-- `flatPush`, generic branch with the follower provided by an ancestor,
merge does not fit: a new sample is appended to this subtree. -/
theorem flatPush_atpr_nofit (xs : List (Sample T)) (r : Sample T) (value : T)
    (cap : ℕ) (hl : Bool)
    (hne : xs ≠ [])
    (hcpos : findPos xs value = xs.length)
    (hfit : ¬ r.delta + r.g + 1 ≤ cap) :
    flatPush xs value cap hl (some r) =
      (xs ++ [{ value := value, g := 1, delta := r.g + r.delta - 1 }], some r, true) := by
  have hlen : 0 < xs.length := List.length_pos.mpr hne
  simp only [flatPush, pushDecision, hcpos]
  rw [if_neg (by omega), if_neg (by
    rintro ⟨h1, h2⟩
    omega), if_neg (by
    rintro ⟨h1, h2⟩
    exact nomatch h2)]
  rw [List.get?_eq_getElem?, List.getElem?_eq_none (by omega)]
  simp only [if_neg hfit]
  rw [List.insertIdx_length_self]

/-- The central flat decomposition: pushing into a sorted sequence
`pre ++ C ++ post` behaves as pushing into the factor `C` under the context
(`hl'`, `prc`) that the tree navigation hands to the subtree owning `C`. -/
theorem flatPush_decomp (pre C post : List (Sample T)) (value : T) (cap : ℕ)
    (hl hl' : Bool) (pr prc : Option (Sample T))
    (HC2 : 2 ≤ C.length)
    (Hhl : hl' = false ↔ (hl = false ∧ pre = []))
    (Hprc1 : post = [] → prc = pr)
    (Hprc2 : ∀ x xs, post = x :: xs → prc = some x)
    (Hfp : findPos (pre ++ C ++ post) value = pre.length + findPos C value) :
    (flatPush (pre ++ C ++ post) value cap hl pr).2.2 = (flatPush C value cap hl' prc).2.2 ∧
    (post = [] →
      (flatPush (pre ++ C ++ post) value cap hl pr).1 =
        pre ++ (flatPush C value cap hl' prc).1 ∧
      (flatPush (pre ++ C ++ post) value cap hl pr).2.1 =
        (flatPush C value cap hl' prc).2.1) ∧
    (∀ p ps, post = p :: ps →
      ∃ p2, (flatPush C value cap hl' prc).2.1 = some p2 ∧
        (flatPush (pre ++ C ++ post) value cap hl pr).1 =
          pre ++ (flatPush C value cap hl' prc).1 ++ p2 :: ps ∧
        (flatPush (pre ++ C ++ post) value cap hl pr).2.1 = pr) := by
  have hcle : findPos C value ≤ C.length := List.findIdx_le_length _
  by_cases h2 : findPos C value = 0 ∧ hl' = false
  · obtain ⟨hc0, hl0⟩ := h2
    obtain ⟨hhl0, hpre⟩ := Hhl.mp hl0
    subst hpre
    subst hhl0
    subst hl0
    cases C with
    | nil => simp at HC2
    | cons mn C1 =>
      cases C1 with
      | nil => simp at HC2
      | cons am rest =>
        have hgl : (([] : List (Sample T)) ++ (mn :: am :: rest) ++ post) =
            mn :: am :: (rest ++ post) := by simp
        have hgpos : findPos (mn :: am :: (rest ++ post)) value = 0 := by
          rw [← hgl]
          rw [Hfp, hc0]
          rfl
        rw [hgl]
        by_cases hfit : am.delta + am.g + 1 ≤ cap
        · rw [flatPush_min_fits mn am rest value cap prc hc0 hfit,
            flatPush_min_fits mn am (rest ++ post) value cap pr hgpos hfit]
          refine ⟨rfl, fun hp => ?_, fun p ps hp => ?_⟩
          · subst hp
            exact ⟨by simp, (Hprc1 rfl).symm⟩
          · subst hp
            exact ⟨p, Hprc2 p ps rfl, by simp, rfl⟩
        · rw [flatPush_min_nofit mn am rest value cap prc hc0 hfit,
            flatPush_min_nofit mn am (rest ++ post) value cap pr hgpos hfit]
          refine ⟨rfl, fun hp => ?_, fun p ps hp => ?_⟩
          · subst hp
            exact ⟨by simp, (Hprc1 rfl).symm⟩
          · subst hp
            exact ⟨p, Hprc2 p ps rfl, by simp, rfl⟩
  · have hno2g : ¬ (findPos (pre ++ C ++ post) value = 0 ∧ hl = false) := by
      rintro ⟨hg0, hhl0⟩
      rw [Hfp] at hg0
      have hpre0 : pre = [] := List.length_eq_zero.mp (by omega)
      exact h2 ⟨by omega, Hhl.mpr ⟨hhl0, hpre0⟩⟩
    have hCne : C ≠ [] := by
      intro h
      rw [h] at HC2
      simp at HC2
    by_cases h3 : findPos C value = C.length ∧ prc = none
    · obtain ⟨hcl, hprc⟩ := h3
      cases hpost : post with
      | cons p ps => rw [Hprc2 p ps hpost] at hprc; exact nomatch hprc
      | nil =>
        subst hpost
        have hprn : pr = none := by rw [← Hprc1 rfl, hprc]
        subst hprn
        obtain ⟨mx, hmx⟩ : ∃ mx, C.getLast? = some mx := by
          cases hl2 : C.getLast? with
          | none => exact absurd (List.getLast?_eq_none_iff.mp hl2) hCne
          | some mx => exact ⟨mx, rfl⟩
        have hFne : pre ++ C ++ [] ≠ [] := by simp [hCne]
        have hgpos : findPos (pre ++ C ++ []) value = (pre ++ C ++ []).length := by
          rw [Hfp, hcl]
          simp
        have hmxF : (pre ++ C ++ []).getLast? = some mx := by
          rw [List.append_nil, List.getLast?_append, hmx]
          rfl
        rw [hprc]
        by_cases hfit : mx.g + 1 ≤ cap
        · rw [flatPush_max_fits C mx value cap hl' hCne hcl hmx hfit,
            flatPush_max_fits (pre ++ C ++ []) mx value cap hl hFne hgpos hmxF hfit]
          refine ⟨rfl, fun _ => ⟨?_, rfl⟩, fun p ps hp => nomatch hp⟩
          rw [List.append_nil, List.dropLast_append_of_ne_nil _ hCne, List.append_assoc]
        · rw [flatPush_max_nofit C mx value cap hl' hCne hcl hmx hfit,
            flatPush_max_nofit (pre ++ C ++ []) mx value cap hl hFne hgpos hmxF hfit]
          refine ⟨rfl, fun _ => ⟨?_, rfl⟩, fun p ps hp => nomatch hp⟩
          rw [List.append_nil, List.append_assoc]
    · cases hget : C.get? (findPos C value) with
      | some r =>
        have hclt : findPos C value < C.length := by
          rcases List.get?_eq_some.mp hget with ⟨h, _⟩
          exact h
        have hgetF : (pre ++ C ++ post).get? (findPos (pre ++ C ++ post) value) = some r := by
          rw [Hfp, List.append_assoc, get?_append_middle, List.get?_eq_getElem?,
            List.getElem?_append_left hclt, ← List.get?_eq_getElem?]
          exact hget
        by_cases hfit : r.delta + r.g + 1 ≤ cap
        · rw [flatPush_interior_fits C r value cap hl' prc h2 hget hfit,
            flatPush_interior_fits (pre ++ C ++ post) r value cap hl pr hno2g hgetF hfit]
          have hsetF : (pre ++ C ++ post).set (findPos (pre ++ C ++ post) value)
              { r with g := r.g + 1 } =
              pre ++ C.set (findPos C value) { r with g := r.g + 1 } ++ post := by
            rw [Hfp, List.append_assoc, set_append_middle, List.set_append, if_pos hclt,
              List.append_assoc]
          refine ⟨rfl, fun hp => ?_, fun p ps hp => ?_⟩
          · subst hp
            exact ⟨hsetF.trans (by simp), (Hprc1 rfl).symm⟩
          · subst hp
            exact ⟨p, Hprc2 p ps rfl, hsetF, rfl⟩
        · rw [flatPush_interior_nofit C r value cap hl' prc h2 hget hfit,
            flatPush_interior_nofit (pre ++ C ++ post) r value cap hl pr hno2g hgetF hfit]
          have hinsF : (pre ++ C ++ post).insertIdx (findPos (pre ++ C ++ post) value)
              { value := value, g := 1, delta := r.g + r.delta - 1 } =
              pre ++ C.insertIdx (findPos C value)
                { value := value, g := 1, delta := r.g + r.delta - 1 } ++ post := by
            rw [Hfp, List.append_assoc, insertIdx_append_right,
              insertIdx_append_left C post _ _ hcle, List.append_assoc]
          refine ⟨rfl, fun hp => ?_, fun p ps hp => ?_⟩
          · subst hp
            exact ⟨hinsF.trans (by simp), (Hprc1 rfl).symm⟩
          · subst hp
            exact ⟨p, Hprc2 p ps rfl, hinsF, rfl⟩
      | none =>
        have hcl : findPos C value = C.length :=
          le_antisymm hcle (by
            rcases List.get?_eq_none.mp hget with h
            exact h)
        cases hprc : prc with
        | none => exact absurd ⟨hcl, hprc⟩ h3
        | some r =>
          cases hpost : post with
          | nil =>
            subst hpost
            have hprr : pr = some r := by rw [← Hprc1 rfl, hprc]
            subst hprr
            have hFne : pre ++ C ++ [] ≠ [] := by simp [hCne]
            have hgpos : findPos (pre ++ C ++ []) value = (pre ++ C ++ []).length := by
              rw [Hfp, hcl]
              simp
            by_cases hfit : r.delta + r.g + 1 ≤ cap
            · rw [flatPush_atpr_fits C r value cap hl' hCne hcl hfit,
                flatPush_atpr_fits (pre ++ C ++ []) r value cap hl hFne hgpos hfit]
              refine ⟨rfl, fun _ => ⟨by simp, rfl⟩, fun p ps hp => nomatch hp⟩
            · rw [flatPush_atpr_nofit C r value cap hl' hCne hcl hfit,
                flatPush_atpr_nofit (pre ++ C ++ []) r value cap hl hFne hgpos hfit]
              refine ⟨rfl, fun _ => ⟨by simp, rfl⟩, fun p ps hp => nomatch hp⟩
          | cons p ps =>
            have hrp : r = p := by
              have h := Hprc2 p ps hpost
              rw [hprc] at h
              exact (Option.some.injEq _ _).mp h
            subst hrp
            subst hpost
            have hgetF : (pre ++ C ++ r :: ps).get?
                (findPos (pre ++ C ++ r :: ps) value) = some r := by
              rw [Hfp, hcl, List.append_assoc, get?_append_middle, List.get?_eq_getElem?,
                List.getElem?_append_right (le_refl _)]
              simp
            by_cases hfit : r.delta + r.g + 1 ≤ cap
            · rw [flatPush_atpr_fits C r value cap hl' hCne hcl hfit,
                flatPush_interior_fits (pre ++ C ++ r :: ps) r value cap hl pr hno2g hgetF hfit]
              have hsetF : (pre ++ C ++ r :: ps).set (findPos (pre ++ C ++ r :: ps) value)
                  { r with g := r.g + 1 } = pre ++ C ++ { r with g := r.g + 1 } :: ps := by
                rw [Hfp, hcl, List.append_assoc, set_append_middle, List.set_append,
                  if_neg (by omega), Nat.sub_self]
                simp
              refine ⟨rfl, fun hp => by simp at hp, fun q qs hq => ?_⟩
              obtain ⟨h1, h2⟩ : r = q ∧ ps = qs := by
                injection hq with h1 h2
                exact ⟨h1, h2⟩
              subst h1
              subst h2
              exact ⟨{ r with g := r.g + 1 }, rfl, by rw [hsetF, List.append_assoc], rfl⟩
            · rw [flatPush_atpr_nofit C r value cap hl' hCne hcl hfit,
                flatPush_interior_nofit (pre ++ C ++ r :: ps) r value cap hl pr hno2g hgetF hfit]
              have hinsF : (pre ++ C ++ r :: ps).insertIdx
                  (findPos (pre ++ C ++ r :: ps) value)
                  { value := value, g := 1, delta := r.g + r.delta - 1 } =
                  pre ++ (C ++ [{ value := value, g := 1, delta := r.g + r.delta - 1 }]) ++
                    r :: ps := by
                rw [Hfp, hcl, List.append_assoc, insertIdx_append_right,
                  insertIdx_append_left C (r :: ps) _ _ (le_refl _),
                  List.insertIdx_length_self]
                simp
              refine ⟨rfl, fun hp => by simp at hp, fun q qs hq => ?_⟩
              obtain ⟨h1, h2⟩ : r = q ∧ ps = qs := by
                injection hq with h1 h2
                exact ⟨h1, h2⟩
              subst h1
              subst h2
              exact ⟨r, rfl, by rw [hinsF], rfl⟩

/-- `pushDecision` micro-compression keeps the number of samples. -/
theorem pushDecision_none_length (s : List (Sample T)) (value : T) (pos cap : ℕ)
    (hl : Bool) (pr : Option (Sample T)) (s2 : List (Sample T)) (pr2 : Option (Sample T))
    (h : pushDecision s value pos cap hl pr = (none, s2, pr2)) : s2.length = s.length := by
  unfold pushDecision at h
  repeat' split at h
  all_goals simp only [Prod.mk.injEq] at h
  all_goals obtain ⟨h1, h2, h3⟩ := h
  all_goals try exact Option.noConfusion h1
  all_goals subst h2
  all_goals first
  | rfl
  | (rename_i mx heq hfit
     have hne : s ≠ [] := by
       intro hnil
       rw [hnil] at heq
       simp at heq
     have hpos2 := List.length_pos.mpr hne
     simp
     omega)
  | simp

/-- `pushDecision` insertion returns the samples and the parent follower
unchanged. -/
theorem pushDecision_some (s : List (Sample T)) (value : T) (pos cap : ℕ)
    (hl : Bool) (pr : Option (Sample T)) (smp : Sample T) (s2 : List (Sample T))
    (pr2 : Option (Sample T))
    (h : pushDecision s value pos cap hl pr = (some smp, s2, pr2)) : s2 = s ∧ pr2 = pr := by
  unfold pushDecision at h
  repeat' split at h
  all_goals simp only [Prod.mk.injEq] at h
  all_goals obtain ⟨h1, h2, h3⟩ := h
  all_goals try exact Option.noConfusion h1
  all_goals exact ⟨h2.symm, h3.symm⟩

/-- Dropping exactly at the insertion point exposes the inserted element. -/
theorem drop_insertIdx_self {α : Type} :
    ∀ (l : List α) (k : ℕ) (x : α), k ≤ l.length →
      (l.insertIdx k x).drop k = x :: l.drop k
  | l, 0, x, h => by simp
  | [], k + 1, x, h => by simp at h
  | a :: l, k + 1, x, h => by
    simp only [List.insertIdx_succ_cons, List.drop_succ_cons]
    exact drop_insertIdx_self l k x (by simpa using h)

end FlatPushBranches

section TreeSimulation

variable {T : Type} [LinearOrder T]

/-- `pushValueChildren` applies `pushValue` to the addressed child and leaves
the rest untouched. -/
theorem pushValueChildren_eq :
    ∀ (c : List (SamplesNode T)) (pos : ℕ) (child : SamplesNode T),
      c.get? pos = some child →
      ∀ (value : T) (cap : ℕ) (hl : Bool) (pr : Option (Sample T)),
        SamplesNode.pushValueChildren c pos value cap hl pr =
          (c.set pos (child.pushValue value cap hl pr).1,
            (child.pushValue value cap hl pr).2.1,
            (child.pushValue value cap hl pr).2.2)
  | [], pos, child, hch, _, _, _, _ => by simp at hch
  | ch :: rest, 0, child, hch, value, cap, hl, pr => by
    obtain rfl : ch = child := by simpa using hch
    simp only [SamplesNode.pushValueChildren]
    rcases hE : ch.pushValue value cap hl pr with ⟨c1, pr1, res1⟩
    simp [hE]
  | ch :: rest, pos + 1, child, hch, value, cap, hl, pr => by
    have ih := pushValueChildren_eq rest pos child (by simpa using hch) value cap hl pr
    simp only [SamplesNode.pushValueChildren, ih]
    simp

/-- Decomposition of the interleaved flatten after replacing one child. -/
theorem flattenAux_set_child (pos : ℕ) (c : List (SamplesNode T)) (s : List (Sample T))
    (ch2 : SamplesNode T) (hc : pos < c.length) (hpos : pos ≤ s.length) :
    SamplesNode.flatten.flattenAux (c.set pos ch2) s =
      SamplesNode.flatten.flattenAux (c.take pos) (s.take pos) ++ ch2.flatten ++
        (match s.get? pos with
         | some sp =>
           sp :: SamplesNode.flatten.flattenAux (c.drop (pos + 1)) (s.drop (pos + 1))
         | none => []) := by
  have h := flattenAux_decomp pos (c.set pos ch2) s ch2 (get?_set_self c pos ch2 hc) hpos
  rw [h, take_set_self, List.drop_set, if_pos (by omega)]

/-- Decomposition after replacing one child and the sample following it. -/
theorem flattenAux_set_both (pos : ℕ) (c : List (SamplesNode T)) (s : List (Sample T))
    (ch2 : SamplesNode T) (q : Sample T) (hc : pos < c.length) (hpos : pos < s.length) :
    SamplesNode.flatten.flattenAux (c.set pos ch2) (s.set pos q) =
      SamplesNode.flatten.flattenAux (c.take pos) (s.take pos) ++ ch2.flatten ++
        q :: SamplesNode.flatten.flattenAux (c.drop (pos + 1)) (s.drop (pos + 1)) := by
  have h := flattenAux_decomp pos (c.set pos ch2) (s.set pos q) ch2
    (get?_set_self c pos ch2 hc) (by simp; omega)
  rw [h, take_set_self, take_set_self, List.drop_set, if_pos (by omega),
    List.drop_set, if_pos (by omega), get?_set_self s pos q hpos]

/-- Decomposition after splitting the addressed child: the left half replaces
it, the median is inserted after the corresponding sample position, and the
right half becomes the next child. -/
theorem flattenAux_split_insert (pos : ℕ) (c : List (SamplesNode T)) (s : List (Sample T))
    (lc right : SamplesNode T) (med : Sample T) (hc : pos < c.length) (hs : pos ≤ s.length) :
    SamplesNode.flatten.flattenAux ((c.set pos lc).insertIdx (pos + 1) right)
        (s.insertIdx pos med) =
      SamplesNode.flatten.flattenAux (c.take pos) (s.take pos) ++ lc.flatten ++
        med :: right.flatten ++
        (match s.get? pos with
         | some sp =>
           sp :: SamplesNode.flatten.flattenAux (c.drop (pos + 1)) (s.drop (pos + 1))
         | none => []) := by
  have h1 : ((c.set pos lc).insertIdx (pos + 1) right).get? pos = some lc := by
    rw [get?_insertIdx_lt pos (pos + 1) _ right (by omega)]
    exact get?_set_self c pos lc hc
  have h2 : pos ≤ (s.insertIdx pos med).length := by
    rw [List.length_insertIdx _ _ hs]
    omega
  have h := flattenAux_decomp pos ((c.set pos lc).insertIdx (pos + 1) right)
    (s.insertIdx pos med) lc h1 h2
  rw [h]
  rw [take_insertIdx_le pos (pos + 1) _ right (by omega), take_set_self,
    take_insertIdx_le pos pos s med (le_refl _),
    get?_insertIdx_self pos s med hs,
    drop_insertIdx_self (c.set pos lc) (pos + 1) right
      (by rw [List.length_set]; omega),
    List.drop_set, if_pos (by omega),
    drop_insertIdx_succ pos s med hs]
  cases hsp : s.get? pos with
  | some sp =>
    have hlt : pos < s.length := by
      rcases List.get?_eq_some.mp hsp with ⟨hh, _⟩
      exact hh
    have hdropeq : s.drop pos = sp :: s.drop (pos + 1) := by
      rw [List.drop_eq_getElem_cons hlt]
      congr 1
      rw [List.get?_eq_getElem?, List.getElem?_eq_getElem hlt] at hsp
      exact (Option.some.injEq _ _).mp hsp
    rw [hdropeq, flattenAux_cons_cons]
    simp [List.append_assoc]
  | none =>
    have hge : s.length ≤ pos := List.get?_eq_none.mp hsp
    have hdropeq : s.drop pos = [] := List.drop_eq_nil_of_le (by omega)
    rw [hdropeq, flattenAux_cons_nil]
    simp [List.append_assoc]

/-- The flattened prefix before child `pos` is empty exactly when `pos = 0`. -/
theorem flattenAux_take_eq_nil_iff (pos : ℕ) (c : List (SamplesNode T))
    (s : List (Sample T)) (hc : c.length = s.length + 1) (hpos : pos ≤ s.length) :
    SamplesNode.flatten.flattenAux (c.take pos) (s.take pos) = [] ↔ pos = 0 := by
  constructor
  · intro h
    by_contra hne
    have hp1 : 1 ≤ pos := by omega
    have hlen : (s.take pos).getLast? = s.get? (pos - 1) := by
      rw [List.getLast?_eq_getElem?, List.getElem?_take, if_pos (by simp [List.length_take]; omega)]
      rw [List.get?_eq_getElem?]
      congr 1
      simp [List.length_take]
      omega
    have hsome : ∃ y, s.get? (pos - 1) = some y := by
      rw [List.get?_eq_get (by omega)]
      exact ⟨_, rfl⟩
    obtain ⟨y, hy⟩ := hsome
    have hgl := flattenAux_getLast (c.take pos) (s.take pos)
      (by simp [List.length_take]; omega)
      (by
        intro hnil
        have hlentake : (s.take pos).length = 0 := by rw [hnil]; rfl
        rw [List.length_take] at hlentake
        omega)
    rw [h] at hgl
    simp at hgl
    rw [hlen, hy] at hgl
    exact Option.noConfusion hgl
  · intro h
    subst h
    simp [flattenAux_nil]

/-- Samples preceding the navigation point are at or below the probe value. -/
theorem flattenAux_take_le_value (pos : ℕ) (c : List (SamplesNode T)) (s : List (Sample T))
    (value : T) (hpos : pos ≤ s.length) (hfind : pos = findPos s value)
    (hsorted : List.Sorted sampleLE (SamplesNode.flatten.flattenAux (c.take pos) (s.take pos)))
    (hlen : (c.take pos).length = (s.take pos).length) :
    ∀ x ∈ SamplesNode.flatten.flattenAux (c.take pos) (s.take pos), x.value ≤ value := by
  cases pos with
  | zero =>
    intro x hx
    simp [flattenAux_nil] at hx
  | succ k =>
    obtain ⟨y, hy⟩ : ∃ y, s.get? k = some y := by
      rw [List.get?_eq_get (by omega)]
      exact ⟨_, rfl⟩
    have hyle : y.value ≤ value := by
      have hklt : k < s.length := by omega
      have hfalse : decide (value < s[k].value) = false := by
        have hk2 : k < List.findIdx (fun element => decide (value < element.value)) s := by
          unfold findPos at hfind
          omega
        exact List.not_of_lt_findIdx hk2
      have hsy : s[k] = y := by
        rw [List.get?_eq_getElem?, List.getElem?_eq_getElem hklt] at hy
        exact (Option.some.injEq _ _).mp hy
      rw [hsy] at hfalse
      simpa using hfalse
    have hlast : (SamplesNode.flatten.flattenAux (c.take (k + 1)) (s.take (k + 1))).getLast? =
        some y := by
      rw [flattenAux_getLast _ _ hlen (by
        intro hnil
        have : (s.take (k + 1)).length = 0 := by rw [hnil]; rfl
        rw [List.length_take] at this
        omega)]
      rw [List.getLast?_eq_getElem?, List.getElem?_take, if_pos (by
        simp [List.length_take]
        omega)]
      rw [show (s.take (k + 1)).length - 1 = k by simp [List.length_take]; omega]
      rw [← List.get?_eq_getElem?]
      exact hy
    intro x hx
    exact le_trans (sorted_last_max _ y hsorted hlast x hx) hyle

/-- The simulation: `SamplesNode.pushValue` implements `flatPush` on the
in-order sample sequence, preserves structural well-formedness, and returns
well-formed split halves. -/
theorem pushValue_sim :
    ∀ (fuel : ℕ) (n : SamplesNode T), sizeOf n ≤ fuel →
      ∀ (value : T) (cap : ℕ) (hl : Bool) (pr : Option (Sample T)),
        structOK n → List.Sorted sampleLE n.flatten →
        flattenPR (n.pushValue value cap hl pr).1 (n.pushValue value cap hl pr).2.2 =
          (flatPush n.flatten value cap hl pr).1 ∧
        (n.pushValue value cap hl pr).2.1 = (flatPush n.flatten value cap hl pr).2.1 ∧
        structOK (n.pushValue value cap hl pr).1 ∧
        (leavesAtLeast 2 n → leavesAtLeast 2 (n.pushValue value cap hl pr).1) ∧
        (∀ med right, (n.pushValue value cap hl pr).2.2 = .insertedR (.pendingSplit med right) →
          structOK right ∧ leavesAtLeast 2 right ∧
            leavesAtLeast 2 (n.pushValue value cap hl pr).1) := by
  intro fuel
  induction fuel with
  | zero =>
    intro n hn
    exfalso
    cases n <;> simp at hn <;> try omega
  | succ f ih =>
    intro n hn value cap hl pr hstruct hsorted
    cases n with
    | leaf s =>
      have hposle : findPos s value ≤ s.length := List.findIdx_le_length _
      rcases hpd : pushDecision s value (findPos s value) cap hl pr with ⟨o, s2, pr2⟩
      cases o with
      | none =>
        have hlen2 := pushDecision_none_length s value _ cap hl pr s2 pr2 hpd
        refine ⟨?_, ?_, ?_, ?_, ?_⟩
        · simp [SamplesNode.pushValue, flatten_leaf, flatPush, hpd, flattenPR]
        · simp [SamplesNode.pushValue, flatten_leaf, flatPush, hpd]
        · simp only [SamplesNode.pushValue, hpd]
          trivial
        · intro h2
          simp only [SamplesNode.pushValue, hpd]
          show 2 ≤ s2.length
          have h2b : 2 ≤ s.length := h2
          omega
        · intro med right h
          simp only [SamplesNode.pushValue, hpd] at h
          exact PushResult.noConfusion h
      | some smp =>
        obtain ⟨hs2, hpr2⟩ := pushDecision_some s value _ cap hl pr smp s2 pr2 hpd
        rw [hs2, hpr2] at hpd
        have hflat := insertSample_flatten_leaf s smp (findPos s value) hposle
        have hstr := insertSample_leaf_struct s smp (findPos s value) hposle
        rcases hIS : (SamplesNode.leaf s).insertSample smp none (findPos s value) with ⟨n2, r2⟩
        simp only [hIS] at hflat hstr
        refine ⟨?_, ?_, ?_, ?_, ?_⟩
        · simp only [SamplesNode.pushValue, flatten_leaf, flatPush, hpd, hIS]
          exact hflat
        · simp [SamplesNode.pushValue, flatten_leaf, flatPush, hpd, hIS]
        · simp only [SamplesNode.pushValue, hpd, hIS]
          exact hstr.1
        · intro h2
          simp only [SamplesNode.pushValue, hpd, hIS]
          exact hstr.2.1 h2
        · intro med right h
          simp only [SamplesNode.pushValue, hpd, hIS] at h
          have h2 : r2 = InsertResult.pendingSplit med right := by
            injection h
          obtain ⟨ha, hb, hc⟩ := hstr.2.2 med right h2
          simp only [SamplesNode.pushValue, hpd, hIS]
          exact ⟨ha, hb, hc⟩
    | internal s c =>
      obtain ⟨hclen, hsne, hokl, hlvl⟩ := hstruct
      have hslen : 0 < s.length := List.length_pos.mpr hsne
      have hposle : findPos s value ≤ s.length := List.findIdx_le_length _
      have hposc : findPos s value < c.length := by omega
      obtain ⟨child, hch⟩ : ∃ ch, c.get? (findPos s value) = some ch := by
        rw [List.get?_eq_get (by omega)]
        exact ⟨_, rfl⟩
      have hchmem : child ∈ c := List.get?_mem hch
      have hchstruct : structOK child := (structOKL_iff c).mp hokl child hchmem
      have hchleaves : leavesAtLeast 2 child := (leavesAtLeastL_iff 2 c).mp hlvl child hchmem
      have hchsize : sizeOf child ≤ f := by
        have h1 : sizeOf child < sizeOf c := List.sizeOf_lt_of_mem hchmem
        simp at hn
        omega
      have hdec := flattenAux_decomp (findPos s value) c s child hch hposle
      have hflatten : (SamplesNode.internal s c).flatten =
          SamplesNode.flatten.flattenAux (c.take (findPos s value)) (s.take (findPos s value)) ++
            child.flatten ++
            (match s.get? (findPos s value) with
             | some sp => sp :: SamplesNode.flatten.flattenAux (c.drop (findPos s value + 1))
                 (s.drop (findPos s value + 1))
             | none => []) := by
        rw [flatten_internal]
        exact hdec
      have hsorted2 : List.Sorted sampleLE
          (SamplesNode.flatten.flattenAux (c.take (findPos s value)) (s.take (findPos s value)) ++
            child.flatten ++
            (match s.get? (findPos s value) with
             | some sp => sp :: SamplesNode.flatten.flattenAux (c.drop (findPos s value + 1))
                 (s.drop (findPos s value + 1))
             | none => [])) := by
        rw [← hflatten]
        exact hsorted
      have hsortC : List.Sorted sampleLE child.flatten := sorted_middle _ _ _ hsorted2
      have hsortPre : List.Sorted sampleLE
          (SamplesNode.flatten.flattenAux (c.take (findPos s value))
            (s.take (findPos s value))) := by
        refine List.Pairwise.sublist ?_ hsorted2
        exact ((List.sublist_append_left _ _).trans (List.sublist_append_left _ _))
      have hlentake : (c.take (findPos s value)).length = (s.take (findPos s value)).length := by
        simp [List.length_take]
        omega
      have hpreall := flattenAux_take_le_value (findPos s value) c s value hposle rfl
        hsortPre hlentake
      have HC2 : 2 ≤ child.flatten.length :=
        two_le_flatten_length (sizeOf child) child (le_refl _) hchstruct hchleaves
      have Hhl : (hl || decide (0 < findPos s value)) = false ↔
          (hl = false ∧ SamplesNode.flatten.flattenAux (c.take (findPos s value))
            (s.take (findPos s value)) = []) := by
        rw [flattenAux_take_eq_nil_iff (findPos s value) c s hclen hposle]
        constructor
        · intro h
          rcases Bool.or_eq_false_iff.mp h with ⟨h1, h2⟩
          refine ⟨h1, ?_⟩
          by_contra hne
          simp at h2
          omega
        · rintro ⟨h1, h2⟩
          subst h1
          simp [h2]
      have ihc := ih child hchsize value cap (hl || decide (0 < findPos s value))
        (match s.get? (findPos s value) with
         | some sp => some sp
         | none => pr) hchstruct hsortC
      cases hsp : s.get? (findPos s value) with
      | some sAtPos =>
        have hplt : findPos s value < s.length := by
          rcases List.get?_eq_some.mp hsp with ⟨hh, -⟩
          exact hh
        rw [hsp] at ihc
        rw [hsp] at hflatten
        have hposthead : ∀ x, (sAtPos :: SamplesNode.flatten.flattenAux
            (c.drop (findPos s value + 1)) (s.drop (findPos s value + 1))).head? = some x →
            value < x.value := by
          intro x hx
          simp only [List.head?_cons, Option.some.injEq] at hx
          have hsx : s[findPos s value] = x := by
            rw [List.get?_eq_getElem?, List.getElem?_eq_getElem hplt] at hsp
            exact ((Option.some.injEq _ _).mp hsp).trans hx
          have hp := @List.findIdx_getElem _ (fun element => decide (value < element.value)) s
            (by unfold findPos at hplt; exact hplt)
          rw [show s[List.findIdx (fun element => decide (value < element.value)) s] =
            s[findPos s value] from rfl, hsx] at hp
          simpa using hp
        have Hprc1 : (sAtPos :: SamplesNode.flatten.flattenAux
            (c.drop (findPos s value + 1)) (s.drop (findPos s value + 1))) = [] →
            (some sAtPos : Option (Sample T)) = pr := by
          intro hp
          exact absurd hp (by simp)
        have Hprc2 : ∀ (x : Sample T) (xs : List (Sample T)),
            (sAtPos :: SamplesNode.flatten.flattenAux
              (c.drop (findPos s value + 1)) (s.drop (findPos s value + 1))) = x :: xs →
            (some sAtPos : Option (Sample T)) = some x := by
          intro x xs hp
          simp only [List.cons.injEq] at hp
          rw [hp.1]
        have Hfp := findPos_decomp
          (SamplesNode.flatten.flattenAux (c.take (findPos s value)) (s.take (findPos s value)))
          child.flatten
          (sAtPos :: SamplesNode.flatten.flattenAux (c.drop (findPos s value + 1))
            (s.drop (findPos s value + 1)))
          value hpreall hposthead
        have hfd := flatPush_decomp
          (SamplesNode.flatten.flattenAux (c.take (findPos s value)) (s.take (findPos s value)))
          child.flatten
          (sAtPos :: SamplesNode.flatten.flattenAux (c.drop (findPos s value + 1))
            (s.drop (findPos s value + 1)))
          value cap hl (hl || decide (0 < findPos s value)) pr (some sAtPos)
          HC2 Hhl Hprc1 Hprc2 Hfp
        obtain ⟨hflag, -, hcons⟩ := hfd
        obtain ⟨p2, hp2, hFG1, hFGpr⟩ := hcons sAtPos _ rfl
        rcases hCP : child.pushValue value cap (hl || decide (0 < findPos s value))
          (some sAtPos) with ⟨child2, prq, res⟩
        simp only [hCP] at ihc
        obtain ⟨ihA, ihB, ihC, ihD, ihE⟩ := ihc
        have hprq : prq = some p2 := by
          rw [ihB]
          exact hp2
        subst hprq
        have hpveq := pushValueChildren_eq c (findPos s value) child hch value cap
          (hl || decide (0 < findPos s value)) (some sAtPos)
        have hstructset : structOK (SamplesNode.internal (s.set (findPos s value) p2)
            (c.set (findPos s value) child2)) := by
          refine ⟨by simp [hclen], ?_, ?_, ?_⟩
          · intro hnil
            have hxl : (s.set (findPos s value) p2).length = s.length := by simp
            rw [hnil] at hxl
            simp at hxl
            omega
          · rw [structOKL_iff]
            intro x hx
            rcases List.mem_or_eq_of_mem_set hx with hx | rfl
            · exact (structOKL_iff c).mp hokl x hx
            · exact ihC
          · rw [leavesAtLeastL_iff]
            intro x hx
            rcases List.mem_or_eq_of_mem_set hx with hx | rfl
            · exact (leavesAtLeastL_iff 2 c).mp hlvl x hx
            · exact ihD hchleaves
        cases res with
        | updatedInPlace =>
          have hset := flattenAux_set_both (findPos s value) c s child2 p2 hposc hplt
          refine ⟨?_, ?_, ?_, ?_, ?_⟩
          · simp only [SamplesNode.pushValue, hsp, hpveq, hCP, flattenPR]
            show SamplesNode.flatten.flattenAux (c.set (findPos s value) child2)
              (s.set (findPos s value) p2) = (flatPush (SamplesNode.internal s c).flatten
                value cap hl pr).1
            have hA2 : child2.flatten = (flatPush child.flatten value cap
                (hl || decide (0 < findPos s value)) (some sAtPos)).1 := ihA
            rw [hset, hflatten, hFG1, ← hA2]
            all_goals simp [List.append_assoc]
          · simp only [SamplesNode.pushValue, hsp, hpveq, hCP]
            show pr = (flatPush (SamplesNode.internal s c).flatten value cap hl pr).2.1
            rw [hflatten, hFGpr]
          · simp only [SamplesNode.pushValue, hsp, hpveq, hCP]
            exact hstructset
          · intro _
            simp only [SamplesNode.pushValue, hsp, hpveq, hCP]
            show leavesAtLeastL 2 (c.set (findPos s value) child2)
            rw [leavesAtLeastL_iff]
            intro x hx
            rcases List.mem_or_eq_of_mem_set hx with hx | rfl
            · exact (leavesAtLeastL_iff 2 c).mp hlvl x hx
            · exact ihD hchleaves
          · intro med right h
            simp only [SamplesNode.pushValue, hsp, hpveq, hCP] at h
            exact PushResult.noConfusion h
        | insertedR ir =>
          cases ir with
          | inserted =>
            have hset := flattenAux_set_both (findPos s value) c s child2 p2 hposc hplt
            refine ⟨?_, ?_, ?_, ?_, ?_⟩
            · simp only [SamplesNode.pushValue, hsp, hpveq, hCP, flattenPR, flattenIR]
              show SamplesNode.flatten.flattenAux (c.set (findPos s value) child2)
                (s.set (findPos s value) p2) = (flatPush (SamplesNode.internal s c).flatten
                  value cap hl pr).1
              have hA2 : child2.flatten = (flatPush child.flatten value cap
                  (hl || decide (0 < findPos s value)) (some sAtPos)).1 := ihA
              rw [hset, hflatten, hFG1, ← hA2]
              all_goals simp [List.append_assoc]
            · simp only [SamplesNode.pushValue, hsp, hpveq, hCP]
              show pr = (flatPush (SamplesNode.internal s c).flatten value cap hl pr).2.1
              rw [hflatten, hFGpr]
            · simp only [SamplesNode.pushValue, hsp, hpveq, hCP]
              exact hstructset
            · intro _
              simp only [SamplesNode.pushValue, hsp, hpveq, hCP]
              show leavesAtLeastL 2 (c.set (findPos s value) child2)
              rw [leavesAtLeastL_iff]
              intro x hx
              rcases List.mem_or_eq_of_mem_set hx with hx | rfl
              · exact (leavesAtLeastL_iff 2 c).mp hlvl x hx
              · exact ihD hchleaves
            · intro med right h
              simp only [SamplesNode.pushValue, hsp, hpveq, hCP] at h
              have h2 : InsertResult.inserted = InsertResult.pendingSplit med right := by
                injection h
              exact InsertResult.noConfusion h2
          | pendingSplit med right =>
            obtain ⟨hrightS, hrightL, hleftL⟩ := ihE med right rfl
            have hstr2 := insertSample_internal_struct (s.set (findPos s value) p2)
              (c.set (findPos s value) child2) med right (findPos s value)
              hstructset hrightS hrightL (by simp; omega)
            have hflat2 := insertSample_flatten_internal (s.set (findPos s value) p2)
              (c.set (findPos s value) child2) med right (findPos s value)
              (by simp; omega) (by simp [hclen])
            rcases hIS : (SamplesNode.internal (s.set (findPos s value) p2)
                (c.set (findPos s value) child2)).insertSample med (some right)
                (findPos s value) with ⟨n2, r2⟩
            simp only [hIS] at hstr2 hflat2
            have hsplit := flattenAux_split_insert (findPos s value) (c.set (findPos s value)
              child2) (s.set (findPos s value) p2) child2 right med (by simp; omega)
              (by simp; omega)
            refine ⟨?_, ?_, ?_, ?_, ?_⟩
            · simp only [SamplesNode.pushValue, hsp, hpveq, hCP, hIS, flattenPR]
              show flattenIR n2 r2 = (flatPush (SamplesNode.internal s c).flatten
                value cap hl pr).1
              rw [hflat2]
              rw [show (c.set (findPos s value) child2).set (findPos s value) child2 =
                c.set (findPos s value) child2 from by simp] at hsplit
              rw [hsplit, take_set_self, take_set_self, List.drop_set, if_pos (by omega),
                List.drop_set, if_pos (by omega), get?_set_self s _ p2 hplt]
              have hA2 : child2.flatten ++ med :: right.flatten =
                  (flatPush child.flatten value cap
                    (hl || decide (0 < findPos s value)) (some sAtPos)).1 := ihA
              rw [hflatten, hFG1, ← hA2]
              all_goals simp [List.append_assoc]
            · simp only [SamplesNode.pushValue, hsp, hpveq, hCP, hIS]
              show pr = (flatPush (SamplesNode.internal s c).flatten value cap hl pr).2.1
              rw [hflatten, hFGpr]
            · simp only [SamplesNode.pushValue, hsp, hpveq, hCP, hIS]
              exact hstr2.1
            · intro _
              simp only [SamplesNode.pushValue, hsp, hpveq, hCP, hIS]
              exact hstr2.2.1
            · intro med2 right2 h
              simp only [SamplesNode.pushValue, hsp, hpveq, hCP, hIS] at h
              have h2 : r2 = InsertResult.pendingSplit med2 right2 := by
                injection h
              obtain ⟨ha, hb⟩ := hstr2.2.2 med2 right2 h2
              simp only [SamplesNode.pushValue, hsp, hpveq, hCP, hIS]
              exact ⟨ha, hb, hstr2.2.1⟩
      | none =>
        have hposeq : findPos s value = s.length :=
          le_antisymm hposle (List.get?_eq_none.mp hsp)
        rw [hsp] at ihc
        rw [hsp] at hflatten
        have hposthead : ∀ x, ([] : List (Sample T)).head? = some x → value < x.value := by
          intro x hx
          simp at hx
        have Hfp := findPos_decomp
          (SamplesNode.flatten.flattenAux (c.take (findPos s value)) (s.take (findPos s value)))
          child.flatten ([] : List (Sample T)) value hpreall hposthead
        have hfd := flatPush_decomp
          (SamplesNode.flatten.flattenAux (c.take (findPos s value)) (s.take (findPos s value)))
          child.flatten ([] : List (Sample T))
          value cap hl (hl || decide (0 < findPos s value)) pr pr
          HC2 Hhl (fun _ => rfl) (fun x xs hp => by simp at hp) Hfp
        obtain ⟨hflag, hnilc, -⟩ := hfd
        obtain ⟨hFG1, hFGpr⟩ := hnilc rfl
        rcases hCP : child.pushValue value cap (hl || decide (0 < findPos s value)) pr
          with ⟨child2, prq, res⟩
        simp only [hCP] at ihc
        obtain ⟨ihA, ihB, ihC, ihD, ihE⟩ := ihc
        have hpveq := pushValueChildren_eq c (findPos s value) child hch value cap
          (hl || decide (0 < findPos s value)) pr
        have hstructset : structOK (SamplesNode.internal s
            (c.set (findPos s value) child2)) := by
          refine ⟨by simp [hclen], hsne, ?_, ?_⟩
          · rw [structOKL_iff]
            intro x hx
            rcases List.mem_or_eq_of_mem_set hx with hx | rfl
            · exact (structOKL_iff c).mp hokl x hx
            · exact ihC
          · rw [leavesAtLeastL_iff]
            intro x hx
            rcases List.mem_or_eq_of_mem_set hx with hx | rfl
            · exact (leavesAtLeastL_iff 2 c).mp hlvl x hx
            · exact ihD hchleaves
        cases res with
        | updatedInPlace =>
          have hset := flattenAux_set_child (findPos s value) c s child2 hposc hposle
          rw [hsp] at hset
          refine ⟨?_, ?_, ?_, ?_, ?_⟩
          · simp only [SamplesNode.pushValue, hsp, hpveq, hCP, flattenPR]
            show SamplesNode.flatten.flattenAux (c.set (findPos s value) child2) s =
              (flatPush (SamplesNode.internal s c).flatten value cap hl pr).1
            have hA2 : child2.flatten = (flatPush child.flatten value cap
                (hl || decide (0 < findPos s value)) pr).1 := ihA
            rw [hset, hflatten, hFG1, ← hA2]
            all_goals simp [List.append_assoc]
          · simp only [SamplesNode.pushValue, hsp, hpveq, hCP]
            show prq = (flatPush (SamplesNode.internal s c).flatten value cap hl pr).2.1
            rw [hflatten, hFGpr]
            exact ihB
          · simp only [SamplesNode.pushValue, hsp, hpveq, hCP]
            exact hstructset
          · intro _
            simp only [SamplesNode.pushValue, hsp, hpveq, hCP]
            show leavesAtLeastL 2 (c.set (findPos s value) child2)
            rw [leavesAtLeastL_iff]
            intro x hx
            rcases List.mem_or_eq_of_mem_set hx with hx | rfl
            · exact (leavesAtLeastL_iff 2 c).mp hlvl x hx
            · exact ihD hchleaves
          · intro med right h
            simp only [SamplesNode.pushValue, hsp, hpveq, hCP] at h
            exact PushResult.noConfusion h
        | insertedR ir =>
          cases ir with
          | inserted =>
            have hset := flattenAux_set_child (findPos s value) c s child2 hposc hposle
            rw [hsp] at hset
            refine ⟨?_, ?_, ?_, ?_, ?_⟩
            · simp only [SamplesNode.pushValue, hsp, hpveq, hCP, flattenPR, flattenIR]
              show SamplesNode.flatten.flattenAux (c.set (findPos s value) child2) s =
                (flatPush (SamplesNode.internal s c).flatten value cap hl pr).1
              have hA2 : child2.flatten = (flatPush child.flatten value cap
                  (hl || decide (0 < findPos s value)) pr).1 := ihA
              rw [hset, hflatten, hFG1, ← hA2]
              all_goals simp [List.append_assoc]
            · simp only [SamplesNode.pushValue, hsp, hpveq, hCP]
              show prq = (flatPush (SamplesNode.internal s c).flatten value cap hl pr).2.1
              rw [hflatten, hFGpr]
              exact ihB
            · simp only [SamplesNode.pushValue, hsp, hpveq, hCP]
              exact hstructset
            · intro _
              simp only [SamplesNode.pushValue, hsp, hpveq, hCP]
              show leavesAtLeastL 2 (c.set (findPos s value) child2)
              rw [leavesAtLeastL_iff]
              intro x hx
              rcases List.mem_or_eq_of_mem_set hx with hx | rfl
              · exact (leavesAtLeastL_iff 2 c).mp hlvl x hx
              · exact ihD hchleaves
            · intro med right h
              simp only [SamplesNode.pushValue, hsp, hpveq, hCP] at h
              have h2 : InsertResult.inserted = InsertResult.pendingSplit med right := by
                injection h
              exact InsertResult.noConfusion h2
          | pendingSplit med right =>
            obtain ⟨hrightS, hrightL, hleftL⟩ := ihE med right rfl
            have hstr2 := insertSample_internal_struct s
              (c.set (findPos s value) child2) med right (findPos s value)
              hstructset hrightS hrightL hposle
            have hflat2 := insertSample_flatten_internal s
              (c.set (findPos s value) child2) med right (findPos s value)
              hposle (by simp [hclen])
            rcases hIS : (SamplesNode.internal s
                (c.set (findPos s value) child2)).insertSample med (some right)
                (findPos s value) with ⟨n2, r2⟩
            simp only [hIS] at hstr2 hflat2
            have hsplit := flattenAux_split_insert (findPos s value)
              (c.set (findPos s value) child2) s child2 right med (by simp; omega) hposle
            refine ⟨?_, ?_, ?_, ?_, ?_⟩
            · simp only [SamplesNode.pushValue, hsp, hpveq, hCP, hIS, flattenPR]
              show flattenIR n2 r2 = (flatPush (SamplesNode.internal s c).flatten
                value cap hl pr).1
              rw [hflat2]
              rw [show (c.set (findPos s value) child2).set (findPos s value) child2 =
                c.set (findPos s value) child2 from by simp] at hsplit
              rw [hsplit, take_set_self, List.drop_set, if_pos (by omega), hsp]
              have hA2 : child2.flatten ++ med :: right.flatten =
                  (flatPush child.flatten value cap
                    (hl || decide (0 < findPos s value)) pr).1 := ihA
              rw [hflatten, hFG1, ← hA2]
              all_goals simp [List.append_assoc]
            · simp only [SamplesNode.pushValue, hsp, hpveq, hCP, hIS]
              show prq = (flatPush (SamplesNode.internal s c).flatten value cap hl pr).2.1
              rw [hflatten, hFGpr]
              exact ihB
            · simp only [SamplesNode.pushValue, hsp, hpveq, hCP, hIS]
              exact hstr2.1
            · intro _
              simp only [SamplesNode.pushValue, hsp, hpveq, hCP, hIS]
              exact hstr2.2.1
            · intro med2 right2 h
              simp only [SamplesNode.pushValue, hsp, hpveq, hCP, hIS] at h
              have h2 : r2 = InsertResult.pendingSplit med2 right2 := by
                injection h
              obtain ⟨ha, hb⟩ := hstr2.2.2 med2 right2 h2
              simp only [SamplesNode.pushValue, hsp, hpveq, hCP, hIS]
              exact ⟨ha, hb, hstr2.2.1⟩

/-- Appending a last child and a last sample to a balanced interleave. -/
theorem flattenAux_concat_pair :
    ∀ (c : List (SamplesNode T)) (s : List (Sample T)) (x : SamplesNode T) (m : Sample T),
      c.length = s.length →
      SamplesNode.flatten.flattenAux (c ++ [x]) (s ++ [m]) =
        SamplesNode.flatten.flattenAux c s ++ x.flatten ++ [m]
  | [], [], x, m, h => by
    simp [flattenAux_cons_cons, flattenAux_nil]
  | [], s0 :: s, x, m, h => by simp at h
  | c0 :: c, [], x, m, h => by simp at h
  | c0 :: c, s0 :: s, x, m, h => by
    simp only [List.cons_append, flattenAux_cons_cons]
    rw [flattenAux_concat_pair c s x m (by simpa using h)]
    simp [List.append_assoc]

/-- `insertMaxChildren` recurses into the last child. -/
theorem insertMaxChildren_eq :
    ∀ (c : List (SamplesNode T)) (last : SamplesNode T) (smp : Sample T),
      SamplesNode.insertMaxChildren (c ++ [last]) smp =
        (c ++ [(last.insertMaxSample smp).1], (last.insertMaxSample smp).2)
  | [], last, smp => by
    rcases hE : last.insertMaxSample smp with ⟨n2, r2⟩
    simp [SamplesNode.insertMaxChildren, hE]
  | a :: c, last, smp => by
    have ih := insertMaxChildren_eq c last smp
    show SamplesNode.insertMaxChildren (a :: (c ++ [last])) smp = _
    cases hc : c ++ [last] with
    | nil => exact absurd hc (by simp)
    | cons b c2 =>
      rw [hc] at ih
      rcases hE : SamplesNode.insertMaxChildren (b :: c2) smp with ⟨cs2, r2⟩
      rw [hE] at ih
      simp only [SamplesNode.insertMaxChildren, hE]
      simp only [Prod.mk.injEq] at ih
      rw [ih.1, ih.2]
      simp

/-- `insertMaxSample` appends the sample to the in-order sequence and keeps
the tree well-formed. -/
theorem insertMax_sim :
    ∀ (fuel : ℕ) (n : SamplesNode T), sizeOf n ≤ fuel → ∀ (smp : Sample T),
      structOK n →
      flattenIR (n.insertMaxSample smp).1 (n.insertMaxSample smp).2 = n.flatten ++ [smp] ∧
      structOK (n.insertMaxSample smp).1 ∧
      (leavesAtLeast 2 n → leavesAtLeast 2 (n.insertMaxSample smp).1) ∧
      (∀ med right, (n.insertMaxSample smp).2 = .pendingSplit med right →
        structOK right ∧ leavesAtLeast 2 right ∧
          leavesAtLeast 2 (n.insertMaxSample smp).1) := by
  intro fuel
  induction fuel with
  | zero =>
    intro n hn
    exfalso
    cases n <;> simp at hn <;> try omega
  | succ f ih =>
    intro n hn smp hstruct
    cases n with
    | leaf s =>
      have hflat := insertSample_flatten_leaf s smp s.length (le_refl _)
      have hstr := insertSample_leaf_struct s smp s.length (le_refl _)
      rcases hIS : (SamplesNode.leaf s).insertSample smp none s.length with ⟨n2, r2⟩
      simp only [hIS] at hflat hstr
      refine ⟨?_, ?_, ?_, ?_⟩
      · simp only [SamplesNode.insertMaxSample, hIS]
        rw [hflat, List.insertIdx_length_self]
        all_goals rw [flatten_leaf]
      · simp only [SamplesNode.insertMaxSample, hIS]
        exact hstr.1
      · intro h2
        simp only [SamplesNode.insertMaxSample, hIS]
        exact hstr.2.1 h2
      · intro med right h
        simp only [SamplesNode.insertMaxSample, hIS] at h
        obtain ⟨ha, hb, hc⟩ := hstr.2.2 med right h
        simp only [SamplesNode.insertMaxSample, hIS]
        exact ⟨ha, hb, hc⟩
    | internal s c =>
      obtain ⟨hclen, hsne, hokl, hlvl⟩ := hstruct
      have hslen : 0 < s.length := List.length_pos.mpr hsne
      have hcne : c ≠ [] := by
        intro h
        rw [h] at hclen
        simp at hclen
      obtain ⟨last, hlast⟩ : ∃ a, c.getLast? = some a := by
        cases hl2 : c.getLast? with
        | none => exact absurd (List.getLast?_eq_none_iff.mp hl2) hcne
        | some a => exact ⟨a, rfl⟩
      obtain ⟨c0, rfl⟩ : ∃ c0, c = c0 ++ [last] := by
        rcases List.getLast?_eq_some_iff.mp hlast with ⟨ys, hys⟩
        exact ⟨ys, hys⟩
      have hc0len : c0.length = s.length := by
        simp at hclen
        omega
      have hlastmem : last ∈ c0 ++ [last] := by simp
      have hlaststruct : structOK last := (structOKL_iff _).mp hokl last hlastmem
      have hlastleaves : leavesAtLeast 2 last := (leavesAtLeastL_iff 2 _).mp hlvl last hlastmem
      have hlastsize : sizeOf last ≤ f := by
        have h1 : sizeOf last < sizeOf (c0 ++ [last]) := List.sizeOf_lt_of_mem hlastmem
        simp at hn
        omega
      have ihl := ih last hlastsize smp hlaststruct
      rcases hIM : last.insertMaxSample smp with ⟨last2, r2⟩
      simp only [hIM] at ihl
      obtain ⟨ihA, ihB, ihC, ihD⟩ := ihl
      have hchains := insertMaxChildren_eq c0 last smp
      rw [hIM] at hchains
      have hflatc : SamplesNode.flatten.flattenAux (c0 ++ [last]) s =
          SamplesNode.flatten.flattenAux c0 s ++ last.flatten :=
        flattenAux_concat c0 s last hc0len
      cases r2 with
      | inserted =>
        refine ⟨?_, ?_, ?_, ?_⟩
        · simp only [SamplesNode.insertMaxSample, hchains, flattenIR]
          rw [flatten_internal, flatten_internal, flattenAux_concat c0 s last2 hc0len,
            hflatc]
          have hA2 : last2.flatten = last.flatten ++ [smp] := ihA
          rw [hA2]
          simp [List.append_assoc]
        · simp only [SamplesNode.insertMaxSample, hchains]
          refine ⟨by simp [List.length_append] at hclen ⊢; omega, hsne, ?_, ?_⟩
          · rw [structOKL_iff]
            intro x hx
            rcases List.mem_append.mp hx with hx | hx
            · exact (structOKL_iff _).mp hokl x (by simp [hx])
            · simp at hx
              subst hx
              exact ihB
          · rw [leavesAtLeastL_iff]
            intro x hx
            rcases List.mem_append.mp hx with hx | hx
            · exact (leavesAtLeastL_iff 2 _).mp hlvl x (by simp [hx])
            · simp at hx
              subst hx
              exact ihC hlastleaves
        · intro _
          simp only [SamplesNode.insertMaxSample, hchains]
          show leavesAtLeastL 2 (c0 ++ [last2])
          rw [leavesAtLeastL_iff]
          intro x hx
          rcases List.mem_append.mp hx with hx | hx
          · exact (leavesAtLeastL_iff 2 _).mp hlvl x (by simp [hx])
          · simp at hx
            subst hx
            exact ihC hlastleaves
        · intro med right h
          simp only [SamplesNode.insertMaxSample, hchains] at h
          exact InsertResult.noConfusion h
      | pendingSplit med right =>
        obtain ⟨hrightS, hrightL, hleftL⟩ := ihD med right rfl
        have hstructmid : structOK (SamplesNode.internal s (c0 ++ [last2])) := by
          refine ⟨by simp [List.length_append] at hclen ⊢; omega, hsne, ?_, ?_⟩
          · rw [structOKL_iff]
            intro x hx
            rcases List.mem_append.mp hx with hx | hx
            · exact (structOKL_iff _).mp hokl x (by simp [hx])
            · simp at hx
              subst hx
              exact ihB
          · rw [leavesAtLeastL_iff]
            intro x hx
            rcases List.mem_append.mp hx with hx | hx
            · exact (leavesAtLeastL_iff 2 _).mp hlvl x (by simp [hx])
            · simp at hx
              subst hx
              exact hleftL
        have hstr2 := insertSample_internal_struct s (c0 ++ [last2]) med right s.length
          hstructmid hrightS hrightL (le_refl _)
        have hflat2 := insertSample_flatten_internal s (c0 ++ [last2]) med right s.length
          (le_refl _) (by simp [List.length_append] at hclen ⊢; omega)
        rcases hIS : (SamplesNode.internal s (c0 ++ [last2])).insertSample med (some right)
            s.length with ⟨n2, r3⟩
        simp only [hIS] at hstr2 hflat2
        refine ⟨?_, ?_, ?_, ?_⟩
        · simp only [SamplesNode.insertMaxSample, hchains, hIS]
          rw [hflat2, List.insertIdx_length_self,
            show s.length + 1 = (c0 ++ [last2]).length from by simp; omega,
            List.insertIdx_length_self,
            flattenAux_concat (c0 ++ [last2]) (s ++ [med]) right (by simp; omega),
            flattenAux_concat_pair c0 s last2 med hc0len,
            flatten_internal, hflatc]
          have hA2 : last2.flatten ++ med :: right.flatten = last.flatten ++ [smp] := ihA
          simp only [List.append_assoc, List.singleton_append, List.cons_append,
            List.nil_append]
          rw [hA2]
        · simp only [SamplesNode.insertMaxSample, hchains, hIS]
          exact hstr2.1
        · intro _
          simp only [SamplesNode.insertMaxSample, hchains, hIS]
          exact hstr2.2.1
        · intro med2 right2 h
          simp only [SamplesNode.insertMaxSample, hchains, hIS] at h
          obtain ⟨ha, hb⟩ := hstr2.2.2 med2 right2 h
          simp only [SamplesNode.insertMaxSample, hchains, hIS]
          exact ⟨ha, hb, hstr2.2.1⟩

/-- Tree-level simulation of `SamplesTree::push_value`. -/
theorem tree_pushValue_sim (t : SamplesTree T) (value : T) (cap : ℕ)
    (hs : structOK t.root) (hsort : List.Sorted sampleLE t.root.flatten) :
    (t.pushValue value cap).samples = listPush t.samples value cap ∧
    structOK (t.pushValue value cap).root := by
  have hsim := pushValue_sim (sizeOf t.root) t.root (le_refl _) value cap false none hs hsort
  rcases hPV : t.root.pushValue value cap false none with ⟨root2, pr2, res⟩
  simp only [hPV] at hsim
  obtain ⟨hA, hB, hC, hD, hE⟩ := hsim
  cases res with
  | updatedInPlace =>
    simp only [SamplesTree.pushValue, hPV]
    exact ⟨hA, hC⟩
  | insertedR r =>
    cases r with
    | inserted =>
      simp only [SamplesTree.pushValue, hPV, SamplesTree.handleInsertResult]
      exact ⟨hA, hC⟩
    | pendingSplit med right =>
      obtain ⟨hrS, hrL, hlL⟩ := hE med right rfl
      simp only [SamplesTree.pushValue, hPV, SamplesTree.handleInsertResult]
      constructor
      · show (SamplesNode.internal [med] [root2, right]).flatten = listPush t.samples value cap
        rw [flatten_internal, flattenAux_cons_cons, flattenAux_cons_nil]
        exact hA
      · exact ⟨by simp, by simp, ⟨hC, hrS, trivial⟩, ⟨hlL, hrL, trivial⟩⟩

/-- Tree-level simulation of `SamplesTree::insert_max_sample`. -/
theorem tree_insertMax_sim (t : SamplesTree T) (smp : Sample T)
    (hs : structOK t.root) :
    (t.insertMaxSample smp).samples = t.samples ++ [smp] ∧
    structOK (t.insertMaxSample smp).root ∧
    (t.insertMaxSample smp).len = t.len + 1 := by
  have hsim := insertMax_sim (sizeOf t.root) t.root (le_refl _) smp hs
  rcases hIM : t.root.insertMaxSample smp with ⟨root2, r⟩
  simp only [hIM] at hsim
  obtain ⟨hA, hB, hC, hD⟩ := hsim
  cases r with
  | inserted =>
    simp only [SamplesTree.insertMaxSample, hIM, SamplesTree.handleInsertResult]
    exact ⟨hA, hB, trivial⟩
  | pendingSplit med right =>
    obtain ⟨hrS, hrL, hlL⟩ := hD med right rfl
    simp only [SamplesTree.insertMaxSample, hIM, SamplesTree.handleInsertResult]
    refine ⟨?_, ?_, trivial⟩
    · show (SamplesNode.internal [med] [root2, right]).flatten = t.samples ++ [smp]
      rw [flatten_internal, flattenAux_cons_cons, flattenAux_cons_nil]
      exact hA
    · exact ⟨by simp, by simp, ⟨hB, hrS, trivial⟩, ⟨hlL, hrL, trivial⟩⟩

end TreeSimulation

section CompressorSimulation

variable {T : Type} [LinearOrder T]

/-- `sumG` distributes over append. -/
theorem sumG_append (a b : List (Sample T)) : sumG (a ++ b) = sumG a + sumG b := by
  simp [sumG]

/-- `sumG` of a cons. -/
theorem sumG_cons (x : Sample T) (xs : List (Sample T)) :
    sumG (x :: xs) = x.g + sumG xs := by
  simp [sumG]

/-- A fresh compressor corresponds to the empty flat state. -/
theorem compInv_new (b : ℕ) : CompInv b (([], none) : List (Sample T) × Option (Sample T))
    (SamplesCompressor.new b) := by
  refine ⟨rfl, rfl, rfl, trivial, rfl⟩

/-- One compressor push follows the flat transition. -/
theorem compInv_push (b : ℕ) (st : List (Sample T) × Option (Sample T))
    (comp : SamplesCompressor T) (h : CompInv b st comp) (s : Sample T) :
    CompInv b (compressPushFlat b st s) (comp.push s) := by
  obtain ⟨h1, h2, h3, h4, h5⟩ := h
  cases hbt : st.2 with
  | some t =>
    by_cases hfit : t.g + s.g + s.delta ≤ b
    · have hpush : comp.push s = { comp with blockTail := some { s with g := s.g + t.g } } := by
        simp [SamplesCompressor.push, h3, hbt, h1, hfit]
      have hflat : compressPushFlat b st s = (st.1, some { s with g := s.g + t.g }) := by
        simp [compressPushFlat, hbt, hfit]
      rw [hpush, hflat]
      exact ⟨h1, h2, rfl, h4, h5⟩
    · have hpush : comp.push s =
          { comp with
            compressedSamples := comp.compressedSamples.insertMaxSample t
            blockTail := some s } := by
        simp [SamplesCompressor.push, h3, hbt, h1, hfit]
      have hflat : compressPushFlat b st s = (st.1 ++ [t], some s) := by
        simp [compressPushFlat, hbt, hfit]
      rw [hpush, hflat]
      obtain ⟨hs2, hstr, hlen⟩ := tree_insertMax_sim comp.compressedSamples t h4
      refine ⟨h1, ?_, rfl, hstr, ?_⟩
      · rw [hs2, h2]
      · rw [hlen, h5]
        simp
  | none =>
    by_cases hzero : st.1.length = 0
    · have hpush : comp.push s =
          { comp with compressedSamples := comp.compressedSamples.insertMaxSample s } := by
        simp [SamplesCompressor.push, h3, hbt, h1, h5, hzero]
      have hflat : compressPushFlat b st s = (st.1 ++ [s], none) := by
        simp [compressPushFlat, hbt, hzero]
      rw [hpush, hflat]
      obtain ⟨hs2, hstr, hlen⟩ := tree_insertMax_sim comp.compressedSamples s h4
      refine ⟨h1, ?_, h3.trans hbt, hstr, ?_⟩
      · rw [hs2, h2]
      · rw [hlen, h5]
        simp
    · have hpush : comp.push s = { comp with blockTail := some s } := by
        simp [SamplesCompressor.push, h3, hbt, h1, h5, hzero]
      have hflat : compressPushFlat b st s = (st.1, some s) := by
        simp [compressPushFlat, hbt, hzero]
      rw [hpush, hflat]
      exact ⟨h1, h2, rfl, h4, h5⟩

/-- Folding pushes preserves the correspondence. -/
theorem compInv_fold (b : ℕ) :
    ∀ (inputs : List (Sample T)) (st : List (Sample T) × Option (Sample T))
      (comp : SamplesCompressor T), CompInv b st comp →
      CompInv b (inputs.foldl (compressPushFlat b) st) (inputs.foldl SamplesCompressor.push comp)
  | [], st, comp, h => h
  | x :: xs, st, comp, h => by
    simp only [List.foldl_cons]
    exact compInv_fold b xs _ _ (compInv_push b st comp h x)

/-- `into_samples_tree` realizes the committed samples plus the pending tail. -/
theorem intoSamplesTree_spec (b : ℕ) (st : List (Sample T) × Option (Sample T))
    (comp : SamplesCompressor T) (h : CompInv b st comp) :
    comp.intoSamplesTree.samples = st.1 ++ st.2.toList ∧
    structOK comp.intoSamplesTree.root := by
  obtain ⟨h1, h2, h3, h4, h5⟩ := h
  cases hbt : st.2 with
  | some t =>
    have hinto : comp.intoSamplesTree = comp.compressedSamples.insertMaxSample t := by
      simp [SamplesCompressor.intoSamplesTree, h3, hbt]
    obtain ⟨hs2, hstr, hlen⟩ := tree_insertMax_sim comp.compressedSamples t h4
    rw [hinto]
    refine ⟨?_, hstr⟩
    rw [hs2, h2]
    simp
  | none =>
    have hinto : comp.intoSamplesTree = comp.compressedSamples := by
      simp [SamplesCompressor.intoSamplesTree, h3, hbt]
    rw [hinto]
    refine ⟨?_, h4⟩
    rw [h2]
    simp

/-- Feeding a sequence through a fresh compressor produces `compressFlat`. -/
theorem compressor_run (b : ℕ) (inputs : List (Sample T)) :
    ((inputs.foldl SamplesCompressor.push (SamplesCompressor.new b)).intoSamplesTree).samples =
      compressFlat b inputs ∧
    structOK ((inputs.foldl SamplesCompressor.push
      (SamplesCompressor.new b)).intoSamplesTree).root := by
  have h := compInv_fold b inputs ([], none) (SamplesCompressor.new b) (compInv_new b)
  have h2 := intoSamplesTree_spec b _ _ h
  exact ⟨h2.1, h2.2⟩

/-- The flat compressor transition conserves total weight. -/
theorem compressPushFlat_sumG (b : ℕ) (st : List (Sample T) × Option (Sample T))
    (s : Sample T) :
    sumG (compressPushFlat b st s).1 + sumG (compressPushFlat b st s).2.toList =
      sumG st.1 + sumG st.2.toList + s.g := by
  cases hbt : st.2 with
  | some t =>
    by_cases hfit : t.g + s.g + s.delta ≤ b
    · have hflat : compressPushFlat b st s = (st.1, some { s with g := s.g + t.g }) := by
        simp [compressPushFlat, hbt, hfit]
      rw [hflat]
      simp [sumG]
      omega
    · have hflat : compressPushFlat b st s = (st.1 ++ [t], some s) := by
        simp [compressPushFlat, hbt, hfit]
      rw [hflat]
      simp [sumG]
      all_goals omega
  | none =>
    by_cases hzero : st.1.length = 0
    · have hflat : compressPushFlat b st s = (st.1 ++ [s], none) := by
        simp [compressPushFlat, hbt, hzero]
      rw [hflat]
      simp [sumG]
    · have hflat : compressPushFlat b st s = (st.1, some s) := by
        simp [compressPushFlat, hbt, hzero]
      rw [hflat]
      simp [sumG]

/-- `compressFlat` conserves total weight. -/
theorem compressFlat_sumG (b : ℕ) (inputs : List (Sample T)) :
    sumG (compressFlat b inputs) = sumG inputs := by
  suffices h : ∀ (l : List (Sample T)) (st : List (Sample T) × Option (Sample T)),
      sumG (l.foldl (compressPushFlat b) st).1 +
        sumG (l.foldl (compressPushFlat b) st).2.toList =
      sumG st.1 + sumG st.2.toList + sumG l by
    unfold compressFlat
    rw [sumG_append, h inputs ([], none)]
    simp [sumG]
  intro l
  induction l with
  | nil => intro st; simp [sumG]
  | cons x xs ih =>
    intro st
    simp only [List.foldl_cons]
    rw [ih (compressPushFlat b st x), compressPushFlat_sumG b st x, sumG_cons]
    omega

/-- Recomposing a list from its optional head and tail. -/
theorem head?_toList_append_tail {α : Type} (l : List α) : l.head?.toList ++ l.tail = l := by
  cases l <;> rfl

/-- The merge interleaving conserves total weight. -/
theorem mergedSamples_sumG :
    ∀ (as : List (Sample T)) (sa : Bool) (bs : List (Sample T)) (sb : Bool),
      sumG (mergedSamples as sa bs sb) = sumG as + sumG bs
  | [], _, bs, _ => by simp [mergedSamples, sumG]
  | a :: as, sa, [], sb => by simp [mergedSamples, sumG]
  | a :: as, sa, b :: bs, sb => by
    by_cases h : a.value < b.value
    · rw [show mergedSamples (a :: as) sa (b :: bs) sb =
          { a with delta := a.delta + (if sb then b.g + b.delta - 1 else 0) } ::
            mergedSamples as true (b :: bs) sb from by
        rw [mergedSamples]
        simp [h]]
      rw [sumG_cons, mergedSamples_sumG as true (b :: bs) sb, sumG_cons]
      simp [sumG_cons]
      omega
    · rw [show mergedSamples (a :: as) sa (b :: bs) sb =
          { b with delta := b.delta + (if sa then a.g + a.delta - 1 else 0) } ::
            mergedSamples (a :: as) sa bs true from by
        rw [mergedSamples]
        simp [h]]
      rw [sumG_cons, mergedSamples_sumG (a :: as) sa bs true, sumG_cons]
      simp [sumG_cons]
      omega
  termination_by as _ bs _ => as.length + bs.length

/-- The merge loop feeds exactly the interleaved inflated sequence through
the compressor. -/
theorem mergeCore_fusion :
    ∀ (fuel : ℕ) (comp : SamplesCompressor T) (selfIn otherIn : IncomingMergeState T),
      selfIn.size + otherIn.size ≤ fuel →
      (selfIn.nextSample = none → selfIn.iterator = []) →
      (otherIn.nextSample = none → otherIn.iterator = []) →
      mergeCore comp selfIn otherIn =
        ((mergedSamples selfIn.mergedOf selfIn.hasStarted otherIn.mergedOf
          otherIn.hasStarted).foldl SamplesCompressor.push comp).intoSamplesTree := by
  intro fuel
  induction fuel with
  | zero =>
    intro comp selfIn otherIn hsz Hs Ho
    have hsn : selfIn.nextSample = none := by
      cases h : selfIn.nextSample with
      | none => rfl
      | some x =>
        exfalso
        have h1 : 1 ≤ selfIn.size := by
          unfold IncomingMergeState.size
          rw [h]
          show 1 ≤ selfIn.iterator.length + 1
          omega
        omega
    have hon : otherIn.nextSample = none := by
      cases h : otherIn.nextSample with
      | none => rfl
      | some x =>
        exfalso
        have h1 : 1 ≤ otherIn.size := by
          unfold IncomingMergeState.size
          rw [h]
          show 1 ≤ otherIn.iterator.length + 1
          omega
        omega
    rw [mergeCore]
    simp only [IncomingMergeState.peek, hsn]
    unfold IncomingMergeState.pushRemainingTo IncomingMergeState.mergedOf
    rw [hsn, hon, Hs hsn, Ho hon]
    simp [mergedSamples]
  | succ f ih =>
    intro comp selfIn otherIn hsz Hs Ho
    rw [mergeCore]
    split
    · rename_i hs2
      have hsn : selfIn.nextSample = none := hs2
      unfold IncomingMergeState.pushRemainingTo IncomingMergeState.mergedOf
      rw [hsn, Hs hsn]
      simp only [Option.toList, List.nil_append]
      cases hon : otherIn.nextSample with
      | none =>
        rw [Ho hon]
        simp [mergedSamples]
      | some op =>
        simp only [Option.toList, List.singleton_append]
        rw [show mergedSamples ([] : List (Sample T)) selfIn.hasStarted
            (op :: otherIn.iterator) otherIn.hasStarted = op :: otherIn.iterator from by
          simp [mergedSamples]]
        rw [List.foldl_cons]
    · rename_i sp hs2 ho2
      have hsn : selfIn.nextSample = some sp := hs2
      have hon : otherIn.nextSample = none := ho2
      unfold IncomingMergeState.pushRemainingTo IncomingMergeState.mergedOf
      rw [hsn, hon, Ho hon]
      simp only [Option.toList, List.singleton_append, List.nil_append, List.append_nil]
      rw [show mergedSamples (sp :: selfIn.iterator) selfIn.hasStarted
          ([] : List (Sample T)) otherIn.hasStarted = sp :: selfIn.iterator from by
        simp [mergedSamples.eq_def]]
      rw [List.foldl_cons]
    · rename_i sp op hs2 ho2
      have hsn : selfIn.nextSample = some sp := hs2
      have hon : otherIn.nextSample = some op := ho2
      have hnextS : (selfIn.popFront.2.nextSample = none → selfIn.popFront.2.iterator = []) := by
        unfold IncomingMergeState.popFront
        intro h
        simp only at h ⊢
        cases hit : selfIn.iterator with
        | nil => rfl
        | cons x xs => rw [hit] at h; simp at h
      have hnextO : (otherIn.popFront.2.nextSample = none → otherIn.popFront.2.iterator = []) := by
        unfold IncomingMergeState.popFront
        intro h
        simp only at h ⊢
        cases hit : otherIn.iterator with
        | nil => rfl
        | cons x xs => rw [hit] at h; simp at h
      have hsizeS : selfIn.popFront.2.size + 1 = selfIn.size := by
        unfold IncomingMergeState.size IncomingMergeState.popFront
        simp only [hsn]
        cases hit : selfIn.iterator with
        | nil => simp
        | cons x xs => simp
      have hsizeO : otherIn.popFront.2.size + 1 = otherIn.size := by
        unfold IncomingMergeState.size IncomingMergeState.popFront
        simp only [hon]
        cases hit : otherIn.iterator with
        | nil => simp
        | cons x xs => simp
      have hmergedS : selfIn.mergedOf = sp :: selfIn.popFront.2.mergedOf := by
        unfold IncomingMergeState.mergedOf IncomingMergeState.popFront
        rw [hsn]
        simp [head?_toList_append_tail]
      have hmergedO : otherIn.mergedOf = op :: otherIn.popFront.2.mergedOf := by
        unfold IncomingMergeState.mergedOf IncomingMergeState.popFront
        rw [hon]
        simp [head?_toList_append_tail]
      by_cases hlt : sp.value < op.value
      · rw [if_pos hlt]
        rw [ih (comp.push { sp with delta := sp.delta + otherIn.aditionalDelta })
          selfIn.popFront.2 otherIn (by omega) hnextS Ho]
        rw [hmergedS]
        rw [show otherIn.mergedOf = op :: otherIn.iterator from by
          unfold IncomingMergeState.mergedOf
          rw [hon]
          simp]
        rw [show mergedSamples (sp :: selfIn.popFront.2.mergedOf) selfIn.hasStarted
            (op :: otherIn.iterator) otherIn.hasStarted =
            { sp with delta := sp.delta + (if otherIn.hasStarted then op.g + op.delta - 1
              else 0) } :: mergedSamples selfIn.popFront.2.mergedOf true
              (op :: otherIn.iterator) otherIn.hasStarted from by
          rw [mergedSamples]
          simp [hlt]]
        rw [show otherIn.aditionalDelta =
            (if otherIn.hasStarted then op.g + op.delta - 1 else 0) from by
          unfold IncomingMergeState.aditionalDelta
          rw [hon]]
        rw [show selfIn.popFront.2.hasStarted = true from rfl]
        rw [List.foldl_cons]
      · rw [if_neg hlt]
        rw [ih (comp.push { op with delta := op.delta + selfIn.aditionalDelta })
          selfIn otherIn.popFront.2 (by omega) Hs hnextO]
        rw [hmergedO]
        rw [show selfIn.mergedOf = sp :: selfIn.iterator from by
          unfold IncomingMergeState.mergedOf
          rw [hsn]
          simp]
        rw [show mergedSamples (sp :: selfIn.iterator) selfIn.hasStarted
            (op :: otherIn.popFront.2.mergedOf) otherIn.hasStarted =
            { op with delta := op.delta + (if selfIn.hasStarted then sp.g + sp.delta - 1
              else 0) } :: mergedSamples (sp :: selfIn.iterator) selfIn.hasStarted
              otherIn.popFront.2.mergedOf true from by
          rw [mergedSamples]
          simp [hlt]]
        rw [show selfIn.aditionalDelta =
            (if selfIn.hasStarted then sp.g + sp.delta - 1 else 0) from by
          unfold IncomingMergeState.aditionalDelta
          rw [hsn]]
        rw [show otherIn.popFront.2.hasStarted = true from rfl]
        rw [List.foldl_cons]

end CompressorSimulation

section SummarySpecs

variable {T : Type} [LinearOrder T]

/-- A fresh merge cursor yields exactly the given sample list. -/
theorem mergedOf_new (l : List (Sample T)) : (IncomingMergeState.new l).mergedOf = l := by
  unfold IncomingMergeState.mergedOf IncomingMergeState.new
  exact head?_toList_append_tail l

/-- A fresh merge cursor has a consistent iterator. -/
theorem new_nextSample_none (l : List (Sample T)) :
    (IncomingMergeState.new l).nextSample = none → (IncomingMergeState.new l).iterator = [] := by
  unfold IncomingMergeState.new
  intro h
  simp only at h ⊢
  cases l with
  | nil => rfl
  | cons x xs => simp at h

/-- `Summary::compress` runs the sample sequence through a fresh compressor
with the current `max_g_delta` budget. -/
theorem compress_spec (s : Summary T) :
    (s.compress).samplesTree.samples =
      compressFlat (capOf s.maxExpectedError s.len) s.samplesTree.samples ∧
    structOK (s.compress).samplesTree.root ∧
    s.compress.len = s.len ∧
    s.compress.maxExpectedError = s.maxExpectedError ∧
    s.compress.maxSamples = s.maxSamples := by
  unfold Summary.compress
  rw [show s.maxGDelta = capOf s.maxExpectedError s.len from s.maxGDelta_spec]
  have h := compressor_run (capOf s.maxExpectedError s.len) s.samplesTree.samples
  exact ⟨h.1, h.2, rfl, rfl, rfl⟩

/-- `Summary::merge_sorted_samples` produces the compressed interleaving. -/
theorem mergeSortedSamples_spec (s : Summary T) (otherSamples : List (Sample T))
    (otherLen : ℕ) :
    (s.mergeSortedSamples otherSamples otherLen).samplesTree.samples =
      compressFlat (capOf s.maxExpectedError (s.len + otherLen))
        (mergedSamples s.samplesTree.samples false otherSamples false) ∧
    structOK (s.mergeSortedSamples otherSamples otherLen).samplesTree.root ∧
    (s.mergeSortedSamples otherSamples otherLen).len = s.len + otherLen ∧
    (s.mergeSortedSamples otherSamples otherLen).maxExpectedError = s.maxExpectedError ∧
    (s.mergeSortedSamples otherSamples otherLen).maxSamples = s.maxSamples := by
  unfold Summary.mergeSortedSamples
  have hb : ({ s with len := s.len + otherLen } : Summary T).maxGDelta =
      capOf s.maxExpectedError (s.len + otherLen) :=
    Summary.maxGDelta_spec _
  have hfusion := mergeCore_fusion
    ((IncomingMergeState.new s.samplesTree.samples).size +
      (IncomingMergeState.new otherSamples).size)
    (SamplesCompressor.new ({ s with len := s.len + otherLen } : Summary T).maxGDelta)
    (IncomingMergeState.new s.samplesTree.samples)
    (IncomingMergeState.new otherSamples)
    (le_refl _) (new_nextSample_none _) (new_nextSample_none _)
  rw [mergedOf_new, mergedOf_new] at hfusion
  have hrun := compressor_run ({ s with len := s.len + otherLen } : Summary T).maxGDelta
    (mergedSamples s.samplesTree.samples false otherSamples false)
  refine ⟨?_, ?_, rfl, rfl, rfl⟩
  · show (mergeCore _ _ _).samples = _
    rw [hfusion]
    rw [show (IncomingMergeState.new s.samplesTree.samples).hasStarted = false from rfl,
      show (IncomingMergeState.new otherSamples).hasStarted = false from rfl]
    rw [hrun.1, hb]
  · show structOK (mergeCore _ _ _).root
    rw [hfusion]
    rw [show (IncomingMergeState.new s.samplesTree.samples).hasStarted = false from rfl,
      show (IncomingMergeState.new otherSamples).hasStarted = false from rfl]
    exact hrun.2

/-- `Summary::merge` on success. -/
theorem merge_spec (s other m : Summary T) (h : s.merge other = some m) :
    m.samplesTree.samples =
      compressFlat (capOf s.maxExpectedError (s.len + other.len))
        (mergedSamples s.samplesTree.samples false other.samplesTree.samples false) ∧
    structOK m.samplesTree.root ∧
    m.len = s.len + other.len ∧
    m.maxExpectedError = s.maxExpectedError ∧
    m.maxSamples = s.maxSamples ∧
    other.maxExpectedError ≤ s.maxExpectedError := by
  unfold Summary.merge at h
  split at h
  · rename_i hle
    have hm : m = s.mergeSortedSamples other.samplesTree.samples other.len := by
      injection h with h2
      exact h2.symm
    subst hm
    have hspec := mergeSortedSamples_spec s other.samplesTree.samples other.len
    exact ⟨hspec.1, hspec.2.1, hspec.2.2.1, hspec.2.2.2.1, hspec.2.2.2.2, hle⟩
  · exact Option.noConfusion h

/-- `Summary::insert_one`: the sample sequence after insertion, with or
without the bulk compression that a size overflow triggers. -/
theorem insertOne_spec (s : Summary T) (v : T)
    (hstruct : structOK s.samplesTree.root)
    (hsort : List.Sorted sampleLE s.samplesTree.samples) :
    ((s.insertOne v).samplesTree.samples =
        listPush s.samplesTree.samples v (capOf s.maxExpectedError (s.len + 1)) ∨
      (s.insertOne v).samplesTree.samples =
        compressFlat (capOf s.maxExpectedError (s.len + 1))
          (listPush s.samplesTree.samples v (capOf s.maxExpectedError (s.len + 1)))) ∧
    structOK (s.insertOne v).samplesTree.root ∧
    (s.insertOne v).len = s.len + 1 ∧
    (s.insertOne v).maxExpectedError = s.maxExpectedError ∧
    (s.insertOne v).maxSamples = s.maxSamples := by
  unfold Summary.insertOne
  have hb : ({ s with len := s.len + 1 } : Summary T).maxGDelta =
      capOf s.maxExpectedError (s.len + 1) :=
    Summary.maxGDelta_spec _
  have hpush := tree_pushValue_sim s.samplesTree v
    ({ s with len := s.len + 1 } : Summary T).maxGDelta hstruct hsort
  by_cases hover : ({ s with len := s.len + 1 } : Summary T).maxSamples <
      (s.samplesTree.pushValue v ({ s with len := s.len + 1 } : Summary T).maxGDelta).len
  · simp only [if_pos hover]
    have hcomp := compress_spec ({ s with
      len := s.len + 1
      samplesTree := s.samplesTree.pushValue v
        ({ s with len := s.len + 1 } : Summary T).maxGDelta } : Summary T)
    refine ⟨Or.inr ?_, hcomp.2.1, hcomp.2.2.1, hcomp.2.2.2.1, hcomp.2.2.2.2⟩
    rw [hcomp.1]
    show compressFlat (capOf s.maxExpectedError (s.len + 1)) _ = _
    rw [show (s.samplesTree.pushValue v
        ({ s with len := s.len + 1 } : Summary T).maxGDelta).samples =
      listPush s.samplesTree.samples v (capOf s.maxExpectedError (s.len + 1)) from by
        rw [hpush.1, hb]]
  · simp only [if_neg hover]
    refine ⟨Or.inl ?_, hpush.2, trivial, trivial, trivial⟩
    show (s.samplesTree.pushValue v _).samples = _
    rw [hpush.1, hb]

end SummarySpecs

section RankFacts

variable {T : Type} [LinearOrder T]

theorem countLE_cons_le (v w : T) (S : List T) (h : v ≤ w) :
    countLE (v :: S) w = countLE S w + 1 := by
  simp [countLE, List.filter_cons, h]

theorem countLE_cons_gt (v w : T) (S : List T) (h : ¬ v ≤ w) :
    countLE (v :: S) w = countLE S w := by
  simp [countLE, List.filter_cons, h]

theorem countLE_cons_ge (v w : T) (S : List T) :
    countLE S w ≤ countLE (v :: S) w := by
  by_cases h : v ≤ w
  · rw [countLE_cons_le v w S h]
    omega
  · rw [countLE_cons_gt v w S h]

theorem countLT_cons_lt (v w : T) (S : List T) (h : v < w) :
    countLT (v :: S) w = countLT S w + 1 := by
  simp [countLT, List.filter_cons, h]

theorem countLT_cons_ge (v w : T) (S : List T) (h : ¬ v < w) :
    countLT (v :: S) w = countLT S w := by
  simp [countLT, List.filter_cons, h]

theorem countLE_mono_value (S : List T) (w w2 : T) (h : w ≤ w2) :
    countLE S w ≤ countLE S w2 := by
  unfold countLE
  induction S with
  | nil => simp
  | cons x xs ih =>
    simp only [List.filter_cons]
    by_cases hx : x ≤ w
    · rw [if_pos (by simpa using hx), if_pos (by simpa using le_trans hx h)]
      simpa using ih
    · by_cases hx2 : x ≤ w2
      · rw [if_neg (by simpa using hx), if_pos (by simpa using hx2)]
        simp
        omega
      · rw [if_neg (by simpa using hx), if_neg (by simpa using hx2)]
        exact ih

theorem countLT_mono_value (S : List T) (w w2 : T) (h : w ≤ w2) :
    countLT S w ≤ countLT S w2 := by
  unfold countLT
  induction S with
  | nil => simp
  | cons x xs ih =>
    simp only [List.filter_cons]
    by_cases hx : x < w
    · rw [if_pos (by simpa using hx), if_pos (by simpa using lt_of_lt_of_le hx h)]
      simpa using ih
    · by_cases hx2 : x < w2
      · rw [if_neg (by simpa using hx), if_pos (by simpa using hx2)]
        simp
        omega
      · rw [if_neg (by simpa using hx), if_neg (by simpa using hx2)]
        exact ih

theorem countLE_le_length (S : List T) (w : T) : countLE S w ≤ S.length := by
  unfold countLE
  exact List.length_filter_le _ _

theorem countLT_le_length (S : List T) (w : T) : countLT S w ≤ S.length := by
  unfold countLT
  exact List.length_filter_le _ _

theorem countLE_all (S : List T) (w : T) (h : ∀ x ∈ S, x ≤ w) :
    countLE S w = S.length := by
  unfold countLE
  rw [List.filter_eq_self.mpr (by intro a ha; simpa using h a ha)]

theorem countLT_eq_zero (S : List T) (w : T) (h : ∀ x ∈ S, w ≤ x) :
    countLT S w = 0 := by
  unfold countLT
  rw [List.length_eq_zero]
  rw [List.filter_eq_nil_iff]
  intro a ha
  simpa using not_lt.mpr (h a ha)

theorem countLT_le_countLE (S : List T) (w : T) : countLT S w ≤ countLE S w := by
  unfold countLT countLE
  apply List.length_le_of_sublist
  apply List.monotone_filter_right
  intro a ha
  simp at ha ⊢
  exact le_of_lt ha

theorem countLT_lt_countLE (S : List T) (w : T) (h : w ∈ S) :
    countLT S w < countLE S w := by
  induction S with
  | nil => simp at h
  | cons x xs ih =>
    by_cases hxw : x < w
    · rw [countLT_cons_lt x w xs hxw, countLE_cons_le x w xs (le_of_lt hxw)]
      have hmem : w ∈ xs := by
        rcases List.mem_cons.mp h with rfl | hm
        · exact absurd hxw (lt_irrefl _)
        · exact hm
      have := ih hmem
      omega
    · by_cases hxle : x ≤ w
      · rw [countLT_cons_ge x w xs hxw, countLE_cons_le x w xs hxle]
        have := countLT_le_countLE xs w
        omega
      · rw [countLT_cons_ge x w xs hxw, countLE_cons_gt x w xs hxle]
        have hmem : w ∈ xs := by
          rcases List.mem_cons.mp h with rfl | hm
          · exact absurd (le_refl w) hxle
          · exact hm
        exact ih hmem

/-- `capOf` is monotone in the stream length for nonnegative tolerance. -/
theorem capOf_mono_len (ε : ℚ) (hε : 0 ≤ ε) (a b : ℕ) (h : a ≤ b) :
    capOf ε a ≤ capOf ε b := by
  unfold capOf
  have hfl : ⌊2 * ε * (a : ℚ)⌋ ≤ ⌊2 * ε * (b : ℚ)⌋ := by
    apply Int.floor_le_floor
    have : (a : ℚ) ≤ (b : ℚ) := by exact_mod_cast h
    nlinarith
  omega

/-- `capOf` is superadditive in the stream length. -/
theorem capOf_superadd (ε : ℚ) (hε : 0 ≤ ε) (a b : ℕ) :
    capOf ε a + capOf ε b ≤ capOf ε (a + b) := by
  unfold capOf
  have h1 : (0 : ℤ) ≤ ⌊2 * ε * (a : ℚ)⌋ := by
    rw [Int.floor_nonneg]
    positivity
  have h2 : (0 : ℤ) ≤ ⌊2 * ε * (b : ℚ)⌋ := by
    rw [Int.floor_nonneg]
    positivity
  have h3 : ⌊2 * ε * (a : ℚ)⌋ + ⌊2 * ε * (b : ℚ)⌋ ≤ ⌊2 * ε * ((a + b : ℕ) : ℚ)⌋ := by
    rw [Int.le_floor]
    push_cast
    have ha := Int.floor_le (2 * ε * (a : ℚ))
    have hb := Int.floor_le (2 * ε * (b : ℚ))
    nlinarith
  omega

/-- `capOf` is monotone in the tolerance. -/
theorem capOf_mono_eps (ε ε2 : ℚ) (h : ε ≤ ε2) (hε : 0 ≤ ε) (n : ℕ) :
    capOf ε n ≤ capOf ε2 n := by
  unfold capOf
  have hfl : ⌊2 * ε * (n : ℚ)⌋ ≤ ⌊2 * ε2 * (n : ℚ)⌋ := by
    apply Int.floor_le_floor
    have hn : (0 : ℚ) ≤ (n : ℚ) := by positivity
    nlinarith
  omega

/-- Splitting `SamplesOk` across an append. -/
theorem SamplesOk_append (S : List T) (cap : ℕ) :
    ∀ (xs ys : List (Sample T)) (r0 : ℕ),
      SamplesOk S cap r0 (xs ++ ys) ↔
        (SamplesOk S cap r0 xs ∧ SamplesOk S cap (r0 + sumG xs) ys)
  | [], ys, r0 => by
    simp [SamplesOk, sumG]
  | x :: xs, ys, r0 => by
    simp only [List.cons_append, SamplesOk, sumG_cons, List.append_eq]
    rw [SamplesOk_append S cap xs ys (r0 + x.g)]
    constructor
    · rintro ⟨h1, h2, h3, h4, h5, h6, h7⟩
      exact ⟨⟨h1, h2, h3, h4, h5, h6⟩, by
        rw [show r0 + (x.g + sumG xs) = r0 + x.g + sumG xs by omega]
        exact h7⟩
    · rintro ⟨⟨h1, h2, h3, h4, h5, h6⟩, h7⟩
      refine ⟨h1, h2, h3, h4, h5, h6, ?_⟩
      rw [show r0 + x.g + sumG xs = r0 + (x.g + sumG xs) by omega]
      exact h7

/-- Transporting `SamplesOk` to an extended stream with a uniform rank
shift. -/
theorem SamplesOk_shift (S S2 : List T) (cap cap2 : ℕ) :
    ∀ (xs : List (Sample T)) (r0 k : ℕ),
      SamplesOk S cap r0 xs →
      (∀ x ∈ xs, x.value ∈ S2) →
      (∀ x ∈ xs, countLE S x.value + k ≤ countLE S2 x.value) →
      (∀ x ∈ xs, countLT S2 x.value ≤ countLT S x.value + k) →
      cap ≤ max 1 cap2 →
      SamplesOk S2 cap2 (r0 + k) xs
  | [], r0, k, h, _, _, _, _ => trivial
  | x :: xs, r0, k, h, hmem, hle, hlt, hcap => by
    obtain ⟨h1, h2, h3, h4, h5, h6⟩ := h
    refine ⟨h1, ?_, hmem x (by simp), ?_, ?_, ?_⟩
    · calc x.g + x.delta ≤ max 1 cap := h2
        _ ≤ max 1 (max 1 cap2) := by
          rcases max_cases 1 cap with ⟨heq, -⟩ | ⟨heq, -⟩ <;> rw [heq] <;> simp <;> omega
        _ = max 1 cap2 := by
          rcases max_cases 1 cap2 with ⟨heq, hge⟩ | ⟨heq, hge⟩ <;> simp <;> omega
    · calc r0 + k + x.g = (r0 + x.g) + k := by omega
        _ ≤ countLE S x.value + k := by
          have := h4
          omega
        _ ≤ countLE S2 x.value := hle x (by simp)
    · calc countLT S2 x.value ≤ countLT S x.value + k := hlt x (by simp)
        _ < (r0 + x.g + x.delta) + k := by omega
        _ = r0 + k + x.g + x.delta := by omega
    · rw [show r0 + k + x.g = (r0 + x.g) + k by omega]
      exact SamplesOk_shift S S2 cap cap2 xs (r0 + x.g) k h6
        (fun y hy => hmem y (by simp [hy]))
        (fun y hy => hle y (by simp [hy]))
        (fun y hy => hlt y (by simp [hy])) hcap

/-- Per-sample bound extraction. -/
theorem SamplesOk_gdelta (S : List T) (cap : ℕ) :
    ∀ (xs : List (Sample T)) (r0 : ℕ), SamplesOk S cap r0 xs →
      ∀ x ∈ xs, 1 ≤ x.g ∧ x.g + x.delta ≤ max 1 cap
  | [], r0, h, x, hx => by simp at hx
  | y :: xs, r0, h, x, hx => by
    obtain ⟨h1, h2, h3, h4, h5, h6⟩ := h
    rcases List.mem_cons.mp hx with rfl | hx
    · exact ⟨h1, h2⟩
    · exact SamplesOk_gdelta S cap xs (r0 + y.g) h6 x hx

/-- The cap may be weakened. -/
theorem SamplesOk_mono_cap (S : List T) (cap cap2 : ℕ) (hc : max 1 cap ≤ max 1 cap2) :
    ∀ (xs : List (Sample T)) (r0 : ℕ), SamplesOk S cap r0 xs → SamplesOk S cap2 r0 xs
  | [], r0, h => trivial
  | x :: xs, r0, h => by
    obtain ⟨h1, h2, h3, h4, h5, h6⟩ := h
    exact ⟨h1, le_trans h2 hc, h3, h4, h5,
      SamplesOk_mono_cap S cap cap2 hc xs (r0 + x.g) h6⟩

/-- Prefix of the insertion point: values at or below the probe. -/
theorem take_findPos_le (xs : List (Sample T)) (v : T) :
    ∀ x ∈ xs.take (findPos xs v), x.value ≤ v := by
  intro x hx
  obtain ⟨i, hi, hget⟩ := List.mem_iff_getElem.mp hx
  have hilt : i < findPos xs v := by
    have := hi
    simp [List.length_take] at this
    omega
  have hixs : i < xs.length := by
    have hle : findPos xs v ≤ xs.length := List.findIdx_le_length _
    omega
  have hfalse : decide (v < xs[i].value) = false := List.not_of_lt_findIdx hilt
  have hgeq : xs[i] = x := by
    rw [← hget, List.getElem_take]
  rw [hgeq] at hfalse
  simpa using hfalse

/-- Suffix from the insertion point in a sorted list: values above the
probe. -/
theorem drop_findPos_gt (xs : List (Sample T)) (v : T)
    (hs : List.Sorted sampleLE xs) :
    ∀ x ∈ xs.drop (findPos xs v), v < x.value := by
  intro x hx
  obtain ⟨i, hi, hget⟩ := List.mem_iff_getElem.mp hx
  have hlen : findPos xs v + i < xs.length := by
    simp [List.length_drop] at hi
    omega
  have hplt : findPos xs v < xs.length := by omega
  have hgeq : xs[findPos xs v + i] = x := by
    rw [← hget, List.getElem_drop]
  have hfirst : v < xs[findPos xs v].value := by
    have := @List.findIdx_getElem _ (fun element => decide (v < element.value)) xs
      (by unfold findPos at hplt; exact hplt)
    simpa using this
  rcases Nat.eq_zero_or_pos i with rfl | hipos
  · rw [← hgeq]
    simpa using hfirst
  · have hrel : sampleLE xs[findPos xs v] xs[findPos xs v + i] :=
      List.pairwise_iff_getElem.mp hs (findPos xs v) (findPos xs v + i) hplt hlen (by omega)
    rw [hgeq] at hrel
    exact lt_of_lt_of_le hfirst hrel

/-- `sumG` after a set that increments a g field. -/
theorem sumG_set (xs : List (Sample T)) (pos : ℕ) (r y : Sample T)
    (hget : xs.get? pos = some r) (hy : y.g = r.g + 1) :
    sumG (xs.set pos y) = sumG xs + 1 := by
  have hlt : pos < xs.length := by
    rcases List.get?_eq_some.mp hget with ⟨h, -⟩
    exact h
  obtain ⟨l1, l2, hdecomp, hlen, hset⟩ := List.exists_of_set hlt
  have hxp : xs[pos] = r := by
    rw [List.get?_eq_getElem?, List.getElem?_eq_getElem hlt] at hget
    exact (Option.some.injEq _ _).mp hget
  rw [hset, hdecomp, hxp, sumG_append, sumG_append, sumG_cons, sumG_cons, hy]
  omega

/-- `sumG` after an insertion. -/
theorem sumG_insertIdx (xs : List (Sample T)) (pos : ℕ) (x : Sample T)
    (hpos : pos ≤ xs.length) :
    sumG (xs.insertIdx pos x) = sumG xs + x.g := by
  rw [insertIdx_take_drop pos xs x hpos, sumG_append, sumG_cons]
  conv_rhs => rw [← List.take_append_drop pos xs]
  rw [sumG_append]
  omega

/-- Values of stored samples, extracted from `SamplesOk`. -/
theorem SamplesOk_values (S : List T) (cap : ℕ) :
    ∀ (xs : List (Sample T)) (r0 : ℕ), SamplesOk S cap r0 xs →
      ∀ x ∈ xs, x.value ∈ S
  | [], r0, h, x, hx => by simp at hx
  | y :: xs, r0, h, x, hx => by
    obtain ⟨h1, h2, h3, h4, h5, h6⟩ := h
    rcases List.mem_cons.mp hx with rfl | hx
    · exact h3
    · exact SamplesOk_values S cap xs (r0 + y.g) h6 x hx

/-- Transport to the extended stream without a rank shift (values at or
below the new element). -/
theorem SamplesOk_prefix_keep (S : List T) (cap cap2 : ℕ) (v : T)
    (xs : List (Sample T)) (r0 : ℕ) (h : SamplesOk S cap r0 xs)
    (hle : ∀ y ∈ xs, y.value ≤ v) (hcap : cap ≤ max 1 cap2) :
    SamplesOk (v :: S) cap2 r0 xs := by
  have := SamplesOk_shift S (v :: S) cap cap2 xs r0 0 h
    (fun y hy => List.mem_cons_of_mem v (SamplesOk_values S cap xs r0 h y hy))
    (fun y hy => by
      have := countLE_cons_ge v y.value S
      omega)
    (fun y hy => by
      rw [countLT_cons_ge v y.value S (not_lt.mpr (hle y hy))]
      omega)
    hcap
  simpa using this

/-- Transport to the extended stream with a rank shift of one (values above
the new element). -/
theorem SamplesOk_suffix_shift (S : List T) (cap cap2 : ℕ) (v : T)
    (xs : List (Sample T)) (r0 : ℕ) (h : SamplesOk S cap r0 xs)
    (hgt : ∀ y ∈ xs, v < y.value) (hcap : cap ≤ max 1 cap2) :
    SamplesOk (v :: S) cap2 (r0 + 1) xs :=
  SamplesOk_shift S (v :: S) cap cap2 xs r0 1 h
    (fun y hy => List.mem_cons_of_mem v (SamplesOk_values S cap xs r0 h y hy))
    (fun y hy => by
      rw [countLE_cons_le v y.value S (le_of_lt (hgt y hy))])
    (fun y hy => by
      rw [countLT_cons_lt v y.value S (hgt y hy)])
    hcap

end RankFacts

section StatePreservation

variable {T : Type} [LinearOrder T]

/-- Destructing `lastOk` at a known last sample. -/
theorem lastOk_elim (xs : List (Sample T)) (S : List T) (l : Sample T)
    (hgl : xs.getLast? = some l) (h : lastOk xs S) :
    l.delta = 0 ∧ ∀ x ∈ S, x ≤ l.value := by
  unfold lastOk at h
  rw [hgl] at h
  exact h

/-- Establishing `lastOk` at a known last sample. -/
theorem lastOk_intro (xs : List (Sample T)) (S : List T) (l : Sample T)
    (hgl : xs.getLast? = some l) (hd : l.delta = 0) (hmax : ∀ x ∈ S, x ≤ l.value) :
    lastOk xs S := by
  unfold lastOk
  rw [hgl]
  exact ⟨hd, hmax⟩

/-- A nonempty list has a last element. -/
theorem getLast?_some_of_ne_nil {α : Type} (l : List α) (h : l ≠ []) :
    ∃ a, l.getLast? = some a := by
  have := List.getLast?_isSome.mpr h
  exact Option.isSome_iff_exists.mp this

/-- Inserting a value that separates two halves of a sorted list keeps it
sorted. -/
theorem sorted_insert_middle (l1 l2 : List (Sample T)) (x : Sample T)
    (h : List.Sorted sampleLE (l1 ++ l2))
    (h1 : ∀ a ∈ l1, a.value ≤ x.value) (h2 : ∀ b ∈ l2, x.value ≤ b.value) :
    List.Sorted sampleLE (l1 ++ x :: l2) := by
  obtain ⟨p1, p2, cross⟩ := List.pairwise_append.mp h
  refine List.pairwise_append.mpr ⟨p1, List.pairwise_cons.mpr ⟨h2, p2⟩, ?_⟩
  intro a ha b hb
  rcases List.mem_cons.mp hb with rfl | hb
  · exact h1 a ha
  · exact cross a ha b hb

/-- Replacing a middle sample by one with the same value keeps the list
sorted. -/
theorem sorted_set_value (l1 l2 : List (Sample T)) (r y : Sample T)
    (h : List.Sorted sampleLE (l1 ++ r :: l2)) (hy : y.value = r.value) :
    List.Sorted sampleLE (l1 ++ y :: l2) := by
  obtain ⟨p1, p2, cross⟩ := List.pairwise_append.mp h
  have hsub : List.Sorted sampleLE (l1 ++ l2) :=
    List.Pairwise.sublist ((List.sublist_cons_self r l2).append_left l1) h
  refine sorted_insert_middle l1 l2 y hsub ?_ ?_
  · intro a ha
    rw [hy]
    exact cross a ha r (List.mem_cons_self r l2)
  · intro b hb
    rw [hy]
    exact (List.pairwise_cons.mp p2).1 b hb

/-- The total weight of a run of samples, all of value at most `v`, bounds
the rank of `v`. -/
theorem SamplesOk_last_rank (S : List T) (cap : ℕ) (v : T) :
    ∀ (xs : List (Sample T)) (r0 : ℕ), SamplesOk S cap r0 xs →
      (∀ x ∈ xs, x.value ≤ v) → xs ≠ [] → r0 + sumG xs ≤ countLE S v
  | [], r0, _, _, hne => absurd rfl hne
  | y :: xs, r0, h, hle, _ => by
    obtain ⟨h1, h2, h3, h4, h5, h6⟩ := h
    cases xs with
    | nil =>
      have := countLE_mono_value S y.value v (hle y (List.mem_cons_self y []))
      rw [sumG_cons]
      simp only [sumG, List.map_nil, List.sum_nil]
      omega
    | cons z zs =>
      have := SamplesOk_last_rank S cap v (z :: zs) (r0 + y.g) h6
        (fun x hx => hle x (List.mem_cons_of_mem y hx)) (by simp)
      rw [sumG_cons]
      omega

/-- Pushing the first value into an empty summary state. -/
theorem stateOk_empty (ε : ℚ) (v : T) : StateOk ε [v] [Sample.exact v] := by
  unfold StateOk
  refine ⟨by simp, by simp, by simp [sumG, Sample.exact], ?_, ?_, ?_⟩
  · simp only [SamplesOk, Sample.exact]
    refine ⟨le_refl 1, by simp, by simp, ?_, ?_, trivial⟩
    · simp [countLE]
    · simp [countLT]
  · simp only [headOk, Sample.exact]
    refine ⟨trivial, trivial, ?_⟩
    intro x hx
    simp only [List.mem_singleton] at hx
    exact le_of_eq hx.symm
  · refine lastOk_intro _ _ (Sample.exact v) (by simp) rfl ?_
    intro x hx
    simp only [List.mem_singleton] at hx
    exact le_of_eq hx

/-- Pushing a new strict minimum as a fresh exact sample. -/
theorem stateOk_prepend (ε : ℚ) (S : List T) (xs : List (Sample T)) (v : T)
    (hε : 0 ≤ ε) (h : StateOk ε S xs) (hne : xs ≠ [])
    (hlt : ∀ x ∈ xs, v < x.value) :
    StateOk ε (v :: S) (Sample.exact v :: xs) := by
  obtain ⟨hiff, hsort, hsum, hok, hhead, hlast⟩ := h
  rcases xs with - | ⟨h0, rest⟩
  · exact absurd rfl hne
  simp only [headOk] at hhead
  obtain ⟨hg0, hd0, hmin⟩ := hhead
  have hvS : ∀ x ∈ S, v < x := fun x hx =>
    lt_of_lt_of_le (hlt h0 (List.mem_cons_self h0 rest)) (hmin x hx)
  have hcap : capOf ε S.length ≤ max 1 (capOf ε (S.length + 1)) :=
    le_trans (capOf_mono_len ε hε _ _ (by omega)) (le_max_right _ _)
  unfold StateOk
  refine ⟨by simp, ?_, ?_, ?_, ?_, ?_⟩
  · exact List.sorted_cons.mpr ⟨fun b hb => le_of_lt (hlt b hb), hsort⟩
  · rw [sumG_cons, hsum]
    simp only [Sample.exact, List.length_cons]
    omega
  · simp only [SamplesOk, Sample.exact]
    refine ⟨le_refl 1, by simp, by simp, ?_, ?_, ?_⟩
    · rw [countLE_cons_le v v S (le_refl v)]
      omega
    · rw [countLT_cons_ge v v S (lt_irrefl v),
        countLT_eq_zero S v (fun x hx => le_of_lt (hvS x hx))]
      omega
    · exact SamplesOk_suffix_shift S _ _ v _ 0 hok hlt hcap
  · simp only [headOk, Sample.exact]
    refine ⟨trivial, trivial, ?_⟩
    intro x hx
    rcases List.mem_cons.mp hx with rfl | hx
    · exact le_refl x
    · exact le_of_lt (hvS x hx)
  · obtain ⟨l, hgl⟩ := getLast?_some_of_ne_nil (h0 :: rest) (by simp)
    obtain ⟨hld, hlmax⟩ := lastOk_elim _ _ l hgl hlast
    refine lastOk_intro _ _ l ?_ hld ?_
    · rw [List.getLast?_cons_cons]
      exact hgl
    · intro x hx
      rcases List.mem_cons.mp hx with rfl | hx
      · exact le_of_lt (lt_of_lt_of_le (hlt h0 (List.mem_cons_self h0 rest))
          (sorted_last_max _ l hsort hgl h0 (List.mem_cons_self h0 rest)))
      · exact hlmax x hx

/-- Pushing a new maximum as a fresh exact sample at the end. -/
theorem stateOk_append_exact (ε : ℚ) (S : List T) (xs : List (Sample T)) (v : T)
    (hε : 0 ≤ ε) (h : StateOk ε S xs) (hne : xs ≠ [])
    (hle : ∀ x ∈ xs, x.value ≤ v) :
    StateOk ε (v :: S) (xs ++ [Sample.exact v]) := by
  obtain ⟨hiff, hsort, hsum, hok, hhead, hlast⟩ := h
  have hSne : S ≠ [] := fun hS => hne (hiff.mpr hS)
  obtain ⟨l, hgl⟩ := getLast?_some_of_ne_nil xs hne
  obtain ⟨hld, hlmax⟩ := lastOk_elim _ _ l hgl hlast
  have hlmem : l ∈ xs := by
    obtain ⟨ys, rfl⟩ := List.getLast?_eq_some_iff.mp hgl
    simp
  have hSv : ∀ x ∈ S, x ≤ v := fun x hx =>
    le_trans (hlmax x hx) (hle l hlmem)
  have hcap : capOf ε S.length ≤ max 1 (capOf ε (S.length + 1)) :=
    le_trans (capOf_mono_len ε hε _ _ (by omega)) (le_max_right _ _)
  have hcountLE : countLE (v :: S) v = S.length + 1 := by
    rw [countLE_cons_le v v S (le_refl v),
      countLE_all S v hSv]
  unfold StateOk
  refine ⟨by simp, ?_, ?_, ?_, ?_, ?_⟩
  · refine sorted_insert_middle xs [] (Sample.exact v) (by simpa using hsort) hle (by simp)
  · rw [sumG_append, hsum, sumG_cons]
    simp [sumG, Sample.exact]
  · rw [SamplesOk_append]
    refine ⟨SamplesOk_prefix_keep S _ _ v xs 0 hok hle hcap, ?_⟩
    simp only [SamplesOk, Sample.exact]
    refine ⟨le_refl 1, by simp, by simp, ?_, ?_, trivial⟩
    · rw [hcountLE]
      omega
    · have h1 : countLT (v :: S) v = countLT S v := countLT_cons_ge v v S (lt_irrefl v)
      have h2 : countLT S v ≤ S.length := countLT_le_length S v
      omega
  · rcases xs with - | ⟨h0, rest⟩
    · exact absurd rfl hne
    simp only [headOk] at hhead ⊢
    obtain ⟨hg0, hd0, hmin⟩ := hhead
    refine ⟨hg0, hd0, ?_⟩
    intro x hx
    rcases List.mem_cons.mp hx with rfl | hx
    · exact hle h0 (List.mem_cons_self h0 rest)
    · exact hmin x hx
  · refine lastOk_intro _ _ (Sample.exact v) (by simp) rfl ?_
    intro x hx
    rcases List.mem_cons.mp hx with rfl | hx
    · exact le_refl x
    · exact hSv x hx

/-- Pushing a new minimum whose weight is absorbed by the sample after the
minimum: the stored minimum takes the new value. -/
theorem stateOk_min_fits (ε : ℚ) (S : List T) (mn am : Sample T)
    (rest : List (Sample T)) (v : T)
    (hε : 0 ≤ ε) (h : StateOk ε S (mn :: am :: rest)) (hlt : v < mn.value)
    (hfit : am.delta + am.g + 1 ≤ capOf ε (S.length + 1)) :
    StateOk ε (v :: S) ({ mn with value := v } :: { am with g := am.g + 1 } :: rest) := by
  obtain ⟨hiff, hsort, hsum, hok, hhead, hlast⟩ := h
  simp only [headOk] at hhead
  obtain ⟨hg, hd, hmin⟩ := hhead
  obtain ⟨hmn_le, hsort1⟩ := List.sorted_cons.mp hsort
  obtain ⟨ham_le, hsort2⟩ := List.sorted_cons.mp hsort1
  have hvam : v < am.value := lt_of_lt_of_le hlt (hmn_le am (List.mem_cons_self am rest))
  have hvS : ∀ x ∈ S, v < x := fun x hx => lt_of_lt_of_le hlt (hmin x hx)
  have hcap : capOf ε S.length ≤ max 1 (capOf ε (S.length + 1)) :=
    le_trans (capOf_mono_len ε hε _ _ (by omega)) (le_max_right _ _)
  simp only [SamplesOk] at hok
  obtain ⟨hg1, hb1, hm1, hLE1, hLT1, hg2, hb2, hm2, hLE2, hLT2, hok3⟩ := hok
  have hmax1 : (1 : ℕ) ≤ max 1 (capOf ε (S.length + 1)) := le_max_left _ _
  have hmaxr : capOf ε (S.length + 1) ≤ max 1 (capOf ε (S.length + 1)) := le_max_right _ _
  unfold StateOk
  refine ⟨by simp, ?_, ?_, ?_, ?_, ?_⟩
  · refine List.sorted_cons.mpr ⟨?_, ?_⟩
    · intro b hb
      rcases List.mem_cons.mp hb with rfl | hb
      · exact le_of_lt hvam
      · exact le_of_lt (lt_of_lt_of_le hvam (ham_le b hb))
    · exact List.sorted_cons.mpr ⟨fun b hb => ham_le b hb, hsort2⟩
  · rw [sumG_cons, sumG_cons] at hsum ⊢
    simp only [List.length_cons]
    omega
  · simp only [SamplesOk, List.length_cons]
    have hcLEv : 1 ≤ countLE (v :: S) v := by
      rw [countLE_cons_le v v S (le_refl v)]
      omega
    have hcLTv : countLT (v :: S) v = 0 := by
      rw [countLT_cons_ge v v S (lt_irrefl v),
        countLT_eq_zero S v (fun x hx => le_of_lt (hvS x hx))]
    have hcLEam : countLE (v :: S) am.value = countLE S am.value + 1 :=
      countLE_cons_le v am.value S (le_of_lt hvam)
    have hcLTam : countLT (v :: S) am.value = countLT S am.value + 1 :=
      countLT_cons_lt v am.value S hvam
    refine ⟨by omega, by omega, by simp, by omega, by omega,
      by omega, by omega, by simp [hm2], by omega, by omega, ?_⟩
    have := SamplesOk_suffix_shift S _ _ v rest (0 + mn.g + am.g) hok3
      (fun y hy => lt_of_lt_of_le hvam (ham_le y hy)) hcap
    exact this
  · simp only [headOk]
    refine ⟨hg, hd, ?_⟩
    intro x hx
    rcases List.mem_cons.mp hx with rfl | hx
    · exact le_refl x
    · exact le_of_lt (hvS x hx)
  · rcases rest with - | ⟨z, zs⟩
    · obtain ⟨hld, hlmax⟩ := lastOk_elim _ _ am (by simp) hlast
      refine lastOk_intro _ _ { am with g := am.g + 1 } (by simp) hld ?_
      intro x hx
      rcases List.mem_cons.mp hx with rfl | hx
      · exact le_of_lt hvam
      · exact hlmax x hx
    · obtain ⟨l, hgl⟩ := getLast?_some_of_ne_nil (z :: zs) (by simp)
      have hglold : (mn :: am :: z :: zs).getLast? = some l := by
        rw [List.getLast?_cons_cons, List.getLast?_cons_cons]
        exact hgl
      obtain ⟨hld, hlmax⟩ := lastOk_elim _ _ l hglold hlast
      refine lastOk_intro _ _ l ?_ hld ?_
      · rw [List.getLast?_cons_cons, List.getLast?_cons_cons]
        exact hgl
      · intro x hx
        rcases List.mem_cons.mp hx with rfl | hx
        · exact le_of_lt (lt_of_lt_of_le hvam
            (sorted_last_max _ l hsort1 (by rw [List.getLast?_cons_cons]; exact hgl)
              am (List.mem_cons_self am (z :: zs))))
        · exact hlmax x hx

/-- Pushing a new maximum absorbed by the stored maximum: the stored maximum
takes the new value and gains weight. -/
theorem stateOk_max_fits (ε : ℚ) (S : List T) (l1 : List (Sample T))
    (mx : Sample T) (v : T)
    (hε : 0 ≤ ε) (h : StateOk ε S (l1 ++ [mx])) (hl1 : l1 ≠ [])
    (hle : ∀ x ∈ l1 ++ [mx], x.value ≤ v)
    (hfit : mx.g + 1 ≤ capOf ε (S.length + 1)) :
    StateOk ε (v :: S) (l1 ++ [{ mx with value := v, g := mx.g + 1 }]) := by
  obtain ⟨hiff, hsort, hsum, hok, hhead, hlast⟩ := h
  obtain ⟨hld, hlmax⟩ := lastOk_elim _ _ mx (List.getLast?_concat l1) hlast
  have hSv : ∀ x ∈ S, x ≤ v := fun x hx =>
    le_trans (hlmax x hx) (hle mx (by simp))
  have hcap : capOf ε S.length ≤ max 1 (capOf ε (S.length + 1)) :=
    le_trans (capOf_mono_len ε hε _ _ (by omega)) (le_max_right _ _)
  have hnilG : sumG ([] : List (Sample T)) = 0 := rfl
  have hsum2 : sumG l1 + mx.g = S.length := by
    rw [sumG_append, sumG_cons, hnilG] at hsum
    omega
  have hcountLE : countLE (v :: S) v = S.length + 1 := by
    rw [countLE_cons_le v v S (le_refl v), countLE_all S v hSv]
  have hmaxr : capOf ε (S.length + 1) ≤ max 1 (capOf ε (S.length + 1)) := le_max_right _ _
  obtain ⟨hokl1, hokmx⟩ := (SamplesOk_append S _ l1 [mx] 0).mp hok
  unfold StateOk
  refine ⟨by simp, ?_, ?_, ?_, ?_, ?_⟩
  · have hsl1 : List.Sorted sampleLE (l1 ++ []) := by
      rw [List.append_nil]
      exact List.Pairwise.sublist (List.sublist_append_left l1 [mx]) hsort
    refine sorted_insert_middle l1 [] _ hsl1 ?_ (by simp)
    intro a ha
    exact hle a (List.mem_append_left [mx] ha)
  · rw [sumG_append, sumG_cons, hnilG]
    simp only [List.length_cons]
    omega
  · rw [SamplesOk_append]
    refine ⟨SamplesOk_prefix_keep S _ _ v l1 0 hokl1
      (fun y hy => hle y (List.mem_append_left [mx] hy)) hcap, ?_⟩
    simp only [SamplesOk, List.length_cons]
    have hcLT : countLT (v :: S) v = countLT S v := countLT_cons_ge v v S (lt_irrefl v)
    have hcLT2 : countLT S v ≤ S.length := countLT_le_length S v
    refine ⟨by omega, by omega, by simp, by omega, by omega, trivial⟩
  · rcases l1 with - | ⟨h0, l1t⟩
    · exact absurd rfl hl1
    simp only [List.cons_append, headOk] at hhead ⊢
    obtain ⟨hg0, hd0, hmin⟩ := hhead
    refine ⟨hg0, hd0, ?_⟩
    intro x hx
    rcases List.mem_cons.mp hx with rfl | hx
    · exact hle h0 (by simp)
    · exact hmin x hx
  · refine lastOk_intro _ _ { mx with value := v, g := mx.g + 1 }
      (List.getLast?_concat l1) hld ?_
    intro x hx
    rcases List.mem_cons.mp hx with rfl | hx
    · exact le_refl x
    · exact hSv x hx

/-- Pushing an interior value absorbed by its follower. -/
theorem stateOk_interior_fits (ε : ℚ) (S : List T) (l1 : List (Sample T))
    (r : Sample T) (l2 : List (Sample T)) (v : T)
    (hε : 0 ≤ ε) (h : StateOk ε S (l1 ++ r :: l2)) (hl1 : l1 ≠ [])
    (hle : ∀ x ∈ l1, x.value ≤ v) (hgt : ∀ x ∈ r :: l2, v < x.value)
    (hfit : r.delta + r.g + 1 ≤ capOf ε (S.length + 1)) :
    StateOk ε (v :: S) (l1 ++ { r with g := r.g + 1 } :: l2) := by
  obtain ⟨hiff, hsort, hsum, hok, hhead, hlast⟩ := h
  have hvr : v < r.value := hgt r (List.mem_cons_self r l2)
  have hcap : capOf ε S.length ≤ max 1 (capOf ε (S.length + 1)) :=
    le_trans (capOf_mono_len ε hε _ _ (by omega)) (le_max_right _ _)
  have hmaxr : capOf ε (S.length + 1) ≤ max 1 (capOf ε (S.length + 1)) := le_max_right _ _
  obtain ⟨hokl1, hokmid⟩ := (SamplesOk_append S _ l1 (r :: l2) 0).mp hok
  simp only [SamplesOk] at hokmid
  obtain ⟨hg1, hb1, hm1, hLE1, hLT1, hokl2⟩ := hokmid
  have hsortmid : List.Sorted sampleLE (r :: l2) :=
    List.Pairwise.sublist (List.sublist_append_right l1 (r :: l2)) hsort
  unfold StateOk
  refine ⟨by simp, ?_, ?_, ?_, ?_, ?_⟩
  · exact sorted_set_value l1 l2 r _ hsort rfl
  · rw [sumG_append, sumG_cons] at hsum ⊢
    simp only [List.length_cons]
    omega
  · rw [SamplesOk_append]
    refine ⟨SamplesOk_prefix_keep S _ _ v l1 0 hokl1 hle hcap, ?_⟩
    simp only [SamplesOk, List.length_cons]
    have hcLE : countLE (v :: S) r.value = countLE S r.value + 1 :=
      countLE_cons_le v r.value S (le_of_lt hvr)
    have hcLT : countLT (v :: S) r.value = countLT S r.value + 1 :=
      countLT_cons_lt v r.value S hvr
    refine ⟨by omega, by omega, by simp [hm1], by omega, by omega, ?_⟩
    exact SamplesOk_suffix_shift S _ _ v l2 (0 + sumG l1 + r.g) hokl2
      (fun y hy => hgt y (List.mem_cons_of_mem r hy)) hcap
  · rcases l1 with - | ⟨h0, l1t⟩
    · exact absurd rfl hl1
    simp only [List.cons_append, headOk] at hhead ⊢
    obtain ⟨hg0, hd0, hmin⟩ := hhead
    refine ⟨hg0, hd0, ?_⟩
    intro x hx
    rcases List.mem_cons.mp hx with rfl | hx
    · exact hle h0 (by simp)
    · exact hmin x hx
  · rcases l2 with - | ⟨z, zs⟩
    · have hglold : (l1 ++ [r]).getLast? = some r := List.getLast?_concat l1
      obtain ⟨hld, hlmax⟩ := lastOk_elim _ _ r hglold hlast
      refine lastOk_intro _ _ { r with g := r.g + 1 } (List.getLast?_concat l1) hld ?_
      intro x hx
      rcases List.mem_cons.mp hx with rfl | hx
      · exact le_of_lt hvr
      · exact hlmax x hx
    · obtain ⟨l, hgl⟩ := getLast?_some_of_ne_nil (z :: zs) (by simp)
      have hglold : (l1 ++ r :: z :: zs).getLast? = some l := by
        rw [List.getLast?_append_of_ne_nil l1 (by simp), List.getLast?_cons_cons]
        exact hgl
      obtain ⟨hld, hlmax⟩ := lastOk_elim _ _ l hglold hlast
      refine lastOk_intro _ _ l ?_ hld ?_
      · rw [List.getLast?_append_of_ne_nil l1 (by simp), List.getLast?_cons_cons]
        exact hgl
      · intro x hx
        rcases List.mem_cons.mp hx with rfl | hx
        · refine le_of_lt (lt_of_lt_of_le hvr ?_)
          exact sorted_last_max _ l hsortmid
            (by rw [List.getLast?_cons_cons]; exact hgl) r (List.mem_cons_self r (z :: zs))
        · exact hlmax x hx

/-- Pushing an interior value whose follower cannot absorb it: a fresh
sample is inserted before the follower. -/
theorem stateOk_interior_nofit (ε : ℚ) (S : List T) (l1 : List (Sample T))
    (r : Sample T) (l2 : List (Sample T)) (v : T)
    (hε : 0 ≤ ε) (h : StateOk ε S (l1 ++ r :: l2)) (hl1 : l1 ≠ [])
    (hle : ∀ x ∈ l1, x.value ≤ v) (hgt : ∀ x ∈ r :: l2, v < x.value) :
    StateOk ε (v :: S)
      (l1 ++ { value := v, g := 1, delta := r.g + r.delta - 1 } :: r :: l2) := by
  obtain ⟨hiff, hsort, hsum, hok, hhead, hlast⟩ := h
  have hvr : v < r.value := hgt r (List.mem_cons_self r l2)
  have hcap : capOf ε S.length ≤ max 1 (capOf ε (S.length + 1)) :=
    le_trans (capOf_mono_len ε hε _ _ (by omega)) (le_max_right _ _)
  have hcapmax : max 1 (capOf ε S.length) ≤ max 1 (capOf ε (S.length + 1)) :=
    max_le_max (le_refl 1) (capOf_mono_len ε hε _ _ (by omega))
  obtain ⟨hokl1, hokmid⟩ := (SamplesOk_append S _ l1 (r :: l2) 0).mp hok
  have hprev : 0 + sumG l1 ≤ countLE S v :=
    SamplesOk_last_rank S _ v l1 0 hokl1 hle hl1
  have hokmid2 := hokmid
  simp only [SamplesOk] at hokmid2
  obtain ⟨hg1, hb1, hm1, hLE1, hLT1, -⟩ := hokmid2
  have hsortmid : List.Sorted sampleLE (r :: l2) :=
    List.Pairwise.sublist (List.sublist_append_right l1 (r :: l2)) hsort
  unfold StateOk
  refine ⟨by simp, ?_, ?_, ?_, ?_, ?_⟩
  · exact sorted_insert_middle l1 (r :: l2) _ hsort hle
      (fun b hb => le_of_lt (hgt b hb))
  · rw [sumG_append, sumG_cons] at hsum
    rw [sumG_append, sumG_cons, sumG_cons]
    simp only [List.length_cons]
    omega
  · rw [SamplesOk_append]
    refine ⟨SamplesOk_prefix_keep S _ _ v l1 0 hokl1 hle hcap, ?_⟩
    have htail := SamplesOk_suffix_shift S _ _ v (r :: l2) (0 + sumG l1) hokmid hgt hcap
    simp only [SamplesOk, List.length_cons]
    have hcLE : countLE (v :: S) v = countLE S v + 1 :=
      countLE_cons_le v v S (le_refl v)
    have hcLT : countLT (v :: S) v = countLT S v := countLT_cons_ge v v S (lt_irrefl v)
    have hcLTr : countLT S v ≤ countLT S r.value :=
      countLT_mono_value S v r.value (le_of_lt hvr)
    refine ⟨by omega, by omega, by simp, by omega, by omega, ?_⟩
    have heq : 0 + sumG l1 + 1 = 0 + sumG l1 + 1 := rfl
    exact htail
  · rcases l1 with - | ⟨h0, l1t⟩
    · exact absurd rfl hl1
    simp only [List.cons_append, headOk] at hhead ⊢
    obtain ⟨hg0, hd0, hmin⟩ := hhead
    refine ⟨hg0, hd0, ?_⟩
    intro x hx
    rcases List.mem_cons.mp hx with rfl | hx
    · exact hle h0 (by simp)
    · exact hmin x hx
  · obtain ⟨l, hgl⟩ := getLast?_some_of_ne_nil (r :: l2) (by simp)
    have hglold : (l1 ++ r :: l2).getLast? = some l := by
      rw [List.getLast?_append_of_ne_nil l1 (by simp)]
      exact hgl
    obtain ⟨hld, hlmax⟩ := lastOk_elim _ _ l hglold hlast
    refine lastOk_intro _ _ l ?_ hld ?_
    · rw [List.getLast?_append_of_ne_nil l1 (by simp), List.getLast?_cons_cons]
      exact hgl
    · intro x hx
      rcases List.mem_cons.mp hx with rfl | hx
      · exact le_of_lt (lt_of_lt_of_le hvr
          (sorted_last_max _ l hsortmid hgl r (List.mem_cons_self r l2)))
      · exact hlmax x hx

/-- `set` as a take/replace/drop decomposition. -/
theorem set_take_drop {α : Type} :
    ∀ (n : ℕ) (l : List α) (y : α), n < l.length →
      l.set n y = l.take n ++ y :: l.drop (n + 1)
  | 0, a :: l, y, _ => by simp
  | n + 1, a :: l, y, h => by
    simp only [List.set_cons_succ, List.take_succ_cons, List.drop_succ_cons, List.cons_append,
      List.cons.injEq, true_and]
    exact set_take_drop n l y (by simpa using h)

/-- `flatPush`, new-minimum branch on a one-sample sequence: a fresh exact
sample is prepended (the merge guard needs at least two samples). -/
theorem flatPush_min_single (mn : Sample T) (value : T) (cap : ℕ)
    (pr : Option (Sample T)) (hcpos : findPos [mn] value = 0) :
    flatPush [mn] value cap false pr = (Sample.exact value :: [mn], pr, true) := by
  simp only [flatPush, pushDecision, hcpos]
  rw [if_neg (by simp), if_pos (by simp)]
  simp [List.insertIdx]

/-- A single `SamplesTree`-level push (at the stream-list level) preserves
the full quantile-summary invariant, provided the new budget is computed
from the grown stream and ε ∈ (0, 1/2). -/
theorem listPush_StateOk (ε : ℚ) (S : List T) (xs : List (Sample T)) (v : T)
    (hε0 : 0 < ε) (hε2 : ε < 1 / 2) (h : StateOk ε S xs) :
    StateOk ε (v :: S) (listPush xs v (capOf ε (S.length + 1))) := by
  have hε : 0 ≤ ε := le_of_lt hε0
  rcases xs with - | ⟨x0, xs2⟩
  · obtain ⟨hiff, -, -, -, -, -⟩ := h
    have hS : S = [] := hiff.mp rfl
    subst hS
    simp only [listPush, flatPush_empty]
    exact stateOk_empty ε v
  have hsort : List.Sorted sampleLE (x0 :: xs2) := h.2.1
  by_cases hp0 : findPos (x0 :: xs2) v = 0
  · have hgt : ∀ x ∈ x0 :: xs2, v < x.value := by
      have hd := drop_findPos_gt (x0 :: xs2) v hsort
      rw [hp0, List.drop_zero] at hd
      exact hd
    rcases xs2 with - | ⟨am, rest⟩
    · simp only [listPush, flatPush_min_single x0 v _ none hp0]
      exact stateOk_prepend ε S [x0] v hε h (by simp) hgt
    · by_cases hfit : am.delta + am.g + 1 ≤ capOf ε (S.length + 1)
      · simp only [listPush, flatPush_min_fits x0 am rest v _ none hp0 hfit]
        exact stateOk_min_fits ε S x0 am rest v hε h
          (hgt x0 (List.mem_cons_self x0 (am :: rest))) hfit
      · simp only [listPush, flatPush_min_nofit x0 am rest v _ none hp0 hfit]
        exact stateOk_prepend ε S (x0 :: am :: rest) v hε h (by simp) hgt
  · have hple : findPos (x0 :: xs2) v ≤ (x0 :: xs2).length := List.findIdx_le_length _
    by_cases hpl : findPos (x0 :: xs2) v = (x0 :: xs2).length
    · have hle : ∀ x ∈ x0 :: xs2, x.value ≤ v := by
        have ht := take_findPos_le (x0 :: xs2) v
        rw [hpl, List.take_length] at ht
        exact ht
      obtain ⟨mx, hgl⟩ := getLast?_some_of_ne_nil (x0 :: xs2) (by simp)
      by_cases hfit : mx.g + 1 ≤ capOf ε (S.length + 1)
      · obtain ⟨ys, hys⟩ := List.getLast?_eq_some_iff.mp hgl
        have hys_ne : ys ≠ [] := by
          intro hy0
          rw [hy0] at hys
          simp only [List.nil_append] at hys
          injection hys with h1 h2
          obtain ⟨hiff, -, hsum, -, hhead, -⟩ := h
          rw [h2] at hsum
          simp only [headOk] at hhead
          obtain ⟨hg0, -, -⟩ := hhead
          have hS1 : S.length = 1 := by
            rw [sumG_cons] at hsum
            simp only [sumG, List.map_nil, List.sum_nil] at hsum
            omega
          rw [hS1] at hfit
          norm_num at hfit
          have hfl : ⌊(2 : ℚ) * ε * ((2 : ℕ) : ℚ)⌋ < 2 := by
            refine Int.floor_lt.mpr ?_
            push_cast
            linarith
          have hle2 : capOf ε 2 ≤ 1 := by
            unfold capOf
            omega
          rw [← h1, hg0] at hfit
          omega
        simp only [listPush, flatPush_max_fits (x0 :: xs2) mx v _ false (by simp) hpl hgl hfit]
        rw [hys, List.dropLast_concat]
        rw [hys] at h hle
        exact stateOk_max_fits ε S ys mx v hε h hys_ne hle hfit
      · simp only [listPush, flatPush_max_nofit (x0 :: xs2) mx v _ false (by simp) hpl hgl hfit]
        exact stateOk_append_exact ε S (x0 :: xs2) v hε h (by simp) hle
    · have hplt : findPos (x0 :: xs2) v < (x0 :: xs2).length := lt_of_le_of_ne hple hpl
      obtain ⟨r, hget⟩ : ∃ r, (x0 :: xs2).get? (findPos (x0 :: xs2) v) = some r :=
        ⟨_, List.get?_eq_get hplt⟩
      have hgetElem : (x0 :: xs2)[findPos (x0 :: xs2) v] = r := by
        rw [List.get?_eq_getElem?, List.getElem?_eq_getElem hplt] at hget
        exact (Option.some.injEq _ _).mp hget
      have hdrop : (x0 :: xs2).drop (findPos (x0 :: xs2) v) =
          r :: (x0 :: xs2).drop (findPos (x0 :: xs2) v + 1) := by
        rw [List.drop_eq_getElem_cons hplt, hgetElem]
      have hdec : x0 :: xs2 = (x0 :: xs2).take (findPos (x0 :: xs2) v) ++
          r :: (x0 :: xs2).drop (findPos (x0 :: xs2) v + 1) := by
        rw [← hdrop, List.take_append_drop]
      have h2 : StateOk ε S ((x0 :: xs2).take (findPos (x0 :: xs2) v) ++
          r :: (x0 :: xs2).drop (findPos (x0 :: xs2) v + 1)) := by
        rw [← hdec]
        exact h
      have hlen_take : ((x0 :: xs2).take (findPos (x0 :: xs2) v)).length =
          findPos (x0 :: xs2) v := by
        rw [List.length_take]
        omega
      have hl1ne : (x0 :: xs2).take (findPos (x0 :: xs2) v) ≠ [] := by
        intro h0
        rw [h0] at hlen_take
        simp at hlen_take
        exact hp0 hlen_take.symm
      have hle1 : ∀ x ∈ (x0 :: xs2).take (findPos (x0 :: xs2) v), x.value ≤ v :=
        take_findPos_le (x0 :: xs2) v
      have hgt2 : ∀ x ∈ r :: (x0 :: xs2).drop (findPos (x0 :: xs2) v + 1), v < x.value := by
        have hd := drop_findPos_gt (x0 :: xs2) v hsort
        rw [hdrop] at hd
        exact hd
      by_cases hfit : r.delta + r.g + 1 ≤ capOf ε (S.length + 1)
      · simp only [listPush, flatPush_interior_fits (x0 :: xs2) r v _ false none
          (by intro hc; exact hp0 hc.1) hget hfit]
        rw [set_take_drop _ _ _ hplt]
        exact stateOk_interior_fits ε S _ r _ v hε h2 hl1ne hle1 hgt2 hfit
      · simp only [listPush, flatPush_interior_nofit (x0 :: xs2) r v _ false none
          (by intro hc; exact hp0 hc.1) hget hfit]
        rw [insertIdx_take_drop _ _ _ hple, hdrop]
        exact stateOk_interior_nofit ε S _ r _ v hε h2 hl1ne hle1 hgt2

/-- head? of an append with a nonempty prefix. -/
theorem head?_append_ne_nil {α : Type} (l1 l2 : List α) (h : l1 ≠ []) :
    (l1 ++ l2).head? = l1.head? := by
  rcases l1 with - | ⟨a, l⟩
  · exact absurd rfl h
  · simp

/-- One compressor push preserves the flattened compressor invariant. -/
theorem compressStateInv_step (S : List T) (cap budget : ℕ) (hb : budget ≤ max 1 cap)
    (done : List (Sample T)) (st : List (Sample T) × Option (Sample T)) (s : Sample T)
    (hinv : CompressStateInv S cap done st)
    (hsge : ∀ x ∈ done, x.value ≤ s.value)
    (hg : 1 ≤ s.g) (hbound : s.g + s.delta ≤ max 1 cap)
    (hmem : s.value ∈ S)
    (hLE : sumG done + s.g ≤ countLE S s.value)
    (hLT : countLT S s.value < sumG done + s.g + s.delta) :
    CompressStateInv S cap (done ++ [s]) (compressPushFlat budget st s) := by
  obtain ⟨c, ob⟩ := st
  obtain ⟨iA, iB, iC, iD, iE, iF, iG, iH⟩ := hinv
  have hnilG : sumG ([] : List (Sample T)) = 0 := rfl
  have hvalle : ∀ y ∈ c ++ ob.toList, y.value ≤ s.value := by
    intro y hy
    obtain ⟨x, hx, hxy⟩ := iH y hy
    rw [hxy]
    exact hsge x hx
  cases ob with
  | none =>
    have hc : c = done := iE rfl
    rw [← hc] at hsge hLE hLT ⊢
    simp only [Option.toList_none, List.append_nil] at iA iB iC iD iH hvalle
    by_cases hlen : c.length = 0
    · have hcnil : c = [] := List.length_eq_zero.mp hlen
      subst hcnil
      have hstep : compressPushFlat budget (([] : List (Sample T)), none) s =
          ([s], none) := by
        simp [compressPushFlat]
      rw [hstep]
      rw [hnilG] at hLE hLT
      refine ⟨?_, ?_, ?_, ?_, fun _ => by simp, ?_, ?_, ?_⟩
      · simp only [Option.toList_none, List.append_nil, List.nil_append]
      · simp [Option.toList_none]
      · simp only [Option.toList_none, List.append_nil, SamplesOk]
        exact ⟨hg, hbound, hmem, by omega, by omega, trivial⟩
      · simp
      · intro t ht
        exact Option.noConfusion ht
      · intro t ht
        exact Option.noConfusion ht
      · intro y hy
        simp only [Option.toList_none, List.append_nil, List.mem_singleton] at hy
        exact ⟨s, by simp, by rw [hy]⟩
    · have hstep : compressPushFlat budget (c, (none : Option (Sample T))) s =
          (c, some s) := by
        simp [compressPushFlat, hlen]
      rw [hstep]
      have hcne : c ≠ [] := fun h0 => hlen (by rw [h0]; rfl)
      refine ⟨?_, ?_, ?_, ?_, ?_, ?_, ?_, ?_⟩
      · simp only [Option.toList_some]
      · exact sorted_insert_middle c [] s (by simpa using iB) hvalle (by simp)
      · simp only [Option.toList_some]
        rw [SamplesOk_append]
        refine ⟨iC, ?_⟩
        simp only [SamplesOk]
        exact ⟨hg, hbound, hmem, by omega, by omega, trivial⟩
      · simp only [Option.toList_some]
      · intro h0
        exact Option.noConfusion h0
      · intro u hu
        injection hu with hu
        subst hu
        exact ⟨s, List.getLast?_concat c, rfl, rfl⟩
      · intro u hu
        exact hcne
      · intro y hy
        simp only [Option.toList_some] at hy
        exact ⟨y, hy, rfl⟩
  | some t =>
    have hcne : c ≠ [] := iG t rfl
    obtain ⟨l, hl, htv, htd⟩ := iF t rfl
    have hdone_ne : done ≠ [] := by
      intro h0
      rw [h0] at hl
      exact Option.noConfusion hl
    simp only [Option.toList_some] at iA iB iC iD iH hvalle
    rw [sumG_append, sumG_cons, hnilG] at iA
    obtain ⟨iCc, iCt⟩ := (SamplesOk_append S cap c [t] 0).mp iC
    have hsortc : List.Sorted sampleLE c :=
      List.Pairwise.sublist (List.sublist_append_left c [t]) iB
    have hvc : ∀ y ∈ c, y.value ≤ s.value := fun y hy =>
      hvalle y (List.mem_append_left [t] hy)
    by_cases hfit : t.g + s.g + s.delta ≤ budget
    · have hstep : compressPushFlat budget (c, some t) s =
          (c, some { s with g := s.g + t.g }) := by
        simp [compressPushFlat, hfit]
      rw [hstep]
      refine ⟨?_, ?_, ?_, ?_, ?_, ?_, ?_, ?_⟩
      · simp only [Option.toList_some, sumG_append, sumG_cons, hnilG]
        omega
      · simp only [Option.toList_some]
        exact sorted_insert_middle c [] _ (by simpa using hsortc) hvc (by simp)
      · simp only [Option.toList_some]
        rw [SamplesOk_append]
        refine ⟨iCc, ?_⟩
        simp only [SamplesOk]
        have hbd : t.g + s.g + s.delta ≤ max 1 cap := le_trans hfit hb
        exact ⟨by omega, by omega, hmem, by omega, by omega, trivial⟩
      · simp only [Option.toList_some]
        rw [head?_append_ne_nil c _ hcne]
        rw [head?_append_ne_nil done [s] hdone_ne]
        rw [head?_append_ne_nil c [t] hcne] at iD
        exact iD
      · intro h0
        exact Option.noConfusion h0
      · intro u hu
        injection hu with hu
        subst hu
        exact ⟨s, List.getLast?_concat done, rfl, rfl⟩
      · intro u hu
        exact hcne
      · intro y hy
        simp only [Option.toList_some] at hy
        rcases List.mem_append.mp hy with hy | hy
        · obtain ⟨x, hx, hxy⟩ := iH y (List.mem_append_left [t] hy)
          exact ⟨x, List.mem_append_left [s] hx, hxy⟩
        · simp only [List.mem_singleton] at hy
          refine ⟨s, by simp, ?_⟩
          rw [hy]
    · have hstep : compressPushFlat budget (c, some t) s =
          (c ++ [t], some s) := by
        simp [compressPushFlat, hfit]
      rw [hstep]
      have hctne : c ++ [t] ≠ [] := by simp
      refine ⟨?_, ?_, ?_, ?_, ?_, ?_, ?_, ?_⟩
      · simp only [Option.toList_some, sumG_append, sumG_cons, hnilG]
        omega
      · simp only [Option.toList_some]
        refine sorted_insert_middle (c ++ [t]) [] s (by simpa using iB) ?_ (by simp)
        intro y hy
        exact hvalle y hy
      · simp only [Option.toList_some]
        rw [SamplesOk_append]
        refine ⟨iC, ?_⟩
        simp only [SamplesOk]
        have hsum2 : sumG (c ++ [t]) = sumG done := by
          rw [sumG_append, sumG_cons, hnilG]
          omega
        refine ⟨hg, hbound, hmem, by omega, by omega, trivial⟩
      · simp only [Option.toList_some]
        rw [head?_append_ne_nil _ [s] hctne]
        rw [head?_append_ne_nil done [s] hdone_ne]
        exact iD
      · intro h0
        exact Option.noConfusion h0
      · intro u hu
        injection hu with hu
        subst hu
        exact ⟨s, List.getLast?_concat done, rfl, rfl⟩
      · intro u hu
        exact hctne
      · intro y hy
        simp only [Option.toList_some] at hy
        rcases List.mem_append.mp hy with hy | hy
        · obtain ⟨x, hx, hxy⟩ := iH y hy
          exact ⟨x, List.mem_append_left [s] hx, hxy⟩
        · simp only [List.mem_singleton] at hy
          refine ⟨s, by simp, ?_⟩
          rw [hy]

/-- Folding the compressor over the rest of a sorted, rank-correct sequence
preserves the flattened compressor invariant. -/
theorem compressStateInv_fold (S : List T) (cap budget : ℕ) (hb : budget ≤ max 1 cap) :
    ∀ (todo done : List (Sample T)) (st : List (Sample T) × Option (Sample T)),
      CompressStateInv S cap done st →
      List.Sorted sampleLE (done ++ todo) →
      SamplesOk S cap 0 (done ++ todo) →
      CompressStateInv S cap (done ++ todo)
        (todo.foldl (compressPushFlat budget) st)
  | [], done, st, hinv, _, _ => by simpa using hinv
  | s :: todo, done, st, hinv, hsort, hok => by
    have hsge : ∀ x ∈ done, x.value ≤ s.value := fun x hx =>
      (List.pairwise_append.mp hsort).2.2 x hx s (List.mem_cons_self s todo)
    obtain ⟨hokdone, hoks⟩ := (SamplesOk_append S cap done (s :: todo) 0).mp hok
    simp only [SamplesOk] at hoks
    obtain ⟨hg, hbd, hmem, hLE, hLT, hokrest⟩ := hoks
    have hinv2 := compressStateInv_step S cap budget hb done st s hinv hsge hg hbd hmem
      (by omega) (by omega)
    have hsort2 : List.Sorted sampleLE ((done ++ [s]) ++ todo) := by
      rw [List.append_assoc, List.singleton_append]
      exact hsort
    have hok2 : SamplesOk S cap 0 ((done ++ [s]) ++ todo) := by
      rw [List.append_assoc, List.singleton_append]
      exact hok
    have hres := compressStateInv_fold S cap budget hb todo (done ++ [s])
      (compressPushFlat budget st s) hinv2 hsort2 hok2
    rw [List.foldl_cons]
    rw [show done ++ s :: todo = (done ++ [s]) ++ todo from by
      rw [List.append_assoc, List.singleton_append]]
    exact hres

/-- Running the flattened compressor over a sample sequence preserves the
full quantile-summary invariant, for any budget within the sample bound. -/
theorem compressFlat_StateOk (ε : ℚ) (S : List T) (xs : List (Sample T)) (budget : ℕ)
    (h : StateOk ε S xs) (hb : budget ≤ max 1 (capOf ε S.length)) :
    StateOk ε S (compressFlat budget xs) := by
  obtain ⟨hiff, hsort, hsum, hok, hhead, hlast⟩ := h
  have hinv0 : CompressStateInv S (capOf ε S.length) [] ([], none) := by
    refine ⟨rfl, by simp, trivial, rfl, fun _ => rfl, ?_, ?_, by simp⟩
    · intro t ht
      exact Option.noConfusion ht
    · intro t ht
      exact Option.noConfusion ht
  have hres := compressStateInv_fold S (capOf ε S.length) budget hb xs [] ([], none)
    hinv0 (by simpa using hsort) (by simpa using hok)
  simp only [List.nil_append] at hres
  obtain ⟨iA, iB, iC, iD, iE, iF, iG, iH⟩ := hres
  show StateOk ε S _
  simp only [compressFlat]
  refine ⟨?_, iB, by rw [iA, hsum], iC, ?_, ?_⟩
  · constructor
    · intro h0
      apply hiff.mp
      rw [h0] at iD
      exact List.head?_eq_none_iff.mp iD.symm
    · intro hS0
      have hxs : xs = [] := hiff.mpr hS0
      rw [hxs]
      rfl
  · cases hR : (xs.foldl (compressPushFlat budget) ([], none)).1 ++
        (xs.foldl (compressPushFlat budget) ([], none)).2.toList with
    | nil => trivial
    | cons h0 rest =>
      rw [hR] at iD
      cases xs with
      | nil => exact Option.noConfusion iD
      | cons x0 xst =>
        simp only [List.head?_cons, Option.some.injEq] at iD
        simp only [headOk] at hhead ⊢
        rw [iD]
        exact hhead
  · cases hob : (xs.foldl (compressPushFlat budget) ([], none)).2 with
    | none =>
      rw [iE hob]
      simp only [Option.toList_none, List.append_nil]
      exact hlast
    | some t =>
      obtain ⟨l, hgl, htv, htd⟩ := iF t hob
      obtain ⟨hld, hlmax⟩ := lastOk_elim _ _ l hgl hlast
      refine lastOk_intro _ _ t ?_ ?_ ?_
      · simp only [Option.toList_some]
        exact List.getLast?_concat _
      · rw [htd]
        exact hld
      · intro x hx
        rw [htv]
        exact hlmax x hx

/-- `countLE` over a concatenated stream. -/
theorem countLE_append (S1 S2 : List T) (v : T) :
    countLE (S1 ++ S2) v = countLE S1 v + countLE S2 v := by
  simp [countLE, List.filter_append]

/-- `countLT` over a concatenated stream. -/
theorem countLT_append (S1 S2 : List T) (v : T) :
    countLT (S1 ++ S2) v = countLT S1 v + countLT S2 v := by
  simp [countLT, List.filter_append]

/-- getLast? skips a cons when the tail is nonempty. -/
theorem getLast?_cons_ne_nil {α : Type} (x : α) (l : List α) (h : l ≠ []) :
    (x :: l).getLast? = l.getLast? := by
  rcases l with - | ⟨a, l⟩
  · exact absurd rfl h
  · exact List.getLast?_cons_cons

/-- getLast? of a cons agrees with a known last of the tail. -/
theorem getLast?_cons_of_some {α : Type} (x a : α) (l : List α)
    (h : l.getLast? = some a) : (x :: l).getLast? = some a := by
  rcases l with - | ⟨y, l⟩
  · exact Option.noConfusion h
  · rw [List.getLast?_cons_cons]
    exact h

/-- The merged stream of two sample runs is empty only when both are. -/
theorem mergedSamples_ne_nil :
    ∀ (as : List (Sample T)) (sa : Bool) (bs : List (Sample T)) (sb : Bool),
      (as ≠ [] ∨ bs ≠ []) → mergedSamples as sa bs sb ≠ []
  | [], _, bs, _ => by
    intro h
    rcases h with h | h
    · exact absurd rfl h
    · simpa [mergedSamples] using h
  | a :: as, sa, [], sb => by
    intro _
    simp [mergedSamples]
  | a :: as, sa, b :: bs, sb => by
    intro _
    rw [mergedSamples]
    split
    · simp
    · simp

/-- Every merged sample takes its value from one of the inputs. -/
theorem mergedSamples_mem :
    ∀ (as : List (Sample T)) (sa : Bool) (bs : List (Sample T)) (sb : Bool),
      ∀ y ∈ mergedSamples as sa bs sb, ∃ x, (x ∈ as ∨ x ∈ bs) ∧ y.value = x.value
  | [], _, bs, _ => by
    intro y hy
    rw [mergedSamples] at hy
    exact ⟨y, Or.inr hy, rfl⟩
  | a :: as, sa, [], sb => by
    intro y hy
    simp only [mergedSamples] at hy
    exact ⟨y, Or.inl hy, rfl⟩
  | a :: as, sa, b :: bs, sb => by
    intro y hy
    rw [mergedSamples] at hy
    split at hy
    · rcases List.mem_cons.mp hy with rfl | hy
      · exact ⟨a, Or.inl (List.mem_cons_self a as), rfl⟩
      · obtain ⟨x, hx, hxy⟩ := mergedSamples_mem as true (b :: bs) sb y hy
        rcases hx with hx | hx
        · exact ⟨x, Or.inl (List.mem_cons_of_mem a hx), hxy⟩
        · exact ⟨x, Or.inr hx, hxy⟩
    · rcases List.mem_cons.mp hy with rfl | hy
      · exact ⟨b, Or.inr (List.mem_cons_self b bs), rfl⟩
      · obtain ⟨x, hx, hxy⟩ := mergedSamples_mem (a :: as) sa bs true y hy
        rcases hx with hx | hx
        · exact ⟨x, Or.inl hx, hxy⟩
        · exact ⟨x, Or.inr (List.mem_cons_of_mem b hx), hxy⟩
  termination_by as _ bs _ => as.length + bs.length

/-- Every input value appears among the merged samples. -/
theorem mergedSamples_mem2 :
    ∀ (as : List (Sample T)) (sa : Bool) (bs : List (Sample T)) (sb : Bool)
      (x : Sample T), (x ∈ as ∨ x ∈ bs) →
      ∃ y ∈ mergedSamples as sa bs sb, y.value = x.value
  | [], _, bs, _ => by
    intro x hx
    rw [mergedSamples]
    rcases hx with hx | hx
    · exact absurd hx (List.not_mem_nil x)
    · exact ⟨x, hx, rfl⟩
  | a :: as, sa, [], sb => by
    intro x hx
    simp only [mergedSamples]
    rcases hx with hx | hx
    · exact ⟨x, hx, rfl⟩
    · exact absurd hx (List.not_mem_nil x)
  | a :: as, sa, b :: bs, sb => by
    intro x hx
    rw [mergedSamples]
    split
    · rcases hx with hx | hx
      · rcases List.mem_cons.mp hx with rfl | hx
        · exact ⟨_, List.mem_cons_self _ _, rfl⟩
        · obtain ⟨y, hy, hxy⟩ := mergedSamples_mem2 as true (b :: bs) sb x (Or.inl hx)
          exact ⟨y, List.mem_cons_of_mem _ hy, hxy⟩
      · obtain ⟨y, hy, hxy⟩ := mergedSamples_mem2 as true (b :: bs) sb x (Or.inr hx)
        exact ⟨y, List.mem_cons_of_mem _ hy, hxy⟩
    · rcases hx with hx | hx
      · obtain ⟨y, hy, hxy⟩ := mergedSamples_mem2 (a :: as) sa bs true x (Or.inl hx)
        exact ⟨y, List.mem_cons_of_mem _ hy, hxy⟩
      · rcases List.mem_cons.mp hx with rfl | hx
        · exact ⟨_, List.mem_cons_self _ _, rfl⟩
        · obtain ⟨y, hy, hxy⟩ := mergedSamples_mem2 (a :: as) sa bs true x (Or.inr hx)
          exact ⟨y, List.mem_cons_of_mem _ hy, hxy⟩
  termination_by as _ bs _ => as.length + bs.length

/-- Merging two sorted sample runs yields a sorted run. -/
theorem mergedSamples_sorted :
    ∀ (as : List (Sample T)) (sa : Bool) (bs : List (Sample T)) (sb : Bool),
      List.Sorted sampleLE as → List.Sorted sampleLE bs →
      List.Sorted sampleLE (mergedSamples as sa bs sb)
  | [], _, bs, _ => by
    intro _ hb
    rw [mergedSamples]
    exact hb
  | a :: as, sa, [], sb => by
    intro ha _
    simp only [mergedSamples]
    exact ha
  | a :: as, sa, b :: bs, sb => by
    intro ha hb
    obtain ⟨hamin, ha2⟩ := List.sorted_cons.mp ha
    obtain ⟨hbmin, hb2⟩ := List.sorted_cons.mp hb
    rw [mergedSamples]
    split
    · rename_i hab
      refine List.sorted_cons.mpr ⟨?_, mergedSamples_sorted as true (b :: bs) sb ha2 hb⟩
      intro y hy
      obtain ⟨x, hx, hxy⟩ := mergedSamples_mem as true (b :: bs) sb y hy
      show _ ≤ y.value
      rw [hxy]
      rcases hx with hx | hx
      · exact hamin x hx
      · rcases List.mem_cons.mp hx with rfl | hx
        · exact le_of_lt hab
        · exact le_trans (le_of_lt hab) (hbmin x hx)
    · rename_i hab
      have hba : b.value ≤ a.value := not_lt.mp hab
      refine List.sorted_cons.mpr ⟨?_, mergedSamples_sorted (a :: as) sa bs true ha hb2⟩
      intro y hy
      obtain ⟨x, hx, hxy⟩ := mergedSamples_mem (a :: as) sa bs true y hy
      show _ ≤ y.value
      rw [hxy]
      rcases hx with hx | hx
      · rcases List.mem_cons.mp hx with rfl | hx
        · exact hba
        · exact le_trans hba (hamin x hx)
      · exact hbmin x hx
  termination_by as _ bs _ => as.length + bs.length

/-- The last merged sample is the unmodified last sample of one input. -/
theorem mergedSamples_last :
    ∀ (as : List (Sample T)) (sa : Bool) (bs : List (Sample T)) (sb : Bool)
      (l : Sample T), (mergedSamples as sa bs sb).getLast? = some l →
      as.getLast? = some l ∨ bs.getLast? = some l
  | [], _, bs, _ => by
    intro l hl
    rw [mergedSamples] at hl
    exact Or.inr hl
  | a :: as, sa, [], sb => by
    intro l hl
    simp only [mergedSamples] at hl
    exact Or.inl hl
  | a :: as, sa, b :: bs, sb => by
    intro l hl
    rw [mergedSamples] at hl
    split at hl
    · have hne : mergedSamples as true (b :: bs) sb ≠ [] :=
        mergedSamples_ne_nil as true (b :: bs) sb (Or.inr (by simp))
      rw [getLast?_cons_ne_nil _ _ hne] at hl
      rcases mergedSamples_last as true (b :: bs) sb l hl with h | h
      · exact Or.inl (getLast?_cons_of_some a l as h)
      · exact Or.inr h
    · have hne : mergedSamples (a :: as) sa bs true ≠ [] :=
        mergedSamples_ne_nil (a :: as) sa bs true (Or.inl (by simp))
      rw [getLast?_cons_ne_nil _ _ hne] at hl
      rcases mergedSamples_last (a :: as) sa bs true l hl with h | h
      · exact Or.inl h
      · exact Or.inr (getLast?_cons_of_some b l bs h)
  termination_by as _ bs _ => as.length + bs.length

/-- The merged sequence of two rank-correct sample runs is rank-correct
against the concatenated stream: ranks add up, and the delta inflation of
`aditional_delta` absorbs the rank uncertainty of the other summary. -/
theorem mergedSamples_SamplesOk (SA SB : List T) (capA capB cap2 : ℕ)
    (hcapA : capA ≤ cap2) (hcapB : capB ≤ cap2) (hcapsum : capA + capB ≤ cap2) :
    ∀ (as bs : List (Sample T)) (sa sb : Bool) (r0A r0B : ℕ),
      SamplesOk SA capA r0A as →
      SamplesOk SB capB r0B bs →
      List.Sorted sampleLE as → List.Sorted sampleLE bs →
      (∀ a ∈ as, r0B ≤ countLE SB a.value) →
      (∀ b ∈ bs, r0A ≤ countLE SA b.value) →
      r0A + sumG as = SA.length →
      r0B + sumG bs = SB.length →
      (sa = false → r0A = 0 ∧ headOk as SA) →
      (sb = false → r0B = 0 ∧ headOk bs SB) →
      SamplesOk (SB ++ SA) cap2 (r0A + r0B) (mergedSamples as sa bs sb)
  | [], bs, sa, sb, r0A, r0B => by
    intro hoka hokb hsa hsb hcrossA hcrossB hsumA hsumB hA0 hB0
    rw [mergedSamples]
    have hr0A : r0A = SA.length := by
      simp only [sumG, List.map_nil, List.sum_nil] at hsumA
      omega
    have hres := SamplesOk_shift SB (SB ++ SA) capB cap2 bs r0B r0A hokb
      (fun b hb => List.mem_append_left SA (SamplesOk_values SB capB bs r0B hokb b hb))
      (fun b hb => by
        rw [countLE_append]
        have h1 := hcrossB b hb
        omega)
      (fun b hb => by
        rw [countLT_append]
        have h1 : countLT SA b.value ≤ SA.length := countLT_le_length SA b.value
        omega)
      (le_trans hcapB (le_max_right 1 cap2))
    rw [Nat.add_comm r0A r0B]
    exact hres
  | a :: as, [], sa, sb, r0A, r0B => by
    intro hoka hokb hsa hsb hcrossA hcrossB hsumA hsumB hA0 hB0
    simp only [mergedSamples]
    have hr0B : r0B = SB.length := by
      simp only [sumG, List.map_nil, List.sum_nil] at hsumB
      omega
    exact SamplesOk_shift SA (SB ++ SA) capA cap2 (a :: as) r0A r0B hoka
      (fun x hx => List.mem_append_right SB
        (SamplesOk_values SA capA (a :: as) r0A hoka x hx))
      (fun x hx => by
        rw [countLE_append]
        have h1 := hcrossA x hx
        omega)
      (fun x hx => by
        rw [countLT_append]
        have h1 : countLT SB x.value ≤ SB.length := countLT_le_length SB x.value
        omega)
      (le_trans hcapA (le_max_right 1 cap2))
  | a :: as, b :: bs, sa, sb, r0A, r0B => by
    intro hoka hokb hsa hsb hcrossA hcrossB hsumA hsumB hA0 hB0
    have hoka0 := hoka
    have hokb0 := hokb
    simp only [SamplesOk] at hoka hokb
    obtain ⟨hga, hbda, hmema, hLEa, hLTa, hoka2⟩ := hoka
    obtain ⟨hgb, hbdb, hmemb, hLEb, hLTb, hokb2⟩ := hokb
    obtain ⟨hamin, ha2⟩ := List.sorted_cons.mp hsa
    obtain ⟨hbmin, hb2⟩ := List.sorted_cons.mp hsb
    rw [mergedSamples]
    split
    · rename_i hab
      simp only [SamplesOk]
      refine ⟨hga, ?_, List.mem_append.mpr (Or.inr hmema), ?_, ?_, ?_⟩
      · cases sb with
        | false =>
          simp
          omega
        | true =>
          simp
          omega
      · rw [countLE_append]
        have h1 := hcrossA a (List.mem_cons_self a as)
        omega
      · rw [countLT_append]
        cases sb with
        | false =>
          obtain ⟨hr0B, hheadB⟩ := hB0 rfl
          simp only [headOk] at hheadB
          obtain ⟨-, -, hbminS⟩ := hheadB
          have h0 : countLT SB a.value = 0 :=
            countLT_eq_zero SB a.value
              (fun x hx => le_of_lt (lt_of_lt_of_le hab (hbminS x hx)))
          simp
          omega
        | true =>
          have h1 : countLT SB a.value ≤ countLT SB b.value :=
            countLT_mono_value SB a.value b.value (le_of_lt hab)
          simp
          omega
      · have hIH := mergedSamples_SamplesOk SA SB capA capB cap2 hcapA hcapB hcapsum
          as (b :: bs) true sb (r0A + a.g) r0B hoka2 hokb0 ha2 hsb
          (fun x hx => hcrossA x (List.mem_cons_of_mem a hx))
          (fun x hx => by
            have h2 : a.value ≤ x.value := by
              rcases List.mem_cons.mp hx with rfl | hx2
              · exact le_of_lt hab
              · exact le_trans (le_of_lt hab) (hbmin x hx2)
            have h3 := countLE_mono_value SA a.value x.value h2
            omega)
          (by rw [sumG_cons] at hsumA; omega)
          hsumB
          (fun h => Bool.noConfusion h)
          hB0
        rw [show r0A + r0B + a.g = r0A + a.g + r0B from by omega]
        exact hIH
    · rename_i hab
      have hba : b.value ≤ a.value := not_lt.mp hab
      simp only [SamplesOk]
      refine ⟨hgb, ?_, List.mem_append.mpr (Or.inl hmemb), ?_, ?_, ?_⟩
      · cases sa with
        | false =>
          simp
          omega
        | true =>
          simp
          omega
      · rw [countLE_append]
        have h1 := hcrossB b (List.mem_cons_self b bs)
        omega
      · rw [countLT_append]
        cases sa with
        | false =>
          obtain ⟨hr0A, hheadA⟩ := hA0 rfl
          simp only [headOk] at hheadA
          obtain ⟨-, -, haminS⟩ := hheadA
          have h0 : countLT SA b.value = 0 :=
            countLT_eq_zero SA b.value (fun x hx => le_trans hba (haminS x hx))
          simp
          omega
        | true =>
          have h1 : countLT SA b.value ≤ countLT SA a.value :=
            countLT_mono_value SA b.value a.value hba
          simp
          omega
      · have hIH := mergedSamples_SamplesOk SA SB capA capB cap2 hcapA hcapB hcapsum
          (a :: as) bs sa true r0A (r0B + b.g) hoka0 hokb2 hsa hb2
          (fun x hx => by
            have h2 : b.value ≤ x.value := by
              rcases List.mem_cons.mp hx with rfl | hx2
              · exact hba
              · exact le_trans hba (hamin x hx2)
            have h3 := countLE_mono_value SB b.value x.value h2
            omega)
          (fun x hx => hcrossB x (List.mem_cons_of_mem b hx))
          hsumA
          (by rw [sumG_cons] at hsumB; omega)
          hA0
          (fun h => Bool.noConfusion h)
        rw [show r0A + r0B + b.g = r0A + (r0B + b.g) from by omega]
        exact hIH
  termination_by as bs _ _ _ _ => as.length + bs.length

/-- Merging two full summary states yields a full summary state for the
concatenated stream under the larger (self) tolerance. -/
theorem mergedSamples_StateOk (εA εB : ℚ) (SA SB : List T)
    (as bs : List (Sample T))
    (hεA : 0 ≤ εA) (hεB : 0 ≤ εB) (hεBA : εB ≤ εA)
    (hA : StateOk εA SA as) (hB : StateOk εB SB bs) :
    StateOk εA (SB ++ SA) (mergedSamples as false bs false) := by
  obtain ⟨hiffA, hsortA, hsumA, hokA, hheadA, hlastA⟩ := hA
  obtain ⟨hiffB, hsortB, hsumB, hokB, hheadB, hlastB⟩ := hB
  have hcapA : capOf εA SA.length ≤ capOf εA (SB ++ SA).length := by
    rw [List.length_append]
    exact capOf_mono_len εA hεA _ _ (by omega)
  have hcapB : capOf εB SB.length ≤ capOf εA (SB ++ SA).length := by
    rw [List.length_append]
    exact le_trans (capOf_mono_eps εB εA hεBA hεB _) (capOf_mono_len εA hεA _ _ (by omega))
  have hcapsum : capOf εA SA.length + capOf εB SB.length ≤
      capOf εA (SB ++ SA).length := by
    rw [List.length_append]
    have h1 := capOf_superadd εA hεA SB.length SA.length
    have h2 := capOf_mono_eps εB εA hεBA hεB SB.length
    omega
  refine ⟨?_, mergedSamples_sorted as false bs false hsortA hsortB, ?_, ?_, ?_, ?_⟩
  · constructor
    · intro h0
      by_cases has : as = []
      · by_cases hbs : bs = []
        · rw [hiffB.mp hbs, hiffA.mp has]
          rfl
        · exact absurd h0 (mergedSamples_ne_nil as false bs false (Or.inr hbs))
      · exact absurd h0 (mergedSamples_ne_nil as false bs false (Or.inl has))
    · intro h0
      obtain ⟨hSB, hSA⟩ := List.append_eq_nil.mp h0
      rw [hiffA.mpr hSA, hiffB.mpr hSB]
      rw [mergedSamples]
  · rw [mergedSamples_sumG as false bs false, List.length_append, hsumA, hsumB]
    omega
  · have hres := mergedSamples_SamplesOk SA SB (capOf εA SA.length) (capOf εB SB.length)
      (capOf εA (SB ++ SA).length) hcapA hcapB hcapsum as bs false false 0 0
      hokA hokB hsortA hsortB
      (fun a ha => Nat.zero_le _)
      (fun b hb => Nat.zero_le _)
      (by omega)
      (by omega)
      (fun _ => ⟨rfl, hheadA⟩)
      (fun _ => ⟨rfl, hheadB⟩)
    exact hres
  · rcases as with - | ⟨a, as2⟩
    · rw [mergedSamples]
      have hSA : SA = [] := hiffA.mp rfl
      rw [hSA, List.append_nil]
      exact hheadB
    · rcases bs with - | ⟨b, bs2⟩
      · simp only [mergedSamples]
        have hSB : SB = [] := hiffB.mp rfl
        rw [hSB, List.nil_append]
        exact hheadA
      · rw [mergedSamples]
        split
        · rename_i hab
          simp only [headOk] at hheadA hheadB ⊢
          obtain ⟨hg1, hd1, hmin1⟩ := hheadA
          obtain ⟨-, -, hmin2⟩ := hheadB
          refine ⟨hg1, ?_, ?_⟩
          · simp [hd1]
          · intro x hx
            rcases List.mem_append.mp hx with hx | hx
            · exact le_of_lt (lt_of_lt_of_le hab (hmin2 x hx))
            · exact hmin1 x hx
        · rename_i hab
          have hba : b.value ≤ a.value := not_lt.mp hab
          simp only [headOk] at hheadA hheadB ⊢
          obtain ⟨-, -, hmin1⟩ := hheadA
          obtain ⟨hg2, hd2, hmin2⟩ := hheadB
          refine ⟨hg2, ?_, ?_⟩
          · simp [hd2]
          · intro x hx
            rcases List.mem_append.mp hx with hx | hx
            · exact hmin2 x hx
            · exact le_trans hba (hmin1 x hx)
  · by_cases hmer : mergedSamples as false bs false = []
    · rw [hmer]
      simp [lastOk]
    · obtain ⟨l, hgl⟩ := getLast?_some_of_ne_nil _ hmer
      have hsortM := mergedSamples_sorted as false bs false hsortA hsortB
      rcases mergedSamples_last as false bs false l hgl with hla | hlb
      · obtain ⟨hld, hlmax⟩ := lastOk_elim as SA l hla hlastA
        refine lastOk_intro _ _ l hgl hld ?_
        intro x hx
        rcases List.mem_append.mp hx with hx | hx
        · have hbs : bs ≠ [] := fun h0 => by
            rw [hiffB.mp h0] at hx
            exact absurd hx (List.not_mem_nil x)
          obtain ⟨lb, hglb⟩ := getLast?_some_of_ne_nil bs hbs
          obtain ⟨-, hlbmax⟩ := lastOk_elim bs SB lb hglb hlastB
          have hlbmem : lb ∈ bs := by
            obtain ⟨ys, hys⟩ := List.getLast?_eq_some_iff.mp hglb
            rw [hys]
            simp
          obtain ⟨y, hy, hyv⟩ := mergedSamples_mem2 as false bs false lb (Or.inr hlbmem)
          have h2 : y.value ≤ l.value := sorted_last_max _ l hsortM hgl y hy
          refine le_trans (hlbmax x hx) ?_
          rw [← hyv]
          exact h2
        · exact hlmax x hx
      · obtain ⟨hld, hlmax⟩ := lastOk_elim bs SB l hlb hlastB
        refine lastOk_intro _ _ l hgl hld ?_
        intro x hx
        rcases List.mem_append.mp hx with hx | hx
        · exact hlmax x hx
        · have has : as ≠ [] := fun h0 => by
            rw [hiffA.mp h0] at hx
            exact absurd hx (List.not_mem_nil x)
          obtain ⟨la, hgla⟩ := getLast?_some_of_ne_nil as has
          obtain ⟨-, hlamax⟩ := lastOk_elim as SA la hgla hlastA
          have hlamem : la ∈ as := by
            obtain ⟨ys, hys⟩ := List.getLast?_eq_some_iff.mp hgla
            rw [hys]
            simp
          obtain ⟨y, hy, hyv⟩ := mergedSamples_mem2 as false bs false la (Or.inl hlamem)
          have h2 : y.value ≤ l.value := sorted_last_max _ l hsortM hgl y hy
          refine le_trans (hlamax x hx) ?_
          rw [← hyv]
          exact h2

/-- Master invariant: every reachable summary carries a well-formed tree
whose flattened samples satisfy the full quantile-summary invariant for the
represented stream, with the stored tolerance and length fields exact. -/
theorem Reach_StateOk (ε : ℚ) (s : Summary T) (S : List T) (h : Reach ε s S) :
    0 < ε ∧ ε < 1 / 2 ∧ s.maxExpectedError = ε ∧ s.len = S.length ∧
    structOK s.samplesTree.root ∧ StateOk ε S s.samplesTree.samples := by
  induction h with
  | new ε h0 h1 =>
    refine ⟨h0, h1, rfl, rfl, trivial, ?_⟩
    refine ⟨by simp [Summary.new, SamplesTree.new, SamplesTree.samples,
      SamplesNode.flatten], ?_, rfl, trivial, trivial, trivial⟩
    simp [Summary.new, SamplesTree.new, SamplesTree.samples, SamplesNode.flatten]
  | insertOne v hr ih =>
    rename_i εc sc Sc
    obtain ⟨h0, h1, hεeq, hlen, hstruct, hstate⟩ := ih
    have hsorted : List.Sorted sampleLE sc.samplesTree.samples := hstate.2.1
    obtain ⟨hdisj, hstruct2, hlen2, hε2, -⟩ := insertOne_spec sc v hstruct hsorted
    refine ⟨h0, h1, by rw [hε2, hεeq], by rw [hlen2, hlen]; rfl, hstruct2, ?_⟩
    have hcap : capOf sc.maxExpectedError (sc.len + 1) = capOf εc (Sc.length + 1) := by
      rw [hεeq, hlen]
    have hpush := listPush_StateOk εc Sc sc.samplesTree.samples v h0 h1 hstate
    rcases hdisj with heq | heq
    · rw [heq, hcap]
      exact hpush
    · rw [heq, hcap]
      refine compressFlat_StateOk εc (v :: Sc) _ _ hpush ?_
      rw [List.length_cons]
      exact le_max_right _ _
  | compress hr ih =>
    rename_i εc sc Sc
    obtain ⟨h0, h1, hεeq, hlen, hstruct, hstate⟩ := ih
    obtain ⟨hsamp, hstruct2, hlen2, hε2, -⟩ := compress_spec sc
    refine ⟨h0, h1, by rw [hε2, hεeq], by rw [hlen2, hlen], hstruct2, ?_⟩
    rw [hsamp, hεeq, hlen]
    exact compressFlat_StateOk εc Sc _ _ hstate (le_max_right _ _)
  | merge hrA hrB hm ihA ihB =>
    rename_i εc εo sc so m Sc So
    obtain ⟨h0, h1, hεeq, hlen, hstruct, hstate⟩ := ihA
    obtain ⟨h0B, h1B, hεeqB, hlenB, hstructB, hstateB⟩ := ihB
    obtain ⟨hsamp, hstruct2, hlen2, hε2, -, hεle⟩ := merge_spec sc so m hm
    have hεba : εo ≤ εc := by
      rw [hεeq, hεeqB] at hεle
      exact hεle
    refine ⟨h0, h1, by rw [hε2, hεeq], ?_, hstruct2, ?_⟩
    · rw [hlen2, hlen, hlenB, List.length_append]
      omega
    · have hmerged := mergedSamples_StateOk εc εo Sc So
        sc.samplesTree.samples so.samplesTree.samples
        (le_of_lt h0) (le_of_lt h0B) hεba hstate hstateB
      rw [hsamp, hεeq, hlen, hlenB]
      refine compressFlat_StateOk εc (So ++ Sc) _ _ hmerged ?_
      rw [List.length_append, Nat.add_comm Sc.length So.length]
      exact le_max_right _ _

/-- Folding `insert_one` over a value list preserves reachability. -/
theorem Reach_foldl (ε : ℚ) :
    ∀ (vs : List T) (s : Summary T) (S : List T), Reach ε s S →
      Reach ε (vs.foldl Summary.insertOne s) (vs.reverse ++ S)
  | [], s, S, h => by simpa using h
  | v :: vs, s, S, h => by
    have hres := Reach_foldl ε vs (s.insertOne v) (v :: S) (Reach.insertOne v h)
    rw [List.foldl_cons]
    rw [show (v :: vs).reverse ++ S = vs.reverse ++ (v :: S) from by simp]
    exact hres

/-- Summaries built by inserting a list of values one by one are reachable,
representing the reversed list (streams are recorded most-recent-first). -/
theorem Reach_summaryOfList (ε : ℚ) (h0 : 0 < ε) (h1 : ε < 1 / 2) (vs : List T) :
    Reach ε (summaryOfList ε vs) vs.reverse := by
  have hres := Reach_foldl ε vs (Summary.new ε) [] (Reach.new ε h0 h1)
  simpa [summaryOfList] using hres

/-- Every stored sample respects the saturated budget. -/
theorem SamplesOk_bound_all (S : List T) (cap : ℕ) :
    ∀ (xs : List (Sample T)) (r0 : ℕ), SamplesOk S cap r0 xs →
      ∀ x ∈ xs, 1 ≤ x.g ∧ x.g + x.delta ≤ max 1 cap
  | [], _, _, x, hx => absurd hx (List.not_mem_nil x)
  | y :: xs, r0, h, x, hx => by
    obtain ⟨h1, h2, h3, h4, h5, h6⟩ := h
    rcases List.mem_cons.mp hx with rfl | hx
    · exact ⟨h1, h2⟩
    · exact SamplesOk_bound_all S cap xs (r0 + y.g) h6 x hx

end StatePreservation

/-!
## Remaining claims

The lifetime invariants (C2, C9), the empty-summary query behaviour (C7),
the weight conservation of the compressor (C10), and the query error bound
(C1), all over the reachable states of the API.
-/

section LifetimeClaims

variable {T : Type} [LinearOrder T]

/-- Claim C2 (amended): in every reachable summary the in-order samples
satisfy `g + delta ≤ max 1 ⌊2·ε·len⌋` — the budget saturates at 1, because
the first insertions happen while `⌊2·ε·len⌋ = 0` yet always store a sample
with `g = 1, delta = 0` (see `C2_invariant_counterexample` for the failure
of the unsaturated bound). -/
theorem C2_invariant_amended (ε : ℚ) (s : Summary T) (S : List T) (h : Reach ε s S) :
    ∀ x ∈ s.samplesTree.samples, x.g + x.delta ≤ max 1 (capOf ε s.len) := by
  obtain ⟨-, -, -, hlen, -, hstate⟩ := Reach_StateOk ε s S h
  rw [hlen]
  intro x hx
  exact (SamplesOk_bound_all S (capOf ε S.length) s.samplesTree.samples 0
    (hstate.2.2.2.1) x hx).2

/-- Claim C2, witness: the amended bound evaluated after a single insertion
at ε = 1/5, where the sole sample is `(0, 1, 0)` and the saturated budget is
`max 1 0 = 1`. -/
theorem C2_invariant_amended_witness :
    (⟨0, 1, 0⟩ : Sample ℤ) ∈ (summaryOfList (Rat.divInt 1 5)
      ([0] : List ℤ)).samplesTree.samples ∧
    (⟨0, 1, 0⟩ : Sample ℤ).g + (⟨0, 1, 0⟩ : Sample ℤ).delta ≤
      max 1 (capOf (Rat.divInt 1 5) (summaryOfList (Rat.divInt 1 5) ([0] : List ℤ)).len) :=
  ⟨by decide, C2_invariant_amended (Rat.divInt 1 5) _ (List.reverse [0])
    (Reach_summaryOfList (Rat.divInt 1 5)
      (by rw [Rat.divInt_eq_div]; norm_num) (by rw [Rat.divInt_eq_div]; norm_num) [0])
    ⟨0, 1, 0⟩ (by decide)⟩

/-- Claim C9: in every reachable non-empty summary, the in-order sample
sequence starts with an exact minimum (`g = 1`, `delta = 0`, value a stream
member at most every stream value) and ends with an exact maximum
(`delta = 0`, value a stream member at least every stream value). -/
theorem C9_min_max (ε : ℚ) (s : Summary T) (S : List T) (h : Reach ε s S)
    (hne : S ≠ []) :
    s.samplesTree.samples ≠ [] ∧
    (∀ h0, s.samplesTree.samples.head? = some h0 →
      h0.g = 1 ∧ h0.delta = 0 ∧ h0.value ∈ S ∧ ∀ x ∈ S, h0.value ≤ x) ∧
    (∀ l, s.samplesTree.samples.getLast? = some l →
      l.delta = 0 ∧ l.value ∈ S ∧ ∀ x ∈ S, x ≤ l.value) := by
  obtain ⟨-, -, -, -, -, hstate⟩ := Reach_StateOk ε s S h
  obtain ⟨hiff, hsort, hsum, hok, hhead, hlast⟩ := hstate
  have hxs : s.samplesTree.samples ≠ [] := fun h0 => hne (hiff.mp h0)
  refine ⟨hxs, ?_, ?_⟩
  · intro h0 hh0
    rcases hsamp : s.samplesTree.samples with - | ⟨y, ys⟩
    · exact absurd hsamp hxs
    rw [hsamp] at hh0 hhead hok
    simp only [List.head?_cons, Option.some.injEq] at hh0
    subst hh0
    simp only [headOk] at hhead
    obtain ⟨hg, hd, hmin⟩ := hhead
    exact ⟨hg, hd, hok.2.2.1, hmin⟩
  · intro l hl
    obtain ⟨hld, hlmax⟩ := lastOk_elim _ _ l hl hlast
    have hmem : l ∈ s.samplesTree.samples := by
      obtain ⟨ys, hys⟩ := List.getLast?_eq_some_iff.mp hl
      rw [hys]
      simp
    exact ⟨hld, SamplesOk_values S _ _ 0 hok l hmem, hlmax⟩

/-- Claim C9, witness: evaluated after inserting `[0]` at ε = 1/5: the head
and last sample is `(0, 1, 0)`, an exact minimum and maximum of the
stream `[0]`. -/
theorem C9_min_max_witness :
    (List.reverse ([0] : List ℤ) ≠ [] ∧
      (summaryOfList (Rat.divInt 1 5) ([0] : List ℤ)).samplesTree.samples ≠ []) ∧
    (∀ h0, (summaryOfList (Rat.divInt 1 5)
        ([0] : List ℤ)).samplesTree.samples.head? = some h0 →
      h0.g = 1 ∧ h0.delta = 0 ∧ h0.value ∈ List.reverse ([0] : List ℤ) ∧
        ∀ x ∈ List.reverse ([0] : List ℤ), h0.value ≤ x) := by
  have hres := C9_min_max (Rat.divInt 1 5) (summaryOfList (Rat.divInt 1 5) ([0] : List ℤ))
    (List.reverse [0])
    (Reach_summaryOfList (Rat.divInt 1 5)
      (by rw [Rat.divInt_eq_div]; norm_num) (by rw [Rat.divInt_eq_div]; norm_num) [0])
    (by decide)
  exact ⟨⟨by decide, hres.1⟩, hres.2.1⟩

end LifetimeClaims

section QueryClaims

variable {T : Type} [LinearOrder T]

/-- Claim C7 (amended): on a reachable empty summary (`len = 0`), `query`
and `query_with_error` return the no-result value for every quantile inside
[0, 1], but panic (in `quantile_to_rank`) for quantiles outside [0, 1] —
they do not "return nothing for every q". -/
theorem C7_query_amended (ε : ℚ) (s : Summary T) (h : Reach ε s [])
    (q : ℚ) :
    (0 ≤ q ∧ q ≤ 1 → s.queryWithError q = some none ∧ s.query q = some none) ∧
    (¬ (0 ≤ q ∧ q ≤ 1) → s.queryWithError q = none ∧ s.query q = none) := by
  obtain ⟨-, -, -, hlen, -, hstate⟩ := Reach_StateOk ε s [] h
  have hsamp : s.samplesTree.samples = [] := hstate.1.mpr rfl
  constructor
  · intro hq
    have hqr : quantileToRank q s.len =
        some (max (Int.toNat (-(-(q.num * (s.len : ℤ)) / (q.den : ℤ)))) 1) := by
      unfold quantileToRank
      rw [if_pos hq]
    constructor
    · unfold Summary.queryWithError
      rw [hqr, hsamp]
      rfl
    · unfold Summary.query Summary.queryWithError
      rw [hqr, hsamp]
      rfl
  · intro hq
    have hqr : quantileToRank q s.len = none := by
      unfold quantileToRank
      rw [if_neg hq]
    constructor
    · unfold Summary.queryWithError
      rw [hqr]
    · unfold Summary.query Summary.queryWithError
      rw [hqr]
      rfl

/-- Claim C7, witness: the empty summary at ε = 1/10 queried at q = 1/2
returns the no-result value. -/
theorem C7_query_amended_witness :
    ((0 : ℚ) ≤ Rat.divInt 1 2 ∧ (Rat.divInt 1 2 : ℚ) ≤ 1) ∧
    (Summary.new (T := ℤ) (Rat.divInt 1 10)).queryWithError (Rat.divInt 1 2) =
      some none ∧
    (Summary.new (T := ℤ) (Rat.divInt 1 10)).query (Rat.divInt 1 2) = some none := by
  have hb : (0 : ℚ) ≤ Rat.divInt 1 2 ∧ (Rat.divInt 1 2 : ℚ) ≤ 1 := by
    rw [Rat.divInt_eq_div]
    norm_num
  refine ⟨hb, ?_⟩
  exact (C7_query_amended (Rat.divInt 1 10) (Summary.new (Rat.divInt 1 10)) (Reach.new _
    (by rw [Rat.divInt_eq_div]; norm_num) (by rw [Rat.divInt_eq_div]; norm_num))
    (Rat.divInt 1 2)).1 hb

/-- Claim C10: for any budget, pushing any sample sequence through a fresh
`SamplesCompressor` and collecting `into_samples_tree` conserves the total
`g` weight; consequently bulk compression preserves the summary's total
weight and length, and a successful merge adds the two weights and
lengths. -/
theorem C10_weight_conservation :
    (∀ (budget : ℕ) (inputs : List (Sample T)),
      sumG ((inputs.foldl SamplesCompressor.push
        (SamplesCompressor.new budget)).intoSamplesTree).samples = sumG inputs) ∧
    (∀ s : Summary T,
      sumG s.compress.samplesTree.samples = sumG s.samplesTree.samples ∧
      s.compress.len = s.len) ∧
    (∀ s other m : Summary T, s.merge other = some m →
      sumG m.samplesTree.samples =
        sumG s.samplesTree.samples + sumG other.samplesTree.samples ∧
      m.len = s.len + other.len) := by
  refine ⟨?_, ?_, ?_⟩
  · intro budget inputs
    rw [(compressor_run budget inputs).1, compressFlat_sumG]
  · intro s
    obtain ⟨hsamp, -, hlen, -, -⟩ := compress_spec s
    rw [hsamp, compressFlat_sumG]
    exact ⟨rfl, hlen⟩
  · intro s other m hm
    obtain ⟨hsamp, -, hlen, -, -, -⟩ := merge_spec s other m hm
    rw [hsamp, compressFlat_sumG, mergedSamples_sumG]
    exact ⟨rfl, hlen⟩

/-- Claim C10, witness: weight conservation evaluated on a concrete
compressor run, and on a concrete successful merge of two summaries built
at ε = 1/4. -/
theorem C10_weight_conservation_witness :
    sumG ((([⟨1, 1, 0⟩, ⟨2, 1, 0⟩] : List (Sample ℤ)).foldl SamplesCompressor.push
        (SamplesCompressor.new 2)).intoSamplesTree).samples =
      sumG ([⟨1, 1, 0⟩, ⟨2, 1, 0⟩] : List (Sample ℤ)) ∧
    (summaryOfList (Rat.divInt 1 4) ([1, 2] : List ℤ)).merge
        (summaryOfList (Rat.divInt 1 4) ([3] : List ℤ)) =
      some ((summaryOfList (Rat.divInt 1 4) ([1, 2] : List ℤ)).mergeSortedSamples
        (summaryOfList (Rat.divInt 1 4) ([3] : List ℤ)).samplesTree.samples
        (summaryOfList (Rat.divInt 1 4) ([3] : List ℤ)).len) ∧
    sumG ((summaryOfList (Rat.divInt 1 4) ([1, 2] : List ℤ)).mergeSortedSamples
        (summaryOfList (Rat.divInt 1 4) ([3] : List ℤ)).samplesTree.samples
        (summaryOfList (Rat.divInt 1 4) ([3] : List ℤ)).len).samplesTree.samples =
      sumG (summaryOfList (Rat.divInt 1 4) ([1, 2] : List ℤ)).samplesTree.samples +
        sumG (summaryOfList (Rat.divInt 1 4) ([3] : List ℤ)).samplesTree.samples ∧
    ((summaryOfList (Rat.divInt 1 4) ([1, 2] : List ℤ)).mergeSortedSamples
        (summaryOfList (Rat.divInt 1 4) ([3] : List ℤ)).samplesTree.samples
        (summaryOfList (Rat.divInt 1 4) ([3] : List ℤ)).len).len =
      (summaryOfList (Rat.divInt 1 4) ([1, 2] : List ℤ)).len +
        (summaryOfList (Rat.divInt 1 4) ([3] : List ℤ)).len := by
  have hm : (summaryOfList (Rat.divInt 1 4) ([1, 2] : List ℤ)).merge
      (summaryOfList (Rat.divInt 1 4) ([3] : List ℤ)) =
      some ((summaryOfList (Rat.divInt 1 4) ([1, 2] : List ℤ)).mergeSortedSamples
        (summaryOfList (Rat.divInt 1 4) ([3] : List ℤ)).samplesTree.samples
        (summaryOfList (Rat.divInt 1 4) ([3] : List ℤ)).len) := by
    unfold Summary.merge
    rw [if_pos (by decide)]
  have hres := C10_weight_conservation.2.2
    (summaryOfList (Rat.divInt 1 4) ([1, 2] : List ℤ))
    (summaryOfList (Rat.divInt 1 4) ([3] : List ℤ)) _ hm
  exact ⟨C10_weight_conservation.1 2 [⟨1, 1, 0⟩, ⟨2, 1, 0⟩], hm, hres.1, hres.2⟩

end QueryClaims

section QueryBound

variable {T : Type} [LinearOrder T]

/-- `min_by_key` returns an element of the list. -/
theorem minByKeyFirst_mem {α : Type} :
    ∀ (l : List (α × ℕ)) (p : α × ℕ), minByKeyFirst l = some p → p ∈ l
  | [], p, h => Option.noConfusion h
  | x :: rest, p, h => by
    rw [minByKeyFirst] at h
    cases hr : minByKeyFirst rest with
    | none =>
      rw [hr] at h
      have h2 : some x = some p := h
      injection h2 with h2
      rw [← h2]
      exact List.mem_cons_self x rest
    | some y =>
      rw [hr] at h
      have h2 : (if x.2 ≤ y.2 then some x else some y) = some p := h
      split at h2
      · injection h2 with h2
        rw [← h2]
        exact List.mem_cons_self x rest
      · injection h2 with h2
        rw [← h2]
        exact List.mem_cons_of_mem x (minByKeyFirst_mem rest y hr)

/-- A cons always has a `min_by_key`. -/
theorem minByKeyFirst_cons_some {α : Type} (x : α × ℕ) (rest : List (α × ℕ)) :
    ∃ p, minByKeyFirst (x :: rest) = some p := by
  cases hr : minByKeyFirst rest with
  | none => exact ⟨x, by rw [minByKeyFirst, hr]⟩
  | some y =>
    by_cases hxy : x.2 ≤ y.2
    · refine ⟨x, ?_⟩
      rw [minByKeyFirst, hr]
      exact if_pos hxy
    · refine ⟨y, ?_⟩
      rw [minByKeyFirst, hr]
      exact if_neg hxy

/-- `min_by_key` returns none only on the empty list. -/
theorem minByKeyFirst_none {α : Type} :
    ∀ (l : List (α × ℕ)), minByKeyFirst l = none → l = []
  | [], _ => rfl
  | x :: rest, h => by
    obtain ⟨p, hp⟩ := minByKeyFirst_cons_some x rest
    rw [hp] at h
    exact Option.noConfusion h

/-- `min_by_key` returns an element with the minimal key. -/
theorem minByKeyFirst_le {α : Type} :
    ∀ (l : List (α × ℕ)) (p : α × ℕ), minByKeyFirst l = some p →
      ∀ r ∈ l, p.2 ≤ r.2
  | [], p, h => Option.noConfusion h
  | x :: rest, p, h => by
    rw [minByKeyFirst] at h
    cases hr : minByKeyFirst rest with
    | none =>
      rw [hr] at h
      have h2 : some x = some p := h
      injection h2 with h2
      subst h2
      have hrest : rest = [] := minByKeyFirst_none rest hr
      subst hrest
      intro r hrm
      rcases List.mem_cons.mp hrm with rfl | hrm
      · exact le_refl _
      · exact absurd hrm (List.not_mem_nil r)
    | some y =>
      rw [hr] at h
      have hIH := minByKeyFirst_le rest y hr
      have h2 : (if x.2 ≤ y.2 then some x else some y) = some p := h
      split at h2
      · rename_i hxy
        injection h2 with h2
        subst h2
        intro r hrm
        rcases List.mem_cons.mp hrm with rfl | hrm
        · exact le_refl _
        · exact le_trans hxy (hIH r hrm)
      · rename_i hxy
        injection h2 with h2
        subst h2
        intro r hrm
        rcases List.mem_cons.mp hrm with rfl | hrm
        · exact le_of_lt (not_le.mp hxy)
        · exact hIH r hrm

/-- Each rank-error entry is the `errAt` of a running minimum rank that is
rank-correct for its sample. -/
theorem rankErrors_mem_facts (S : List T) (cap target : ℕ) :
    ∀ (xs : List (Sample T)) (r0 : ℕ), SamplesOk S cap r0 xs →
      ∀ p ∈ rankErrors target r0 xs,
        ∃ minr, p.2 = errAt target minr p.1.delta ∧
          minr ≤ countLE S p.1.value ∧
          countLT S p.1.value < minr + p.1.delta ∧
          p.1.value ∈ S
  | [], _, _, p, hp => absurd hp (List.not_mem_nil p)
  | x :: xs, r0, h, p, hp => by
    obtain ⟨h1, h2, h3, h4, h5, h6⟩ := h
    have hp2 : p = (x, errAt target (r0 + x.g) x.delta) ∨
        p ∈ rankErrors target (r0 + x.g) xs := List.mem_cons.mp hp
    rcases hp2 with rfl | hp2
    · exact ⟨r0 + x.g, rfl, h4, h5, h3⟩
    · exact rankErrors_mem_facts S cap target xs (r0 + x.g) h6 p hp2

/-- The reported maximum rank error dominates the distance from the target
to both ends of the rank interval. -/
theorem errAt_ge (target minr delta : ℕ) :
    target ≤ minr + errAt target minr delta ∧
      minr + delta ≤ target + errAt target minr delta := by
  unfold errAt
  split
  · omega
  · omega

/-- The g+delta budget is at most twice the specification's error radius
plus one. -/
theorem capOf_le_two_epsFloor (ε : ℚ) (hε : 0 ≤ ε) (n : ℕ) :
    capOf ε n ≤ 2 * epsFloor ε n + 1 := by
  unfold capOf epsFloor
  have h1 : (⌊2 * ε * (n : ℚ)⌋ : ℤ) < 2 * ⌊ε * (n : ℚ)⌋ + 2 := by
    refine Int.floor_lt.mpr ?_
    have h2 : (ε * (n : ℚ)) < (⌊ε * (n : ℚ)⌋ : ℚ) + 1 := Int.lt_floor_add_one _
    push_cast
    linarith
  omega

/-- There is always a stored sample whose reported maximum rank error is at
most the error radius `e`, provided every sample's rank band is at most
`2e + 1` wide, the last sample is exact, and scanning starts inside the
allowance (`maxRank` of the first sample at most `target + e`). -/
theorem exists_err_le (e target N : ℕ) :
    ∀ (xs : List (Sample T)) (r0 : ℕ), xs ≠ [] →
      (∀ x ∈ xs, 1 ≤ x.g ∧ x.g + x.delta ≤ 2 * e + 1) →
      (∀ l, xs.getLast? = some l → l.delta = 0) →
      r0 + sumG xs = N →
      target ≤ N →
      (∀ x0, xs.head? = some x0 → r0 + x0.g + x0.delta ≤ target + e) →
      ∃ p ∈ rankErrors target r0 xs, p.2 ≤ e
  | [], r0, hne, hgd, hlast, hsum, htN, hhead => absurd rfl hne
  | [x], r0, hne, hgd, hlast, hsum, htN, hhead => by
    have hd : x.delta = 0 := hlast x rfl
    have hN : r0 + x.g = N := by
      rw [sumG_cons] at hsum
      simp only [sumG, List.map_nil, List.sum_nil] at hsum
      omega
    have hq := hhead x rfl
    refine ⟨(x, errAt target (r0 + x.g) x.delta), List.mem_cons_self _ _, ?_⟩
    unfold errAt
    split
    · omega
    · omega
  | x :: y :: rest, r0, hne, hgd, hlast, hsum, htN, hhead => by
    by_cases hq2 : (r0 + x.g) + y.g + y.delta ≤ target + e
    · have hIH := exists_err_le e target N (y :: rest) (r0 + x.g) (by simp)
        (fun z hz => hgd z (List.mem_cons_of_mem x hz))
        (fun l hl => hlast l (by rw [List.getLast?_cons_cons]; exact hl))
        (by rw [sumG_cons] at hsum; omega)
        htN
        (fun x0 hx0 => by
          simp only [List.head?_cons, Option.some.injEq] at hx0
          subst hx0
          exact hq2)
      obtain ⟨p, hp, hpe⟩ := hIH
      exact ⟨p, List.mem_cons_of_mem _ hp, hpe⟩
    · have hq1 := hhead x rfl
      obtain ⟨hgy, hgdy⟩ := hgd y (List.mem_cons_of_mem x (List.mem_cons_self y rest))
      have hminr : target ≤ (r0 + x.g) + e := by omega
      refine ⟨(x, errAt target (r0 + x.g) x.delta), List.mem_cons_self _ _, ?_⟩
      unfold errAt
      split
      · omega
      · omega

end QueryBound

section ClaimC1

variable {T : Type} [LinearOrder T]

/-- A nonempty list has a `min_by_key`. -/
theorem minByKeyFirst_some_of_ne_nil {α : Type} (l : List (α × ℕ)) (h : l ≠ []) :
    ∃ p, minByKeyFirst l = some p := by
  rcases l with - | ⟨x, rest⟩
  · exact absurd rfl h
  · exact minByKeyFirst_cons_some x rest

/-- Rank errors of a nonempty sample sequence form a nonempty list. -/
theorem rankErrors_ne_nil (target r0 : ℕ) (xs : List (Sample T)) (h : xs ≠ []) :
    rankErrors target r0 xs ≠ [] := by
  rcases xs with - | ⟨x, rest⟩
  · exact absurd rfl h
  · rw [rankErrors]
    simp

/-- Claim C1 (amended): for every reachable summary over a non-empty stream
of N values and every q ∈ [0, 1], the query answers with a stored value `v`
and SOME true occurrence rank ρ of `v` in the stream (a rank with
`countLT < ρ ≤ countLE`) lies within `⌊ε·N⌋` of the target rank
`quantile_to_rank(q, N)`.  (With repeated stream values the rank
`countLE S v` of the spec's own definition can differ from the target by
more than `⌊ε·N⌋` — see `C1_error_bound_counterexample`.) -/
theorem C1_error_bound_amended (ε : ℚ) (s : Summary T) (S : List T)
    (h : Reach ε s S) (hne : S ≠ []) (q : ℚ) (hq0 : 0 ≤ q) (hq1 : q ≤ 1) :
    ∃ target v relerr,
      quantileToRank q S.length = some target ∧
      s.queryWithError q = some (some (v, relerr)) ∧
      s.query q = some (some v) ∧
      ∃ ρ, countLT S v < ρ ∧ ρ ≤ countLE S v ∧
        ρ ≤ target + epsFloor ε S.length ∧
        target ≤ ρ + epsFloor ε S.length := by
  obtain ⟨hε0, hε2, hεeq, hlen, -, hstate⟩ := Reach_StateOk ε s S h
  obtain ⟨hiff, hsort, hsum, hok, hhead, hlast⟩ := hstate
  have hxs : s.samplesTree.samples ≠ [] := fun h0 => hne (hiff.mp h0)
  have hN1 : 1 ≤ S.length := List.length_pos.mpr hne
  have hqrank : quantileToRank q S.length =
      some (max (Int.toNat ⌈q * (S.length : ℚ)⌉) 1) := by
    rw [quantileToRank_spec, if_pos ⟨hq0, hq1⟩]
  have htN : max (Int.toNat ⌈q * (S.length : ℚ)⌉) 1 ≤ S.length := by
    have hqN : q * (S.length : ℚ) ≤ (S.length : ℚ) := by
      have hstep := mul_le_mul_of_nonneg_right hq1
        (by positivity : (0 : ℚ) ≤ (S.length : ℚ))
      simpa using hstep
    have hceil : ⌈q * (S.length : ℚ)⌉ ≤ (S.length : ℤ) :=
      Int.ceil_le.mpr (by exact_mod_cast hqN)
    omega
  have hε0x : (0 : ℚ) ≤ ε := le_of_lt hε0
  have hBound : ∀ x ∈ s.samplesTree.samples,
      1 ≤ x.g ∧ x.g + x.delta ≤ 2 * epsFloor ε S.length + 1 := by
    intro x hx
    obtain ⟨hg, hbd⟩ := SamplesOk_bound_all S (capOf ε S.length) _ 0 hok x hx
    have hc := capOf_le_two_epsFloor ε hε0x S.length
    exact ⟨hg, by omega⟩
  have hlastd : ∀ l, s.samplesTree.samples.getLast? = some l → l.delta = 0 :=
    fun l hl => (lastOk_elim _ _ l hl hlast).1
  have hheadq : ∀ x0, s.samplesTree.samples.head? = some x0 →
      0 + x0.g + x0.delta ≤
        max (Int.toNat ⌈q * (S.length : ℚ)⌉) 1 + epsFloor ε S.length := by
    intro x0 hx0
    rcases hsampeq : s.samplesTree.samples with - | ⟨h0, rest⟩
    · exact absurd hsampeq hxs
    rw [hsampeq] at hx0 hhead
    simp only [List.head?_cons, Option.some.injEq] at hx0
    subst hx0
    simp only [headOk] at hhead
    obtain ⟨hg, hd, -⟩ := hhead
    rw [hg, hd]
    have ht1 : 1 ≤ max (Int.toNat ⌈q * (S.length : ℚ)⌉) 1 := le_max_right _ _
    omega
  obtain ⟨p, hp, hpe⟩ := exists_err_le (epsFloor ε S.length)
    (max (Int.toNat ⌈q * (S.length : ℚ)⌉) 1) S.length
    s.samplesTree.samples 0 hxs hBound hlastd (by omega) htN hheadq
  obtain ⟨m, hm⟩ := minByKeyFirst_some_of_ne_nil
    (rankErrors (max (Int.toNat ⌈q * (S.length : ℚ)⌉) 1) 0 s.samplesTree.samples)
    (rankErrors_ne_nil _ 0 _ hxs)
  have hmmem := minByKeyFirst_mem _ m hm
  have hme : m.2 ≤ epsFloor ε S.length :=
    le_trans (minByKeyFirst_le _ m hm p hp) hpe
  obtain ⟨minr, hmerr, hminrLE, hminrLT, hmemS⟩ :=
    rankErrors_mem_facts S (capOf ε S.length)
      (max (Int.toNat ⌈q * (S.length : ℚ)⌉) 1) s.samplesTree.samples 0 hok m hmmem
  have hLTLE : countLT S m.1.value < countLE S m.1.value :=
    countLT_lt_countLE S m.1.value hmemS
  obtain ⟨hge1, hge2⟩ :=
    errAt_ge (max (Int.toNat ⌈q * (S.length : ℚ)⌉) 1) minr m.1.delta
  rw [← hmerr] at hge1 hge2
  have hquery : s.queryWithError q =
      some (some (m.1.value, Rat.divInt (m.2 : ℤ) (S.length : ℤ))) := by
    unfold Summary.queryWithError
    rw [hlen, hqrank]
    show some ((minByKeyFirst (rankErrors (max (Int.toNat ⌈q * (S.length : ℚ)⌉) 1) 0
        s.samplesTree.samples)).map
      (fun p => (p.1.value, Rat.divInt (p.2 : ℤ) (S.length : ℤ)))) = _
    rw [hm]
    rfl
  have hquery2 : s.query q = some (some m.1.value) := by
    unfold Summary.query
    rw [hquery]
    rfl
  refine ⟨max (Int.toNat ⌈q * (S.length : ℚ)⌉) 1, m.1.value,
    Rat.divInt (m.2 : ℤ) (S.length : ℤ), hqrank, hquery, hquery2, ?_⟩
  refine ⟨min (countLE S m.1.value)
    (max (max (Int.toNat ⌈q * (S.length : ℚ)⌉) 1) (countLT S m.1.value + 1)),
    ?_, ?_, ?_, ?_⟩ <;> omega

/-- Claim C1, witness: evaluated after inserting `[3, 1, 2]` at ε = 1/5 and
querying q = 1/2: the target rank is 2, the returned value is 2 with rank
ρ = 2, error 0 ≤ ⌊ε·3⌋ = 0. -/
theorem C1_error_bound_amended_witness :
    (List.reverse ([3, 1, 2] : List ℤ) ≠ [] ∧
      (0 : ℚ) ≤ Rat.divInt 1 2 ∧ (Rat.divInt 1 2 : ℚ) ≤ 1) ∧
    (∃ target v relerr,
      quantileToRank (Rat.divInt 1 2) (List.reverse ([3, 1, 2] : List ℤ)).length =
        some target ∧
      (summaryOfList (Rat.divInt 1 5) ([3, 1, 2] : List ℤ)).queryWithError
        (Rat.divInt 1 2) = some (some (v, relerr)) ∧
      (summaryOfList (Rat.divInt 1 5) ([3, 1, 2] : List ℤ)).query (Rat.divInt 1 2) =
        some (some v) ∧
      ∃ ρ, countLT (List.reverse ([3, 1, 2] : List ℤ)) v < ρ ∧
        ρ ≤ countLE (List.reverse ([3, 1, 2] : List ℤ)) v ∧
        ρ ≤ target + epsFloor (Rat.divInt 1 5) (List.reverse ([3, 1, 2] : List ℤ)).length ∧
        target ≤ ρ + epsFloor (Rat.divInt 1 5)
          (List.reverse ([3, 1, 2] : List ℤ)).length) :=
  ⟨⟨by decide, by rw [Rat.divInt_eq_div]; norm_num, by rw [Rat.divInt_eq_div]; norm_num⟩,
    C1_error_bound_amended (Rat.divInt 1 5)
      (summaryOfList (Rat.divInt 1 5) ([3, 1, 2] : List ℤ))
      (List.reverse ([3, 1, 2] : List ℤ))
      (Reach_summaryOfList (Rat.divInt 1 5)
        (by rw [Rat.divInt_eq_div]; norm_num) (by rw [Rat.divInt_eq_div]; norm_num)
        [3, 1, 2])
      (by decide) (Rat.divInt 1 2)
      (by rw [Rat.divInt_eq_div]; norm_num) (by rw [Rat.divInt_eq_div]; norm_num)⟩

end ClaimC1
